import Mathlib

/-! Bundle store of `server/server.go`.

A shallow embedding of the in-memory bundle store (`RpcEndPointServer`) and of its four
operations `addTxToBundle` (Append), `getBundleTxs` (List), `deleteBundleTxs` (Delete) and
`cleanup` (Sweep), followed by the properties proved about them.

Conventions.
* A Go `map[string]*bundleData` is an association list read through `mapGet` (first match);
  every bundle pointer is stored under exactly one key, so the pointee is kept by value.
* `time.Now()` is an explicit argument `now`, a reading of the monotonic clock in nanoseconds.
* Go `int`/`int64` values are integers; the one subtraction that can leave the 64-bit range
  (`len - maxTxs`) is wrapped explicitly.
* A run-time panic (slice bounds out of range) is `Except.error`, carrying the store as the
  panicking call left it.
* The transport adapter of `server/handler.go` works on a response writer kept as
  `httptest.ResponseRecorder` keeps it; JSON decoding and encoding are parameters.
* A second embedding, under `Mem`, keeps the record sequences as slice headers over backing
  arrays; it stands for the first one call by call and is used where sharing of storage
  matters.
-/

namespace BundleServer

/-! ## Machine integers and time -/

/-- Largest `int64`. -/
def maxInt64 : Int := 2 ^ 63 - 1

/-- Smallest `int64`. -/
def minInt64 : Int := -(2 ^ 63)

/-- Two's-complement wrap of an integer into the `int64` range. -/
def wrap64 (x : Int) : Int := (x + 2 ^ 63) % 2 ^ 64 - 2 ^ 63

/-- Largest `time.Duration` (an `int64` count of nanoseconds). -/
def maxDuration : Int := maxInt64

/-- Smallest `time.Duration`. -/
def minDuration : Int := minInt64

/-- Go `time.Minute` in nanoseconds. -/
def Minute : Int := 60 * 1000000000

/-- Go `Time.Sub`: the duration `t - u`; when the difference does not fit a `Duration` the
maximum (or minimum) duration is returned. -/
def Sub (t u : Int) : Int :=
  if t - u > maxDuration then maxDuration
  else if t - u < minDuration then minDuration
  else t - u

/-- A value that `time.Now()` can return: a non-negative `int64` monotonic reading. -/
def isTime (t : Int) : Prop := 0 ≤ t ∧ t ≤ maxInt64

instance (t : Int) : Decidable (isTime t) := by unfold isTime; infer_instance

/-! ## Data model -/

/-- The Go struct `bundleData`. -/
structure bundleData where
  transactions : List String
  createdAt : Int
deriving DecidableEq, Repr

/-- The Go struct `RpcEndPointServer` without its mutex and logger. -/
structure RpcEndPointServer where
  bundles : List (String × bundleData)
  maxAge : Int
  maxTxs : Int
deriving DecidableEq, Repr

deriving instance DecidableEq for Except

/-- A Go `error` value; `none` is `nil`. -/
abbrev error := Option String

/-- Map read `m[id]` with the comma-ok result as an option. -/
def mapGet : List (String × bundleData) → String → Option bundleData
  | [], _ => none
  | (k, v) :: m, id => if k = id then some v else mapGet m id

/-- Map write `m[id] = b`; also the effect of writing through the pointer stored at `id`. -/
def mapSet : List (String × bundleData) → String → bundleData → List (String × bundleData)
  | [], id, b => [(id, b)]
  | (k, v) :: m, id, b => if k = id then (id, b) :: m else (k, v) :: mapSet m id b

/-- Go builtin `delete(m, id)`. -/
def mapDelete (m : List (String × bundleData)) (id : String) : List (String × bundleData) :=
  m.filter (fun e => decide (e.1 ≠ id))

/-- The keys a `range` loop over the map visits. -/
def mapKeys (m : List (String × bundleData)) : List String := m.map Prod.fst

/-! ## Operations -/

/-- The store built by `NewRpcEndPointServer` (the clean-up goroutine is driven from outside
through `cleanup`). -/
def NewRpcEndPointServer : RpcEndPointServer :=
  { bundles := [], maxAge := 10 * Minute, maxTxs := 15 }

/-- One iteration of the loop in `cleanup`: the entry at `id`, if still in the map, is deleted
when `now.Sub(bundle.createdAt) > maxAge`. -/
def cleanupStep (maxAge now : Int) (m : List (String × bundleData)) (id : String) :
    List (String × bundleData) :=
  match mapGet m id with
  | some bundle => if Sub now bundle.createdAt > maxAge then mapDelete m id else m
  | none => m

/-- Sweep: `cleanup`, with `now` the value of `time.Now()`. -/
def cleanup (s : RpcEndPointServer) (now : Int) : RpcEndPointServer :=
  { s with bundles := (mapKeys s.bundles).foldl (cleanupStep s.maxAge now) s.bundles }

/-- List: `getBundleTxs`. -/
def getBundleTxs (s : RpcEndPointServer) (bundleID : String) : List String × error :=
  match mapGet s.bundles bundleID with
  | some bundle => (bundle.transactions, none)
  | none => ([], none)

/-- The tail of `addTxToBundle` once `bundle` is the entry at `bundleID` in `bundles`:
duplicate check, append, trim. -/
def addTxToBundle.store (s : RpcEndPointServer) (bundles : List (String × bundleData))
    (bundle : bundleData) (bundleID rawTx : String) :
    Except RpcEndPointServer (RpcEndPointServer × error) :=
  if rawTx ∈ bundle.transactions then
    .ok ({ s with bundles := bundles }, none)
  else
    let txs := bundle.transactions ++ [rawTx]
    let appended := mapSet bundles bundleID { bundle with transactions := txs }
    if (txs.length : Int) > s.maxTxs then
      let start := wrap64 ((txs.length : Int) - s.maxTxs)
      if 0 ≤ start ∧ start ≤ (txs.length : Int) then
        .ok ({ s with bundles :=
                mapSet bundles bundleID { bundle with transactions := txs.drop start.toNat } },
             none)
      else
        .error { s with bundles := appended }
    else
      .ok ({ s with bundles := appended }, none)

/-- Append: `addTxToBundle`, with `now` the value of `time.Now()`. -/
def addTxToBundle (s : RpcEndPointServer) (now : Int) (bundleID rawTx : String) :
    Except RpcEndPointServer (RpcEndPointServer × error) :=
  match mapGet s.bundles bundleID with
  | some bundle => addTxToBundle.store s s.bundles bundle bundleID rawTx
  | none =>
    let bundle : bundleData := { transactions := [], createdAt := now }
    addTxToBundle.store s (mapSet s.bundles bundleID bundle) bundle bundleID rawTx

/-- Delete: `deleteBundleTxs`. -/
def deleteBundleTxs (s : RpcEndPointServer) (bundleID : String) : RpcEndPointServer × error :=
  ({ s with bundles := mapDelete s.bundles bundleID }, none)

/-- The records kept by the trim of `addTxToBundle` when it does not fail: the last `maxTxs`
elements of the appended slice (all of it when it is not longer than `maxTxs`). -/
def trim (maxTxs : Int) (txs : List String) : List String :=
  txs.drop (txs.length - maxTxs.toNat)

/-- One call on the store, as the transport adapter or the ticker issues it. -/
inductive Call where
  | Append (bundleID rawTx : String) (now : Int)
  | Delete (bundleID : String)
  | Sweep (now : Int)
deriving DecidableEq, Repr

/-- The store after one call; `Except.error` when the call panics. -/
def Call.exec (s : RpcEndPointServer) : Call → Except RpcEndPointServer RpcEndPointServer
  | .Append bundleID rawTx now =>
    match addTxToBundle s now bundleID rawTx with
    | .ok (s', _) => .ok s'
    | .error s' => .error s'
  | .Delete bundleID => .ok (deleteBundleTxs s bundleID).1
  | .Sweep now => .ok (cleanup s now)

/-- The store after a sequence of calls, stopping at the first panic. -/
def run (s : RpcEndPointServer) : List Call → Except RpcEndPointServer RpcEndPointServer
  | [] => .ok s
  | c :: cs =>
    match c.exec s with
    | .ok s' => run s' cs
    | .error s' => .error s'

/-- The store `NewRpcEndPointServer` builds, with the two tunables as given. -/
def emptyStore (maxAge maxTxs : Int) : RpcEndPointServer :=
  { NewRpcEndPointServer with maxAge := maxAge, maxTxs := maxTxs }

/-- The bundle `addTxToBundle` works on: the one stored at `bundleID`, or a fresh empty one
created at `now`. -/
def bundleAt (s : RpcEndPointServer) (now : Int) (bundleID : String) : bundleData :=
  (mapGet s.bundles bundleID).getD { transactions := [], createdAt := now }

/-- The bundle a successful `addTxToBundle` leaves at `bundleID`. -/
def nextBundle (s : RpcEndPointServer) (now : Int) (bundleID rawTx : String) : bundleData :=
  { bundleAt s now bundleID with
    transactions :=
      (if rawTx ∈ (bundleAt s now bundleID).transactions then (bundleAt s now bundleID).transactions
       else trim s.maxTxs ((bundleAt s now bundleID).transactions ++ [rawTx])) }

/-- The sequence `List(bundleID)` returns: the first component of `getBundleTxs`. -/
def records (s : RpcEndPointServer) (bundleID : String) : List String :=
  (getBundleTxs s bundleID).1

/-- The store a call of `addTxToBundle` leaves behind, whether it returned or panicked. -/
def storeAfter : Except RpcEndPointServer (RpcEndPointServer × error) → RpcEndPointServer
  | .ok (s, _) => s
  | .error s => s

/-- The calls appending the records of `l`, each at its own time, to one bundle. -/
def appends (bundleID : String) (l : List (String × Int)) : List Call :=
  l.map (fun p => Call.Append bundleID p.1 p.2)

/-- What the store maintains for one bundle: at most `maxTxs` records, no two of them equal. -/
def bundleOk (maxTxs : Int) (b : bundleData) : Prop :=
  (b.transactions.length : Int) ≤ maxTxs ∧ b.transactions.Nodup

/-- What the store maintains: a non-negative capacity and `bundleOk` for every bundle. -/
def storeOk (s : RpcEndPointServer) : Prop :=
  0 ≤ s.maxTxs ∧ ∀ e ∈ s.bundles, bundleOk s.maxTxs e.2

/-- What one visit of the `cleanup` loop does to the entry it visits: the bundle goes when
`now.Sub(bundle.createdAt) > maxAge`, and stays as it is otherwise. -/
def sweepEntry (maxAge now : Int) : Option bundleData → Option bundleData
  | some b => if Sub now b.createdAt > maxAge then none else some b
  | none => none

/-- The sequence `List(bundleID)` returns after the appends of `l` (records with their times)
to `bundleID`, starting from the empty store. -/
def listAfter (maxAge maxTxs : Int) (bundleID : String) (l : List (String × Int)) :
    List String :=
  match run (emptyStore maxAge maxTxs) (appends bundleID l) with
  | .ok s' => records s' bundleID
  | .error s' => records s' bundleID

/-- The number (from 0) of the first Append of `x` in the call sequence `l`; `l.length` when
there is none. -/
def firstAppend (l : List (String × Int)) (x : String) : Nat :=
  (l.map Prod.fst).indexOf x

/-- Whether call number `k` of `l` is an Append of `x` that inserted it: `x` was not listed
by the store the first `k` calls produced, so the call was not a duplicate no-op. -/
def insertsAt (maxAge maxTxs : Int) (bundleID : String) (l : List (String × Int))
    (x : String) (k : Nat) : Bool :=
  match l[k]? with
  | some p => decide (p.1 = x ∧ x ∉ listAfter maxAge maxTxs bundleID (l.take k))
  | none => false

/-- The number of the last call of `l` that inserted `x`, if any. -/
def lastInsertion (maxAge maxTxs : Int) (bundleID : String) (l : List (String × Int))
    (x : String) : Option Nat :=
  ((List.range l.length).filter (insertsAt maxAge maxTxs bundleID l x)).getLast?

/-- The last call that inserted `x` comes before the last call that inserted `y`. -/
def insertedBefore (maxAge maxTxs : Int) (bundleID : String) (l : List (String × Int))
    (x y : String) : Prop :=
  ∃ i j, lastInsertion maxAge maxTxs bundleID l x = some i ∧
    lastInsertion maxAge maxTxs bundleID l y = some j ∧ i < j

/-- The number of distinct records among the Appends of `l`. -/
def distinctRecords (l : List (String × Int)) : Nat :=
  (l.map Prod.fst).dedup.length

/-- The store a call leaves behind, whether it returned or panicked (`net/http` recovers a
panicking handler, the deferred `Unlock` has run, and the server goes on). -/
def Call.leaves (s : RpcEndPointServer) (c : Call) : RpcEndPointServer :=
  match c.exec s with
  | .ok s' => s'
  | .error s' => s'

/-- The store after a sequence of calls, going on after a panic. -/
def runThrough (s : RpcEndPointServer) (cs : List Call) : RpcEndPointServer :=
  cs.foldl Call.leaves s

/-- The condition of the trim branch of `addTxToBundle`, on the slice after the append:
`len(bundle.transactions) > s.maxTxs`. -/
def trimTaken (maxTxs : Int) (txs : List String) : Prop :=
  (txs.length : Int) > maxTxs

instance (maxTxs : Int) (txs : List String) : Decidable (trimTaken maxTxs txs) := by
  unfold trimTaken; infer_instance

/-- The start index of the trim slice, `len(bundle.transactions) - s.maxTxs`, as the `int`
subtraction computes it. -/
def trimStart (maxTxs : Int) (txs : List String) : Int :=
  wrap64 ((txs.length : Int) - maxTxs)

/-- Whether `txs[low:]` is a legal slice expression: `0 ≤ low ≤ len(txs)`. -/
def sliceInRange (low : Int) (txs : List String) : Prop :=
  0 ≤ low ∧ low ≤ (txs.length : Int)

instance (low : Int) (txs : List String) : Decidable (sliceInRange low txs) := by
  unfold sliceInRange; infer_instance

/-! ## Transport adapter (`server/handler.go`, `server/types.go`) -/

/-- The Go struct `BundleResponse`. -/
structure BundleResponse where
  BundleID : String
  RawTxs : List String
deriving DecidableEq, Repr

/-- The Go struct `TransactionRequest`. -/
structure TransactionRequest where
  RawTx : String
deriving DecidableEq, Repr

/-- The part of an `*http.Request` the handler reads: the method, the parsed query
`r.URL.Query()` as key-value pairs in order, and the body. -/
structure Request where
  Method : String
  Query : List (String × String)
  Body : String
deriving DecidableEq, Repr

/-- An `http.ResponseWriter` as `httptest.ResponseRecorder` keeps it: the header map
`w.Header()`, whether the status line went out, the status code, the headers as they were when
it went out, and the body written. -/
structure ResponseWriter where
  header : List (String × String)
  wroteHeader : Bool
  Code : Nat
  sent : List (String × String)
  Body : String
deriving DecidableEq, Repr

/-- A recorder as `httptest.NewRecorder` builds it. -/
def NewRecorder : ResponseWriter :=
  { header := [], wroteHeader := false, Code := 200, sent := [], Body := "" }

/-- Go `url.Values.Get`: the first value of the key, the empty string when there is none. -/
def queryGet : List (String × String) → String → String
  | [], _ => ""
  | (k, v) :: q, key => if k = key then v else queryGet q key

/-- Go `Header.Get` on a map written with `Set` only. -/
def headerGet : List (String × String) → String → Option String
  | [], _ => none
  | (k, v) :: h, key => if k = key then some v else headerGet h key

/-- Go `Header.Del`. -/
def headerDel (h : List (String × String)) (key : String) : List (String × String) :=
  h.filter (fun e => decide (e.1 ≠ key))

/-- Go `Header.Set`: the key gets this one value. -/
def headerSet (h : List (String × String)) (key value : String) : List (String × String) :=
  (key, value) :: headerDel h key

/-- `w.Header().Set(key, value)`. -/
def ResponseWriter.Set (w : ResponseWriter) (key value : String) : ResponseWriter :=
  { w with header := headerSet w.header key value }

/-- `w.WriteHeader(code)`: the first call fixes the code and the headers. -/
def ResponseWriter.WriteHeader (w : ResponseWriter) (code : Nat) : ResponseWriter :=
  if w.wroteHeader then w
  else { w with wroteHeader := true, Code := code, sent := w.header }

/-- `w.Write(data)`: writes the status line with code 200 first when none went out. -/
def ResponseWriter.Write (w : ResponseWriter) (data : String) : ResponseWriter :=
  { w.WriteHeader 200 with Body := (w.WriteHeader 200).Body ++ data }

/-- Go `http.Error(w, msg, code)`. -/
def httpError (w : ResponseWriter) (msg : String) (code : Nat) : ResponseWriter :=
  ((({ w with header := headerDel w.header "Content-Length" }.Set
      "Content-Type" "text/plain; charset=utf-8").Set
      "X-Content-Type-Options" "nosniff").WriteHeader code).Write (msg ++ "\n")

/-- The function `setCorsHeaders`. -/
def setCorsHeaders (w : ResponseWriter) : ResponseWriter :=
  ((w.Set "Access-Control-Allow-Origin" "*").Set
      "Access-Control-Allow-Methods" "GET, POST, DELETE, OPTIONS").Set
      "Access-Control-Allow-Headers" "Accept, Content-Type, Content-Length, Accept-Encoding"

/-- The method `handleGetBundle`; `encode` is `json.NewEncoder(w).Encode`, giving the bytes it
writes or `none` for an error. -/
def handleGetBundle (encode : BundleResponse → Option String) (s : RpcEndPointServer)
    (w : ResponseWriter) (bundleID : String) : ResponseWriter × RpcEndPointServer :=
  match getBundleTxs s bundleID with
  | (_, some _) => (httpError w "failed to get bundle transactions" 500, s)
  | (txs, none) =>
    let w1 := w.Set "Content-Type" "application/json"
    match encode { BundleID := bundleID, RawTxs := txs } with
    | some bytes => (w1.Write bytes, s)
    | none => (httpError w1 "failed to encode response" 500, s)

/-- The method `handleAddTransaction`; `decode` is `json.NewDecoder(r.Body).Decode`, giving the
decoded request or `none` for an error. A panic of `addTxToBundle` leaves the handler with the
writer as it is and the store as the call left it. -/
def handleAddTransaction (decode : String → Option TransactionRequest) (s : RpcEndPointServer)
    (now : Int) (w : ResponseWriter) (r : Request) (bundleID : String) :
    Except (ResponseWriter × RpcEndPointServer) (ResponseWriter × RpcEndPointServer) :=
  match decode r.Body with
  | none => .ok (httpError w "invalid request body" 400, s)
  | some txReq =>
    if txReq.RawTx = "" then
      .ok (httpError w "rawTx is required" 400, s)
    else
      match addTxToBundle s now bundleID txReq.RawTx with
      | .error s' => .error (w, s')
      | .ok (s', some _) => .ok (httpError w "failed to add transaction to bundle" 500, s')
      | .ok (s', none) => .ok (w.WriteHeader 200, s')

/-- The method `handleDeleteBundle`. -/
def handleDeleteBundle (s : RpcEndPointServer) (w : ResponseWriter) (bundleID : String) :
    ResponseWriter × RpcEndPointServer :=
  match deleteBundleTxs s bundleID with
  | (s', some _) => (httpError w "failed to delete bundle" 500, s')
  | (s', none) => (w.WriteHeader 200, s')

/-- The method `HandleBundleRequest`: the writer and the store it leaves, `Except.error` when
it panics. -/
def HandleBundleRequest (decode : String → Option TransactionRequest)
    (encode : BundleResponse → Option String) (s : RpcEndPointServer) (now : Int)
    (w : ResponseWriter) (r : Request) :
    Except (ResponseWriter × RpcEndPointServer) (ResponseWriter × RpcEndPointServer) :=
  let w := setCorsHeaders w
  if r.Method = "OPTIONS" then
    .ok (w.WriteHeader 200, s)
  else
    let bundleID := queryGet r.Query "id"
    if bundleID = "" then
      .ok (httpError w "no bundle id" 400, s)
    else if r.Method = "GET" then
      .ok (handleGetBundle encode s w bundleID)
    else if r.Method = "POST" then
      handleAddTransaction decode s now w r bundleID
    else if r.Method = "DELETE" then
      .ok (handleDeleteBundle s w bundleID)
    else
      .ok (w.WriteHeader 405, s)

/-- The three cross-origin headers with the values `setCorsHeaders` gives them. -/
def hasCors (h : List (String × String)) : Prop :=
  headerGet h "Access-Control-Allow-Origin" = some "*" ∧
  headerGet h "Access-Control-Allow-Methods" = some "GET, POST, DELETE, OPTIONS" ∧
  headerGet h "Access-Control-Allow-Headers"
    = some "Accept, Content-Type, Content-Length, Accept-Encoding"

instance (h : List (String × String)) : Decidable (hasCors h) := by
  unfold hasCors; infer_instance

/-! ## Slices in memory

The same store with the record sequences as Go slices: headers pointing into backing arrays on
a heap. `grow` is the spare capacity `append` asks for when it has to reallocate. -/

/-- A Go slice header of a `[]string`: the number of its backing array on the heap, the offset
of element 0 in that array, the length and the capacity. -/
structure Slice where
  array : Nat
  off : Nat
  len : Nat
  cap : Nat
deriving DecidableEq, Repr

/-- The Go struct `bundleData` with `transactions` as a slice header. -/
structure Mem.bundleData where
  transactions : Slice
  createdAt : Int
deriving DecidableEq, Repr

/-- The Go struct `RpcEndPointServer` together with the heap of backing arrays. -/
structure Mem.RpcEndPointServer where
  heap : List (List String)
  bundles : List (String × Mem.bundleData)
  maxAge : Int
  maxTxs : Int
deriving DecidableEq, Repr

/-- The elements of a slice: `sl[0], ..., sl[len-1]`. -/
def Slice.read (heap : List (List String)) (sl : Slice) : List String :=
  ((heap.getD sl.array []).drop sl.off).take sl.len

/-- The assignment `a[i] = x` on backing array number `a`. -/
def heapWrite (heap : List (List String)) (a i : Nat) (x : String) : List (List String) :=
  heap.set a ((heap.getD a []).set i x)

/-- The assignment `sl[i] = x` made through a slice header; out of range it panics and
writes nothing. -/
def Slice.write (heap : List (List String)) (sl : Slice) (i : Nat) (x : String) :
    List (List String) :=
  if i < sl.len then heapWrite heap sl.array (sl.off + i) x else heap

/-- The slice expression `sl[k:]`. -/
def Slice.reslice (sl : Slice) (k : Nat) : Slice :=
  { array := sl.array, off := sl.off + k, len := sl.len - k, cap := sl.cap - k }

/-- The empty slice of `make([]string, 0)` and of the literal `[]string{}`: length and capacity
0, on a zero-size array that nothing reads or writes. -/
def Slice.empty (heap : List (List String)) : List (List String) × Slice :=
  (heap ++ [[]], { array := heap.length, off := 0, len := 0, cap := 0 })

/-- Go builtin `append(sl, x)`: within capacity it writes `x` behind the last element of the
backing array; otherwise it copies the elements to a new array with room for `x` and `grow`
spare elements. -/
def Slice.append (grow : Nat → Nat) (heap : List (List String)) (sl : Slice) (x : String) :
    List (List String) × Slice :=
  if sl.len < sl.cap then
    (heapWrite heap sl.array (sl.off + sl.len) x, { sl with len := sl.len + 1 })
  else
    (heap ++ [sl.read heap ++ [x] ++ List.replicate (grow (sl.len + 1)) ""],
     { array := heap.length, off := 0, len := sl.len + 1,
       cap := sl.len + 1 + grow (sl.len + 1) })

/-- Map read for the store in memory. -/
def Mem.mapGet : List (String × Mem.bundleData) → String → Option Mem.bundleData
  | [], _ => none
  | (k, v) :: m, id => if k = id then some v else Mem.mapGet m id

/-- Map write for the store in memory. -/
def Mem.mapSet : List (String × Mem.bundleData) → String → Mem.bundleData →
    List (String × Mem.bundleData)
  | [], id, b => [(id, b)]
  | (k, v) :: m, id, b => if k = id then (id, b) :: m else (k, v) :: Mem.mapSet m id b

/-- Go builtin `delete(m, id)` for the store in memory. -/
def Mem.mapDelete (m : List (String × Mem.bundleData)) (id : String) :
    List (String × Mem.bundleData) :=
  m.filter (fun e => decide (e.1 ≠ id))

/-- One iteration of the loop in `cleanup`, on the store in memory. -/
def Mem.cleanupStep (maxAge now : Int) (m : List (String × Mem.bundleData)) (id : String) :
    List (String × Mem.bundleData) :=
  match Mem.mapGet m id with
  | some bundle => if Sub now bundle.createdAt > maxAge then Mem.mapDelete m id else m
  | none => m

/-- Sweep on the store in memory: `cleanup` touches no backing array. -/
def Mem.cleanup (m : Mem.RpcEndPointServer) (now : Int) : Mem.RpcEndPointServer :=
  { m with bundles :=
      ((m.bundles.map Prod.fst).foldl (Mem.cleanupStep m.maxAge now) m.bundles) }

/-- List on the store in memory: `getBundleTxs` returns the slice header stored in the bundle,
or the literal `[]string{}`. -/
def Mem.getBundleTxs (m : Mem.RpcEndPointServer) (bundleID : String) : Slice × error :=
  match Mem.mapGet m.bundles bundleID with
  | some bundle => (bundle.transactions, none)
  | none => ((Slice.empty m.heap).2, none)

/-- The tail of `addTxToBundle` on the store in memory, once `bundle` is the entry at
`bundleID` in `bundles`: duplicate check over the elements, `append`, trim by reslicing. -/
def Mem.addTxToBundle.store (grow : Nat → Nat) (m : Mem.RpcEndPointServer)
    (heap : List (List String)) (bundles : List (String × Mem.bundleData))
    (bundle : Mem.bundleData) (bundleID rawTx : String) :
    Except Mem.RpcEndPointServer (Mem.RpcEndPointServer × error) :=
  if rawTx ∈ bundle.transactions.read heap then
    .ok ({ m with heap := heap, bundles := bundles }, none)
  else
    let heap1 := (Slice.append grow heap bundle.transactions rawTx).1
    let txs := (Slice.append grow heap bundle.transactions rawTx).2
    let appended := Mem.mapSet bundles bundleID { bundle with transactions := txs }
    if (txs.len : Int) > m.maxTxs then
      let start := wrap64 ((txs.len : Int) - m.maxTxs)
      if 0 ≤ start ∧ start ≤ (txs.len : Int) then
        .ok ({ m with heap := heap1, bundles :=
                (Mem.mapSet bundles bundleID
                  { bundle with transactions := txs.reslice start.toNat }) },
             none)
      else
        .error { m with heap := heap1, bundles := appended }
    else
      .ok ({ m with heap := heap1, bundles := appended }, none)

/-- Append on the store in memory: `addTxToBundle`. -/
def Mem.addTxToBundle (grow : Nat → Nat) (m : Mem.RpcEndPointServer) (now : Int)
    (bundleID rawTx : String) : Except Mem.RpcEndPointServer (Mem.RpcEndPointServer × error) :=
  match Mem.mapGet m.bundles bundleID with
  | some bundle => Mem.addTxToBundle.store grow m m.heap m.bundles bundle bundleID rawTx
  | none =>
    let bundle : Mem.bundleData :=
      { transactions := (Slice.empty m.heap).2, createdAt := now }
    Mem.addTxToBundle.store grow m (Slice.empty m.heap).1
      (Mem.mapSet m.bundles bundleID bundle) bundle bundleID rawTx

/-- Delete on the store in memory: `deleteBundleTxs`. -/
def Mem.deleteBundleTxs (m : Mem.RpcEndPointServer) (bundleID : String) :
    Mem.RpcEndPointServer × error :=
  ({ m with bundles := Mem.mapDelete m.bundles bundleID }, none)

/-- The store in memory that `NewRpcEndPointServer` builds, with the tunables as given. -/
def Mem.emptyStore (maxAge maxTxs : Int) : Mem.RpcEndPointServer :=
  { heap := [], bundles := [], maxAge := maxAge, maxTxs := maxTxs }

/-- The store in memory a call leaves behind, whether it returned or panicked. -/
def Mem.leaves (grow : Nat → Nat) (m : Mem.RpcEndPointServer) : Call → Mem.RpcEndPointServer
  | .Append bundleID rawTx now =>
    match Mem.addTxToBundle grow m now bundleID rawTx with
    | .ok (m', _) => m'
    | .error m' => m'
  | .Delete bundleID => (Mem.deleteBundleTxs m bundleID).1
  | .Sweep now => Mem.cleanup m now

/-- The store in memory after a sequence of calls. -/
def Mem.runThrough (grow : Nat → Nat) (m : Mem.RpcEndPointServer) (cs : List Call) :
    Mem.RpcEndPointServer :=
  cs.foldl (Mem.leaves grow) m

/-- The store in memory a call of `addTxToBundle` leaves behind, returning or panicking. -/
def Mem.storeAfter :
    Except Mem.RpcEndPointServer (Mem.RpcEndPointServer × error) → Mem.RpcEndPointServer
  | .ok (m, _) => m
  | .error m => m

/-- The end of a slice in its backing array. -/
def Slice.stop (sl : Slice) : Nat := sl.off + sl.len

/-- What keeps the elements of a slice `v` held by a caller out of the store's way: the array
of `v` exists, and every bundle slice on that array ends at or after the end of `v`, so the
store's next write on the array falls behind `v`. -/
def Mem.behind (heap : List (List String)) (bundles : List (String × Mem.bundleData))
    (v : Slice) : Prop :=
  v.array < heap.length ∧
  ∀ e ∈ bundles, e.2.transactions.array = v.array → v.stop ≤ e.2.transactions.stop

/-- A slice header that fits the heap: its array exists and holds `off + cap` elements, and
`len ≤ cap`. -/
def Slice.valid (heap : List (List String)) (sl : Slice) : Prop :=
  sl.array < heap.length ∧ sl.off + sl.cap ≤ (heap.getD sl.array []).length ∧ sl.len ≤ sl.cap

/-- What the store in memory maintains: every bundle's slice fits the heap, and no two bundles
share a backing array. -/
def Mem.storeOk (m : Mem.RpcEndPointServer) : Prop :=
  (∀ e ∈ m.bundles, e.2.transactions.valid m.heap) ∧
  (m.bundles.map (fun e => e.2.transactions.array)).Nodup

/-- The store in memory reached from the empty store by a sequence of calls. -/
def Mem.reached (grow : Nat → Nat) (maxAge maxTxs : Int) (calls : List Call) :
    Mem.RpcEndPointServer :=
  Mem.runThrough grow (Mem.emptyStore maxAge maxTxs) calls

/-- The bundle a bundle in memory stands for: its slice read off the heap. -/
def Mem.absBundle (heap : List (List String)) (b : Mem.bundleData) :
    BundleServer.bundleData :=
  { transactions := b.transactions.read heap, createdAt := b.createdAt }

/-- The map a map in memory stands for. -/
def Mem.absBundles (heap : List (List String)) (bundles : List (String × Mem.bundleData)) :
    List (String × BundleServer.bundleData) :=
  bundles.map (fun e => (e.1, Mem.absBundle heap e.2))

/-- The store a store in memory stands for. -/
def Mem.abs (m : Mem.RpcEndPointServer) : BundleServer.RpcEndPointServer :=
  { bundles := Mem.absBundles m.heap m.bundles, maxAge := m.maxAge, maxTxs := m.maxTxs }

/-- The outcome of `addTxToBundle` that an outcome in memory stands for. -/
def Mem.absResult :
    Except Mem.RpcEndPointServer (Mem.RpcEndPointServer × error) →
      Except BundleServer.RpcEndPointServer (BundleServer.RpcEndPointServer × error)
  | .ok (m, e) => .ok (Mem.abs m, e)
  | .error m => .error (Mem.abs m)

/-! ## Lemmas on the map and on the trim -/

theorem wrap64_eq_self {x : Int} (h1 : minInt64 ≤ x) (h2 : x ≤ maxInt64) : wrap64 x = x := by
  unfold wrap64
  unfold minInt64 at h1
  unfold maxInt64 at h2
  omega

theorem mapGet_mapSet (m : List (String × bundleData)) (id id' : String) (b : bundleData) :
    mapGet (mapSet m id b) id' = if id = id' then some b else mapGet m id' := by
  induction m with
  | nil => simp [mapSet, mapGet]
  | cons e m ih =>
    obtain ⟨k, v⟩ := e
    by_cases hk : k = id
    · subst hk
      by_cases h' : k = id' <;> simp [mapSet, mapGet, h']
    · by_cases h' : id = id'
      · subst h'
        simp [mapSet, mapGet, hk, ih]
      · have hk' : ¬ id' = id := fun h => h' h.symm
        by_cases h'' : k = id'
        · subst h''
          simp [mapSet, mapGet, hk, h']
        · simp [mapSet, mapGet, hk, h', h'', ih]

theorem mapGet_mapSet_self (m : List (String × bundleData)) (id : String) (b : bundleData) :
    mapGet (mapSet m id b) id = some b := by
  simp [mapGet_mapSet]

theorem mapSet_eq_self {m : List (String × bundleData)} {id : String} {b : bundleData}
    (h : mapGet m id = some b) : mapSet m id b = m := by
  induction m with
  | nil => simp [mapGet] at h
  | cons e m ih =>
    obtain ⟨k, v⟩ := e
    by_cases hk : k = id
    · subst hk
      simp [mapGet] at h
      simp [mapSet, h]
    · simp [mapGet, hk] at h
      simp [mapSet, hk, ih h]

theorem mapSet_mapSet (m : List (String × bundleData)) (id : String) (b c : bundleData) :
    mapSet (mapSet m id b) id c = mapSet m id c := by
  induction m with
  | nil => simp [mapSet]
  | cons e m ih =>
    obtain ⟨k, v⟩ := e
    by_cases hk : k = id
    · subst hk
      simp [mapSet]
    · simp [mapSet, hk, ih]

theorem mapGet_mapDelete (m : List (String × bundleData)) (id id' : String) :
    mapGet (mapDelete m id) id' = if id = id' then none else mapGet m id' := by
  induction m with
  | nil => simp [mapDelete, mapGet]
  | cons e m ih =>
    obtain ⟨k, v⟩ := e
    unfold mapDelete at ih ⊢
    by_cases hk : k = id
    · subst hk
      by_cases h' : k = id'
      · simpa [List.filter_cons, mapGet, h'] using ih
      · simpa [List.filter_cons, mapGet, h'] using ih
    · by_cases h' : k = id'
      · subst h'
        have : ¬ id = k := fun h => hk h.symm
        simp [List.filter_cons, mapGet, hk, this]
      · simpa [List.filter_cons, mapGet, hk, h'] using ih

theorem trim_length (maxTxs : Int) (txs : List String) :
    (trim maxTxs txs).length = min txs.length maxTxs.toNat := by
  unfold trim
  simp only [List.length_drop]
  omega

theorem trim_suffix (maxTxs : Int) (txs : List String) : trim maxTxs txs <:+ txs :=
  List.drop_suffix _ _

theorem trim_eq_self {maxTxs : Int} {txs : List String} (h : (txs.length : Int) ≤ maxTxs) :
    trim maxTxs txs = txs := by
  unfold trim
  have : txs.length - maxTxs.toNat = 0 := by omega
  simp [this]

/-- The tail of `addTxToBundle` on a record already present: `nil`, store as it was. -/
theorem addTxToBundle.store_dup (s : RpcEndPointServer) (bundles : List (String × bundleData))
    (bundle : bundleData) (bundleID rawTx : String) (hdup : rawTx ∈ bundle.transactions) :
    addTxToBundle.store s bundles bundle bundleID rawTx = .ok ({ s with bundles := bundles }, none) := by
  unfold addTxToBundle.store
  simp only [hdup, if_true]

/-- The tail of `addTxToBundle` with a non-negative capacity and a representable trim index:
it returns `nil` and leaves, at `bundleID`, the bundle with the records unchanged (duplicate)
or appended and trimmed. -/
theorem addTxToBundle.store_ok (s : RpcEndPointServer) (bundles : List (String × bundleData))
    (bundle : bundleData) (bundleID rawTx : String) (hmax : 0 ≤ s.maxTxs)
    (hlen : (bundle.transactions.length : Int) + 1 - s.maxTxs ≤ maxInt64)
    (hget : mapGet bundles bundleID = some bundle) :
    addTxToBundle.store s bundles bundle bundleID rawTx =
      .ok ({ s with bundles := (mapSet bundles bundleID
              { bundle with transactions :=
                  (if rawTx ∈ bundle.transactions then bundle.transactions
                   else trim s.maxTxs (bundle.transactions ++ [rawTx])) }) }, none) := by
  unfold addTxToBundle.store
  by_cases hdup : rawTx ∈ bundle.transactions
  · simp only [hdup, if_true]
    rw [mapSet_eq_self hget]
  · simp only [hdup, if_false]
    by_cases hgt : ((bundle.transactions ++ [rawTx]).length : Int) > s.maxTxs
    · have hw : wrap64 (((bundle.transactions ++ [rawTx]).length : Int) - s.maxTxs)
          = ((bundle.transactions ++ [rawTx]).length : Int) - s.maxTxs := by
        apply wrap64_eq_self
        · unfold minInt64; omega
        · simp only [List.length_append, List.length_singleton] at hgt ⊢
          push_cast
          omega
      simp only [hgt, if_true, hw]
      have hrange : 0 ≤ ((bundle.transactions ++ [rawTx]).length : Int) - s.maxTxs ∧
          ((bundle.transactions ++ [rawTx]).length : Int) - s.maxTxs
            ≤ ((bundle.transactions ++ [rawTx]).length : Int) := by omega
      simp only [hrange, and_self, if_true]
      have hidx : (((bundle.transactions ++ [rawTx]).length : Int) - s.maxTxs).toNat
          = (bundle.transactions ++ [rawTx]).length - s.maxTxs.toNat := by omega
      rw [hidx]
      rfl
    · simp only [hgt, if_false]
      rw [trim_eq_self (by omega)]

/-- With a non-negative capacity and a representable trim index `addTxToBundle` returns `nil`
and stores `nextBundle` at `bundleID`. -/
theorem addTxToBundle_ok (s : RpcEndPointServer) (now : Int) (bundleID rawTx : String)
    (hmax : 0 ≤ s.maxTxs)
    (hlen : ∀ b, mapGet s.bundles bundleID = some b →
      (b.transactions.length : Int) + 1 - s.maxTxs ≤ maxInt64) :
    addTxToBundle s now bundleID rawTx =
      .ok ({ s with bundles := mapSet s.bundles bundleID (nextBundle s now bundleID rawTx) },
           none) := by
  unfold addTxToBundle nextBundle bundleAt
  cases hget : mapGet s.bundles bundleID with
  | some b =>
    simp only [Option.getD_some]
    exact addTxToBundle.store_ok s s.bundles b bundleID rawTx hmax (hlen b hget) hget
  | none =>
    simp only [Option.getD_none]
    rw [addTxToBundle.store_ok s _ _ bundleID rawTx hmax
      (by simp only [List.length_nil]; unfold maxInt64; omega) (mapGet_mapSet_self _ _ _)]
    simp only [mapSet_mapSet]

theorem mem_trim_append {maxTxs : Int} (h : 1 ≤ maxTxs) (txs : List String) (r : String) :
    r ∈ trim maxTxs (txs ++ [r]) := by
  unfold trim
  have hle : (txs ++ [r]).length - maxTxs.toNat ≤ txs.length := by
    simp only [List.length_append, List.length_singleton]
    omega
  rw [List.drop_append_of_le_length hle]
  simp

theorem trim_zero (txs : List String) : trim 0 txs = [] := by
  unfold trim
  simp

theorem records_eq (s : RpcEndPointServer) (now : Int) (bundleID : String) :
    records s bundleID = (bundleAt s now bundleID).transactions := by
  unfold records getBundleTxs bundleAt
  cases mapGet s.bundles bundleID <;> rfl

theorem mapGet_mem {m : List (String × bundleData)} {id : String} {b : bundleData}
    (h : mapGet m id = some b) : (id, b) ∈ m := by
  induction m with
  | nil => simp [mapGet] at h
  | cons e m ih =>
    obtain ⟨k, v⟩ := e
    by_cases hk : k = id
    · subst hk
      simp [mapGet] at h
      simp [h]
    · simp [mapGet, hk] at h
      exact List.mem_cons_of_mem _ (ih h)

theorem mem_mapSet {m : List (String × bundleData)} {id : String} {b : bundleData}
    {e : String × bundleData} (h : e ∈ mapSet m id b) : e ∈ m ∨ e = (id, b) := by
  induction m with
  | nil =>
    simp [mapSet] at h
    exact Or.inr h
  | cons x m ih =>
    obtain ⟨k, v⟩ := x
    by_cases hk : k = id
    · simp only [mapSet, hk, if_true, List.mem_cons] at h
      rcases h with h | h
      · exact Or.inr h
      · exact Or.inl (List.mem_cons_of_mem _ h)
    · simp only [mapSet, hk, if_false, List.mem_cons] at h
      rcases h with h | h
      · exact Or.inl (h ▸ List.mem_cons_self _ _)
      · rcases ih h with h' | h'
        · exact Or.inl (List.mem_cons_of_mem _ h')
        · exact Or.inr h'

theorem mem_mapDelete {m : List (String × bundleData)} {id : String}
    {e : String × bundleData} (h : e ∈ mapDelete m id) : e ∈ m :=
  List.mem_of_mem_filter h

theorem cleanupStep_sublist (maxAge now : Int) (m : List (String × bundleData)) (id : String) :
    (cleanupStep maxAge now m id).Sublist m := by
  unfold cleanupStep
  cases mapGet m id with
  | none => exact List.Sublist.refl _
  | some b =>
    by_cases h : Sub now b.createdAt > maxAge
    · simp only [h, if_true]
      exact List.filter_sublist _
    · simp only [h, if_false]
      exact List.Sublist.refl _

theorem foldl_cleanupStep_sublist (maxAge now : Int) (ks : List String) :
    ∀ m : List (String × bundleData), (ks.foldl (cleanupStep maxAge now) m).Sublist m := by
  induction ks with
  | nil => intro m; exact List.Sublist.refl _
  | cons k ks ih =>
    intro m
    simp only [List.foldl_cons]
    exact (ih _).trans (cleanupStep_sublist maxAge now m k)

theorem mem_cleanup {s : RpcEndPointServer} {now : Int} {e : String × bundleData}
    (h : e ∈ (cleanup s now).bundles) : e ∈ s.bundles :=
  (foldl_cleanupStep_sublist s.maxAge now _ s.bundles).subset h

theorem run_append (cs ds : List Call) : ∀ s : RpcEndPointServer,
    run s (cs ++ ds) = match run s cs with
      | .ok s' => run s' ds
      | .error s' => .error s' := by
  induction cs with
  | nil => intro s; simp [run]
  | cons c cs ih =>
    intro s
    simp only [List.cons_append, run]
    cases c.exec s with
    | ok s' => simpa using ih s'
    | error s' => rfl

/-- A property of stores that every non-panicking call keeps holds after every sequence of
calls, and the sequence runs to its end. -/
theorem run_invariant (P : RpcEndPointServer → Prop)
    (hstep : ∀ s c, P s → ∃ s', Call.exec s c = .ok s' ∧ P s') :
    ∀ (cs : List Call) (s : RpcEndPointServer), P s → ∃ s', run s cs = .ok s' ∧ P s' := by
  intro cs
  induction cs with
  | nil => intro s hs; exact ⟨s, rfl, hs⟩
  | cons c cs ih =>
    intro s hs
    obtain ⟨s1, h1, hs1⟩ := hstep s c hs
    obtain ⟨s2, h2, hs2⟩ := ih s1 hs1
    exact ⟨s2, by simp only [run, h1, h2], hs2⟩

theorem bundleOk_nextBundle (s : RpcEndPointServer) (now : Int) (bundleID rawTx : String)
    (hmax : 0 ≤ s.maxTxs) (h : bundleOk s.maxTxs (bundleAt s now bundleID)) :
    bundleOk s.maxTxs (nextBundle s now bundleID rawTx) := by
  unfold nextBundle
  by_cases hdup : rawTx ∈ (bundleAt s now bundleID).transactions
  · simpa [hdup, bundleOk] using h
  · simp only [hdup, if_false, bundleOk]
    constructor
    · have := trim_length s.maxTxs ((bundleAt s now bundleID).transactions ++ [rawTx])
      omega
    · apply List.Nodup.sublist (trim_suffix _ _).sublist
      rw [List.nodup_append]
      refine ⟨h.2, List.nodup_singleton _, ?_⟩
      intro a ha hb
      simp only [List.mem_singleton] at hb
      exact hdup (hb ▸ ha)

theorem bundleOk_bundleAt (s : RpcEndPointServer) (now : Int) (bundleID : String)
    (h : storeOk s) : bundleOk s.maxTxs (bundleAt s now bundleID) := by
  unfold bundleAt
  cases hget : mapGet s.bundles bundleID with
  | some b => exact h.2 _ (mapGet_mem hget)
  | none => simpa [bundleOk] using h.1

/-- Every call keeps `storeOk`, returns without panic, and leaves the tunables alone. -/
theorem exec_storeOk (s : RpcEndPointServer) (c : Call) (h : storeOk s) :
    ∃ s', Call.exec s c = .ok s' ∧ storeOk s' ∧ s'.maxTxs = s.maxTxs ∧ s'.maxAge = s.maxAge := by
  cases c with
  | Append bundleID rawTx now =>
    have hok := addTxToBundle_ok s now bundleID rawTx h.1 (by
      intro b hb
      have := (h.2 _ (mapGet_mem hb)).1
      have : (1 : Int) ≤ maxInt64 := by decide
      simp only at *
      omega)
    refine ⟨{ s with bundles := mapSet s.bundles bundleID (nextBundle s now bundleID rawTx) },
      by simp only [Call.exec, hok], ⟨h.1, ?_⟩, rfl, rfl⟩
    intro e he
    rcases mem_mapSet he with he | he
    · exact h.2 e he
    · rw [he]
      exact bundleOk_nextBundle s now bundleID rawTx h.1 (bundleOk_bundleAt s now bundleID h)
  | Delete bundleID =>
    exact ⟨_, rfl, ⟨h.1, fun e he => h.2 e (mem_mapDelete he)⟩, rfl, rfl⟩
  | Sweep now =>
    exact ⟨_, rfl, ⟨h.1, fun e he => h.2 e (mem_cleanup he)⟩, rfl, rfl⟩

theorem run_storeOk (cs : List Call) (s : RpcEndPointServer) (h : storeOk s) :
    ∃ s', run s cs = .ok s' ∧ storeOk s' ∧ s'.maxTxs = s.maxTxs ∧ s'.maxAge = s.maxAge := by
  obtain ⟨s', h1, h2, h3, h4⟩ := run_invariant
    (fun t => storeOk t ∧ t.maxTxs = s.maxTxs ∧ t.maxAge = s.maxAge)
    (fun t c ht => by
      obtain ⟨t', e1, e2, e3, e4⟩ := exec_storeOk t c ht.1
      exact ⟨t', e1, e2, e3.trans ht.2.1, e4.trans ht.2.2⟩)
    cs s ⟨h, rfl, rfl⟩
  exact ⟨s', h1, h2, h3, h4⟩

theorem storeOk_emptyStore (maxAge maxTxs : Int) (h : 0 ≤ maxTxs) :
    storeOk (emptyStore maxAge maxTxs) :=
  ⟨h, fun e he => by simp [emptyStore, NewRpcEndPointServer] at he⟩

theorem records_length_le {s : RpcEndPointServer} (h : storeOk s) (bundleID : String) :
    ((records s bundleID).length : Int) ≤ s.maxTxs := by
  rw [records_eq s 0 bundleID]
  exact (bundleOk_bundleAt s 0 bundleID h).1

theorem records_nodup {s : RpcEndPointServer} (h : storeOk s) (bundleID : String) :
    (records s bundleID).Nodup := by
  rw [records_eq s 0 bundleID]
  exact (bundleOk_bundleAt s 0 bundleID h).2

theorem trim_trim_append_list {maxTxs : Int} (txs more : List String) :
    trim maxTxs (trim maxTxs txs ++ more) = trim maxTxs (txs ++ more) := by
  have h1 : trim maxTxs txs ++ more = (txs ++ more).drop (txs.length - maxTxs.toNat) := by
    unfold trim
    rw [List.drop_append_of_le_length (by omega)]
  rw [h1]
  unfold trim
  rw [List.drop_drop]
  congr 1
  simp only [List.length_drop, List.length_append]
  omega

theorem getBundleTxs_eq (s : RpcEndPointServer) (bundleID : String) :
    getBundleTxs s bundleID = (records s bundleID, none) := by
  unfold records getBundleTxs
  cases mapGet s.bundles bundleID <;> rfl

theorem records_mapSet (s : RpcEndPointServer) (bundleID : String) (b : bundleData) :
    records { s with bundles := mapSet s.bundles bundleID b } bundleID = b.transactions := by
  simp [records, getBundleTxs, mapGet_mapSet_self]

/-- Appending, in order, records that are pairwise distinct and not yet listed to a bundle
within capacity leaves the last `maxTxs` of the old records followed by the new ones. -/
theorem run_appends (bundleID : String) (l : List (String × Int)) :
    ∀ s : RpcEndPointServer, 0 ≤ s.maxTxs →
      ((records s bundleID).length : Int) ≤ s.maxTxs →
      (records s bundleID ++ l.map Prod.fst).Nodup →
      ∃ s', run s (appends bundleID l) = .ok s' ∧ s'.maxTxs = s.maxTxs ∧
        records s' bundleID = trim s.maxTxs (records s bundleID ++ l.map Prod.fst) := by
  induction l with
  | nil =>
    intro s _ hlen _
    refine ⟨s, rfl, rfl, ?_⟩
    simp only [List.map_nil, List.append_nil]
    exact (trim_eq_self hlen).symm
  | cons p l ih =>
    intro s hmax hlen hnd
    have hrec := records_eq s p.2 bundleID
    have hok := addTxToBundle_ok s p.2 bundleID p.1 hmax (by
      intro b hb
      have hb' : records s bundleID = b.transactions := by
        simp [records, getBundleTxs, hb]
      rw [hb'] at hlen
      have : (1 : Int) ≤ maxInt64 := by decide
      omega)
    have hfresh : p.1 ∉ (bundleAt s p.2 bundleID).transactions := by
      rw [← hrec]
      intro hmem
      rw [List.map_cons, List.nodup_append] at hnd
      exact hnd.2.2 hmem (List.mem_cons_self _ _)
    have hnext : (nextBundle s p.2 bundleID p.1).transactions
        = trim s.maxTxs (records s bundleID ++ [p.1]) := by
      simp [nextBundle, hfresh, hrec]
    have hrec1 : records
        { s with bundles := mapSet s.bundles bundleID (nextBundle s p.2 bundleID p.1) } bundleID
        = trim s.maxTxs (records s bundleID ++ [p.1]) := by
      rw [records_mapSet, hnext]
    obtain ⟨s', h1, h2, h3⟩ := ih
      { s with bundles := mapSet s.bundles bundleID (nextBundle s p.2 bundleID p.1) } hmax
      (by
        rw [hrec1]
        have := trim_length s.maxTxs (records s bundleID ++ [p.1])
        simp only at *
        omega)
      (by
        rw [hrec1]
        have hsub : (trim s.maxTxs (records s bundleID ++ [p.1]) ++ l.map Prod.fst).Sublist
            ((records s bundleID ++ [p.1]) ++ l.map Prod.fst) :=
          List.Sublist.append (trim_suffix _ _).sublist (List.Sublist.refl _)
        apply List.Nodup.sublist hsub
        simpa using hnd)
    refine ⟨s', ?_, h2, ?_⟩
    · simp only [appends, List.map_cons, run, Call.exec, hok]
      exact h1
    · rw [h3, hrec1]
      simp only
      rw [trim_trim_append_list]
      simp

theorem Sub_eq_sub {t u : Int} (ht : isTime t) (hu : isTime u) : Sub t u = t - u := by
  unfold isTime maxInt64 at ht hu
  unfold Sub maxDuration minDuration maxInt64 minInt64
  have h1 : ¬ (t - u > 2 ^ 63 - 1) := by omega
  have h2 : ¬ (t - u < -(2 ^ 63)) := by omega
  simp only [h1, h2, if_false]

theorem sweepEntry_sweepEntry (maxAge now : Int) (o : Option bundleData) :
    sweepEntry maxAge now (sweepEntry maxAge now o) = sweepEntry maxAge now o := by
  cases o with
  | none => rfl
  | some b =>
    by_cases h : Sub now b.createdAt > maxAge <;> simp [sweepEntry, h]

theorem mapGet_cleanupStep (maxAge now : Int) (m : List (String × bundleData))
    (k id : String) :
    mapGet (cleanupStep maxAge now m k) id
      = if k = id then sweepEntry maxAge now (mapGet m id) else mapGet m id := by
  unfold cleanupStep
  by_cases hk : k = id
  · subst hk
    cases hget : mapGet m k with
    | none => simp [sweepEntry, hget]
    | some b =>
      by_cases h : Sub now b.createdAt > maxAge
      · simp [sweepEntry, h, mapGet_mapDelete]
      · simp [sweepEntry, h, hget]
  · cases hget : mapGet m k with
    | none => simp [hk]
    | some b =>
      by_cases h : Sub now b.createdAt > maxAge
      · simp [h, hk, mapGet_mapDelete]
      · simp [h, hk]

theorem mapGet_foldl_cleanupStep (maxAge now : Int) (id : String) (ks : List String) :
    ∀ m : List (String × bundleData),
      mapGet (ks.foldl (cleanupStep maxAge now) m) id
        = if id ∈ ks then sweepEntry maxAge now (mapGet m id) else mapGet m id := by
  induction ks with
  | nil => intro m; simp
  | cons k ks ih =>
    intro m
    simp only [List.foldl_cons, ih, mapGet_cleanupStep, List.mem_cons]
    by_cases hk : k = id
    · subst hk
      by_cases hmem : k ∈ ks <;> simp [hmem, sweepEntry_sweepEntry]
    · have hk' : ¬ id = k := fun h => hk h.symm
      by_cases hmem : id ∈ ks <;> simp [hmem, hk, hk']

theorem mapGet_eq_none_of_not_mem_mapKeys {m : List (String × bundleData)} {id : String}
    (h : id ∉ mapKeys m) : mapGet m id = none := by
  induction m with
  | nil => rfl
  | cons e m ih =>
    obtain ⟨k, v⟩ := e
    simp only [mapKeys, List.map_cons, List.mem_cons, not_or] at h
    have hk : ¬ k = id := fun hk => h.1 hk.symm
    simp only [mapGet, hk, if_false]
    exact ih h.2

/-- Sweep, entry by entry: the bundle at `id` after `cleanup` is `sweepEntry` of the bundle at
`id` before. -/
theorem mapGet_cleanup (s : RpcEndPointServer) (now : Int) (id : String) :
    mapGet (cleanup s now).bundles id = sweepEntry s.maxAge now (mapGet s.bundles id) := by
  unfold cleanup
  simp only [mapGet_foldl_cleanupStep]
  by_cases hmem : id ∈ mapKeys s.bundles
  · simp [hmem]
  · simp [hmem, mapGet_eq_none_of_not_mem_mapKeys hmem, sweepEntry]

/-- The store any call of `addTxToBundle` leaves behind, returning or panicking: only the
records of the bundle at `bundleID` are written, the bundle keeps the `createdAt` of
`bundleAt`, and its records are the old ones (duplicate) or taken from `old ++ [rawTx]`. -/
theorem storeAfter_addTxToBundle (s : RpcEndPointServer) (now : Int) (bundleID rawTx : String) :
    ∃ txs, storeAfter (addTxToBundle s now bundleID rawTx) =
      { s with bundles := (mapSet s.bundles bundleID
          { transactions := txs, createdAt := (bundleAt s now bundleID).createdAt }) } ∧
      (rawTx ∈ (bundleAt s now bundleID).transactions →
        txs = (bundleAt s now bundleID).transactions) ∧
      txs.Sublist ((bundleAt s now bundleID).transactions ++ [rawTx]) := by
  unfold addTxToBundle bundleAt
  cases hget : mapGet s.bundles bundleID with
  | some b =>
    simp only [Option.getD_some]
    unfold addTxToBundle.store
    by_cases hdup : rawTx ∈ b.transactions
    · refine ⟨b.transactions, ?_, fun _ => rfl, List.sublist_append_left _ _⟩
      simp only [hdup, if_true, storeAfter]
      rw [mapSet_eq_self hget]
    · simp only [hdup, if_false]
      split_ifs
      · exact ⟨_, rfl, fun h => h.elim, List.drop_sublist _ _⟩
      · exact ⟨_, rfl, fun h => h.elim, List.Sublist.refl _⟩
      · exact ⟨_, rfl, fun h => h.elim, List.Sublist.refl _⟩
  | none =>
    simp only [Option.getD_none]
    unfold addTxToBundle.store
    simp only [List.not_mem_nil, if_false]
    split_ifs
    · exact ⟨_, by simp only [storeAfter, mapSet_mapSet]; rfl, fun h => h.elim,
        List.drop_sublist _ _⟩
    · exact ⟨_, by simp only [storeAfter, mapSet_mapSet], fun h => h.elim,
        List.Sublist.refl _⟩
    · exact ⟨_, by simp only [storeAfter, mapSet_mapSet], fun h => h.elim,
        List.Sublist.refl _⟩

theorem run_eq_runThrough (cs : List Call) :
    ∀ s s' : RpcEndPointServer, run s cs = .ok s' → runThrough s cs = s' := by
  induction cs with
  | nil =>
    intro s s' h
    simp only [run, Except.ok.injEq] at h
    exact h
  | cons c cs ih =>
    intro s s' h
    simp only [run] at h
    cases hc : c.exec s with
    | ok s1 =>
      rw [hc] at h
      simp only [runThrough, List.foldl_cons, Call.leaves, hc]
      exact ih s1 s' h
    | error s1 =>
      rw [hc] at h
      exact absurd h (by simp)

/-- Whatever the capacity, and panic or not, a call leaves no bundle with two equal records
when it found none. -/
theorem leaves_nodup (s : RpcEndPointServer) (c : Call)
    (h : ∀ e ∈ s.bundles, e.2.transactions.Nodup) :
    ∀ e ∈ (Call.leaves s c).bundles, e.2.transactions.Nodup := by
  cases c with
  | Append bundleID rawTx now =>
    obtain ⟨txs, hs1, hdup, hsub⟩ := storeAfter_addTxToBundle s now bundleID rawTx
    have hleaves : Call.leaves s (.Append bundleID rawTx now)
        = storeAfter (addTxToBundle s now bundleID rawTx) := by
      simp only [Call.leaves, Call.exec]
      cases addTxToBundle s now bundleID rawTx with
      | ok r => rfl
      | error r => rfl
    rw [hleaves, hs1]
    have hold : (bundleAt s now bundleID).transactions.Nodup := by
      unfold bundleAt
      cases hget : mapGet s.bundles bundleID with
      | some b => exact h _ (mapGet_mem hget)
      | none => exact List.nodup_nil
    intro e he
    rcases mem_mapSet he with he | he
    · exact h e he
    · rw [he]
      by_cases hmem : rawTx ∈ (bundleAt s now bundleID).transactions
      · simp only [hdup hmem]
        exact hold
      · apply List.Nodup.sublist hsub
        rw [List.nodup_append]
        refine ⟨hold, List.nodup_singleton _, ?_⟩
        intro a ha hb
        rw [List.mem_singleton] at hb
        exact hmem (hb ▸ ha)
  | Delete bundleID =>
    exact fun e he => h e (mem_mapDelete he)
  | Sweep now =>
    exact fun e he => h e (mem_cleanup he)

theorem runThrough_nodup (cs : List Call) :
    ∀ s : RpcEndPointServer, (∀ e ∈ s.bundles, e.2.transactions.Nodup) →
      ∀ e ∈ (runThrough s cs).bundles, e.2.transactions.Nodup := by
  induction cs with
  | nil => intro s h; exact h
  | cons c cs ih =>
    intro s h
    exact ih (Call.leaves s c) (leaves_nodup s c h)

theorem appends_append (bundleID : String) (l : List (String × Int)) (p : String × Int) :
    appends bundleID (l ++ [p]) = appends bundleID l ++ [Call.Append bundleID p.1 p.2] := by
  simp [appends]

/-- One more Append, seen through `List`: a listed record changes nothing, a new one is
appended and the result trimmed. -/
theorem listAfter_concat (maxAge maxTxs : Int) (bundleID : String) (l : List (String × Int))
    (p : String × Int) (hmax : 0 ≤ maxTxs) :
    listAfter maxAge maxTxs bundleID (l ++ [p])
      = if p.1 ∈ listAfter maxAge maxTxs bundleID l then listAfter maxAge maxTxs bundleID l
        else trim maxTxs (listAfter maxAge maxTxs bundleID l ++ [p.1]) := by
  obtain ⟨s1, h1, hok1, hm1, _⟩ :=
    run_storeOk (appends bundleID l) _ (storeOk_emptyStore maxAge maxTxs hmax)
  have hm1' : s1.maxTxs = maxTxs := hm1
  have hok := addTxToBundle_ok s1 p.2 bundleID p.1 hok1.1 (by
    intro b hb
    have := (hok1.2 _ (mapGet_mem hb)).1
    have : (1 : Int) ≤ maxInt64 := by decide
    simp only at *
    omega)
  have hl : listAfter maxAge maxTxs bundleID l = records s1 bundleID := by
    simp only [listAfter, h1]
  have hl' : listAfter maxAge maxTxs bundleID (l ++ [p])
      = (nextBundle s1 p.2 bundleID p.1).transactions := by
    simp only [listAfter, appends_append, run_append, h1, run, Call.exec, hok]
    exact records_mapSet s1 bundleID _
  rw [hl', hl, records_eq s1 p.2 bundleID, ← hm1']
  rfl

theorem insertsAt_concat_of_lt (maxAge maxTxs : Int) (bundleID : String)
    (l : List (String × Int)) (p : String × Int) (x : String) {k : Nat} (hk : k < l.length) :
    insertsAt maxAge maxTxs bundleID (l ++ [p]) x k = insertsAt maxAge maxTxs bundleID l x k := by
  unfold insertsAt
  rw [List.getElem?_append_left hk, List.take_append_of_le_length (Nat.le_of_lt hk)]

theorem insertsAt_concat_length (maxAge maxTxs : Int) (bundleID : String)
    (l : List (String × Int)) (p : String × Int) (x : String) :
    insertsAt maxAge maxTxs bundleID (l ++ [p]) x l.length
      = decide (p.1 = x ∧ x ∉ listAfter maxAge maxTxs bundleID l) := by
  unfold insertsAt
  rw [List.getElem?_concat_length, List.take_left]

/-- One more Append, seen through `lastInsertion`: the new call is the last insertion of its
record when that record was not listed, and changes nothing otherwise. -/
theorem lastInsertion_concat (maxAge maxTxs : Int) (bundleID : String)
    (l : List (String × Int)) (p : String × Int) (x : String) :
    lastInsertion maxAge maxTxs bundleID (l ++ [p]) x
      = if p.1 = x ∧ x ∉ listAfter maxAge maxTxs bundleID l then some l.length
        else lastInsertion maxAge maxTxs bundleID l x := by
  unfold lastInsertion
  have hfilter : (List.range l.length).filter (insertsAt maxAge maxTxs bundleID (l ++ [p]) x)
      = (List.range l.length).filter (insertsAt maxAge maxTxs bundleID l x) := by
    apply List.filter_congr
    intro k hk
    exact insertsAt_concat_of_lt maxAge maxTxs bundleID l p x (List.mem_range.mp hk)
  rw [List.length_append, List.length_singleton, List.range_succ, List.filter_append, hfilter]
  by_cases h : p.1 = x ∧ x ∉ listAfter maxAge maxTxs bundleID l
  · simp [List.filter_cons, insertsAt_concat_length, h]
  · simp [List.filter_cons, insertsAt_concat_length, h]

theorem lastInsertion_lt {maxAge maxTxs : Int} {bundleID : String} {l : List (String × Int)}
    {x : String} {i : Nat} (h : lastInsertion maxAge maxTxs bundleID l x = some i) :
    i < l.length := by
  unfold lastInsertion at h
  have hmem := List.mem_of_getLast?_eq_some h
  exact List.mem_range.mp (List.mem_of_mem_filter hmem)

theorem listAfter_nil (maxAge maxTxs : Int) (bundleID : String) :
    listAfter maxAge maxTxs bundleID [] = [] := rfl

/-- The records `List` returns stand in the order of their last insertions, and each of them
has one. -/
theorem listAfter_insertedBefore (maxAge maxTxs : Int) (bundleID : String) (hmax : 0 ≤ maxTxs)
    (l : List (String × Int)) :
    (listAfter maxAge maxTxs bundleID l).Pairwise (insertedBefore maxAge maxTxs bundleID l) ∧
    ∀ x ∈ listAfter maxAge maxTxs bundleID l,
      ∃ i, lastInsertion maxAge maxTxs bundleID l x = some i := by
  induction l using List.reverseRecOn with
  | nil =>
    rw [listAfter_nil]
    exact ⟨List.Pairwise.nil, fun x hx => absurd hx (List.not_mem_nil x)⟩
  | append_singleton l p ih =>
    obtain ⟨ihp, ihm⟩ := ih
    rw [listAfter_concat maxAge maxTxs bundleID l p hmax]
    by_cases hdup : p.1 ∈ listAfter maxAge maxTxs bundleID l
    · have hsame : ∀ x, lastInsertion maxAge maxTxs bundleID (l ++ [p]) x
          = lastInsertion maxAge maxTxs bundleID l x := by
        intro x
        rw [lastInsertion_concat]
        have : ¬ (p.1 = x ∧ x ∉ listAfter maxAge maxTxs bundleID l) := by
          rintro ⟨h1, h2⟩
          exact h2 (h1 ▸ hdup)
        simp only [this, if_false]
      simp only [hdup, if_true]
      refine ⟨ihp.imp ?_, ?_⟩
      · rintro x y ⟨i, j, hi, hj, hij⟩
        exact ⟨i, j, by rw [hsame, hi], by rw [hsame, hj], hij⟩
      · intro x hx
        obtain ⟨i, hi⟩ := ihm x hx
        exact ⟨i, by rw [hsame, hi]⟩
    · simp only [hdup, if_false]
      have hold : ∀ x ∈ listAfter maxAge maxTxs bundleID l,
          lastInsertion maxAge maxTxs bundleID (l ++ [p]) x
            = lastInsertion maxAge maxTxs bundleID l x := by
        intro x hx
        rw [lastInsertion_concat]
        have : ¬ (p.1 = x ∧ x ∉ listAfter maxAge maxTxs bundleID l) := fun h => h.2 hx
        simp only [this, if_false]
      have hnew : lastInsertion maxAge maxTxs bundleID (l ++ [p]) p.1 = some l.length := by
        rw [lastInsertion_concat]
        simp [hdup]
      have hall : (listAfter maxAge maxTxs bundleID l ++ [p.1]).Pairwise
          (insertedBefore maxAge maxTxs bundleID (l ++ [p])) := by
        rw [List.pairwise_append]
        refine ⟨?_, List.pairwise_singleton _ _, ?_⟩
        · refine ihp.imp_of_mem ?_
          rintro x y hx hy ⟨i, j, hi, hj, hij⟩
          exact ⟨i, j, by rw [hold x hx, hi], by rw [hold y hy, hj], hij⟩
        · intro x hx y hy
          rw [List.mem_singleton] at hy
          subst hy
          obtain ⟨i, hi⟩ := ihm x hx
          exact ⟨i, l.length, by rw [hold x hx, hi], hnew, lastInsertion_lt hi⟩
      refine ⟨hall.sublist (trim_suffix _ _).sublist, ?_⟩
      intro x hx
      have hx' := (trim_suffix _ _).subset hx
      rw [List.mem_append, List.mem_singleton] at hx'
      rcases hx' with hx' | hx'
      · obtain ⟨i, hi⟩ := ihm x hx'
        exact ⟨i, by rw [hold x hx', hi]⟩
      · exact ⟨l.length, by rw [hx', hnew]⟩

theorem length_le_dedup_of_subset {A B : List String} (hA : A.Nodup) (h : A ⊆ B) :
    A.length ≤ B.dedup.length :=
  (List.subperm_of_subset hA (fun _ hx => List.mem_dedup.mpr (h hx))).length_le

theorem mem_take_iff_indexOf_lt (x : String) (names : List String) :
    ∀ k, k ≤ names.length → (x ∈ names.take k ↔ names.indexOf x < k) := by
  induction names with
  | nil => intro k hk; simp at hk; simp [hk]
  | cons a t ih =>
    intro k hk
    cases k with
    | zero => simp
    | succ k =>
      have hk' : k ≤ t.length := by simpa using hk
      by_cases ha : a = x
      · subst ha
        simp
      · have hx : ¬ x = a := fun h => ha h.symm
        rw [List.indexOf_cons_ne t ha, List.take_succ_cons, List.mem_cons]
        simp only [hx, false_or, ih k hk']
        omega

theorem distinctRecords_take_le (l : List (String × Int)) (k : Nat) :
    distinctRecords (l.take k) ≤ distinctRecords l := by
  unfold distinctRecords
  apply length_le_dedup_of_subset (List.nodup_dedup _)
  intro x hx
  rw [List.mem_dedup, List.map_take] at hx
  exact List.take_subset _ _ hx

theorem listAfter_nodup (maxAge maxTxs : Int) (bundleID : String) (hmax : 0 ≤ maxTxs)
    (l : List (String × Int)) : (listAfter maxAge maxTxs bundleID l).Nodup := by
  obtain ⟨s1, h1, hok1, _, _⟩ :=
    run_storeOk (appends bundleID l) _ (storeOk_emptyStore maxAge maxTxs hmax)
  simp only [listAfter, h1]
  exact records_nodup hok1 bundleID

theorem listAfter_subset (maxAge maxTxs : Int) (bundleID : String) (hmax : 0 ≤ maxTxs)
    (l : List (String × Int)) :
    ∀ x ∈ listAfter maxAge maxTxs bundleID l, x ∈ l.map Prod.fst := by
  induction l using List.reverseRecOn with
  | nil =>
    intro x hx
    rw [listAfter_nil] at hx
    exact absurd hx (List.not_mem_nil x)
  | append_singleton l p ih =>
    intro x hx
    rw [listAfter_concat maxAge maxTxs bundleID l p hmax] at hx
    rw [List.map_append, List.mem_append]
    by_cases hdup : p.1 ∈ listAfter maxAge maxTxs bundleID l
    · simp only [hdup, if_true] at hx
      exact Or.inl (ih x hx)
    · simp only [hdup, if_false] at hx
      have hx' := (trim_suffix _ _).subset hx
      rw [List.mem_append] at hx'
      rcases hx' with hx' | hx'
      · exact Or.inl (ih x hx')
      · exact Or.inr (by simpa using hx')

/-- With no more distinct records than the capacity nothing is evicted: every appended record
is listed. -/
theorem listAfter_no_eviction (maxAge maxTxs : Int) (bundleID : String) (hmax : 0 ≤ maxTxs)
    (l : List (String × Int)) :
    (distinctRecords l : Int) ≤ maxTxs →
      ∀ x ∈ l.map Prod.fst, x ∈ listAfter maxAge maxTxs bundleID l := by
  induction l using List.reverseRecOn with
  | nil => intro _ x hx; simp at hx
  | append_singleton l p ih =>
    intro hD x hx
    have hDl : (distinctRecords l : Int) ≤ maxTxs := by
      have h := distinctRecords_take_le (l ++ [p]) l.length
      rw [List.take_left] at h
      omega
    have ih' := ih hDl
    rw [listAfter_concat maxAge maxTxs bundleID l p hmax]
    rw [List.map_append, List.mem_append] at hx
    by_cases hdup : p.1 ∈ listAfter maxAge maxTxs bundleID l
    · simp only [hdup, if_true]
      rcases hx with hx | hx
      · exact ih' x hx
      · have : x = p.1 := by simpa using hx
        rw [this]
        exact hdup
    · simp only [hdup, if_false]
      have hnd : (listAfter maxAge maxTxs bundleID l ++ [p.1]).Nodup := by
        rw [List.nodup_append]
        refine ⟨listAfter_nodup maxAge maxTxs bundleID hmax l, List.nodup_singleton _, ?_⟩
        intro a ha hb
        rw [List.mem_singleton] at hb
        exact hdup (hb ▸ ha)
      have hsub : listAfter maxAge maxTxs bundleID l ++ [p.1] ⊆ (l ++ [p]).map Prod.fst := by
        intro a ha
        rw [List.mem_append] at ha
        rw [List.map_append, List.mem_append]
        rcases ha with ha | ha
        · exact Or.inl (listAfter_subset maxAge maxTxs bundleID hmax l a ha)
        · exact Or.inr (by simpa using ha)
      have hlen := length_le_dedup_of_subset hnd hsub
      have hfit : ((listAfter maxAge maxTxs bundleID l ++ [p.1]).length : Int) ≤ maxTxs := by
        unfold distinctRecords at hD
        omega
      rw [trim_eq_self hfit, List.mem_append]
      rcases hx with hx | hx
      · exact Or.inl (ih' x hx)
      · exact Or.inr (by simpa using hx)

/-- With no more distinct records than the capacity, the only call that inserts a record is
its first Append. -/
theorem lastInsertion_eq_firstAppend (maxAge maxTxs : Int) (bundleID : String)
    (hmax : 0 ≤ maxTxs) (l : List (String × Int)) (hD : (distinctRecords l : Int) ≤ maxTxs)
    {x : String} {i : Nat} (h : lastInsertion maxAge maxTxs bundleID l x = some i) :
    i = firstAppend l x := by
  unfold lastInsertion at h
  have hins := (List.mem_filter.mp (List.mem_of_getLast?_eq_some h)).2
  unfold insertsAt at hins
  cases hp : l[i]? with
  | none => simp [hp] at hins
  | some p =>
    simp only [hp, decide_eq_true_eq] at hins
    obtain ⟨hpx, hnot⟩ := hins
    have hname : (l.map Prod.fst)[i]? = some x := by
      rw [List.getElem?_map, hp, ← hpx]
      rfl
    have hi : i < (l.map Prod.fst).length := by
      by_contra hcon
      rw [List.getElem?_eq_none (by omega)] at hname
      exact absurd hname (by simp)
    have hle : firstAppend l x < i + 1 := by
      unfold firstAppend
      rw [← mem_take_iff_indexOf_lt x _ (i + 1) (by omega)]
      apply List.getElem?_mem (n := i)
      rw [List.getElem?_take_of_succ]
      exact hname
    have hge : ¬ firstAppend l x < i := by
      intro hlt
      unfold firstAppend at hlt
      rw [← mem_take_iff_indexOf_lt x _ i (by omega), ← List.map_take] at hlt
      have hD' : (distinctRecords (l.take i) : Int) ≤ maxTxs := by
        have := distinctRecords_take_le l i
        omega
      exact hnot (listAfter_no_eviction maxAge maxTxs bundleID hmax (l.take i) hD' x hlt)
    omega

theorem mapDelete_eq_self {m : List (String × bundleData)} {id : String}
    (h : id ∉ mapKeys m) : mapDelete m id = m := by
  unfold mapDelete
  rw [List.filter_eq_self]
  intro e he
  have hne : e.1 ≠ id := by
    intro heq
    apply h
    rw [← heq]
    exact List.mem_map_of_mem Prod.fst he
  simpa using hne

theorem not_mem_mapKeys_mapDelete (m : List (String × bundleData)) (id : String) :
    id ∉ mapKeys (mapDelete m id) := by
  unfold mapKeys mapDelete
  intro h
  rw [List.mem_map] at h
  obtain ⟨e, he, heq⟩ := h
  have := (List.mem_filter.mp he).2
  simp only [decide_eq_true_eq] at this
  exact this heq

theorem mapGet_eq_none_iff (m : List (String × bundleData)) (id : String) :
    mapGet m id = none ↔ id ∉ mapKeys m := by
  constructor
  · intro h hmem
    induction m with
    | nil => simp [mapKeys] at hmem
    | cons e m ih =>
      obtain ⟨k, v⟩ := e
      by_cases hk : k = id
      · simp [mapGet, hk] at h
      · simp only [mapGet, hk, if_false] at h
        simp only [mapKeys, List.map_cons, List.mem_cons] at hmem
        rcases hmem with hmem | hmem
        · exact hk hmem.symm
        · exact ih h hmem
  · exact mapGet_eq_none_of_not_mem_mapKeys

theorem mem_nextBundle (s : RpcEndPointServer) (now : Int) (bundleID rawTx : String)
    (hmax : 1 ≤ s.maxTxs) : rawTx ∈ (nextBundle s now bundleID rawTx).transactions := by
  unfold nextBundle
  by_cases hdup : rawTx ∈ (bundleAt s now bundleID).transactions
  · simp [hdup]
  · simp only [hdup, if_false]
    exact mem_trim_append hmax _ _

/-- With capacity at least one every call keeps `storeOk` and leaves no bundle without
records. -/
theorem exec_nonempty (s : RpcEndPointServer) (c : Call)
    (h : storeOk s ∧ 1 ≤ s.maxTxs ∧ ∀ e ∈ s.bundles, e.2.transactions ≠ []) :
    ∃ s', Call.exec s c = .ok s' ∧
      (storeOk s' ∧ 1 ≤ s'.maxTxs ∧ ∀ e ∈ s'.bundles, e.2.transactions ≠ []) := by
  obtain ⟨hok, hmax, hne⟩ := h
  obtain ⟨s', h1, h2, h3, _⟩ := exec_storeOk s c hok
  refine ⟨s', h1, h2, by omega, ?_⟩
  cases c with
  | Append bundleID rawTx now =>
    have hadd := addTxToBundle_ok s now bundleID rawTx hok.1 (by
      intro b hb
      have := (hok.2 _ (mapGet_mem hb)).1
      have : (1 : Int) ≤ maxInt64 := by decide
      simp only at *
      omega)
    simp only [Call.exec, hadd, Except.ok.injEq] at h1
    rw [← h1]
    intro e he
    rcases mem_mapSet he with he | he
    · exact hne e he
    · rw [he]
      exact List.ne_nil_of_mem (mem_nextBundle s now bundleID rawTx hmax)
  | Delete bundleID =>
    simp only [Call.exec, Except.ok.injEq] at h1
    rw [← h1]
    exact fun e he => hne e (mem_mapDelete he)
  | Sweep now =>
    simp only [Call.exec, Except.ok.injEq] at h1
    rw [← h1]
    exact fun e he => hne e (mem_cleanup he)

/-- The tail of `addTxToBundle` on a record not yet listed, read through `trimTaken`,
`trimStart` and `sliceInRange`: these are the test and the index the code computes. -/
theorem addTxToBundle.store_trim (s : RpcEndPointServer) (bundles : List (String × bundleData))
    (bundle : bundleData) (bundleID rawTx : String) (hnew : rawTx ∉ bundle.transactions) :
    addTxToBundle.store s bundles bundle bundleID rawTx =
      if trimTaken s.maxTxs (bundle.transactions ++ [rawTx]) then
        if sliceInRange (trimStart s.maxTxs (bundle.transactions ++ [rawTx]))
            (bundle.transactions ++ [rawTx]) then
          .ok ({ s with bundles := (mapSet bundles bundleID
                  { bundle with transactions := ((bundle.transactions ++ [rawTx]).drop
                      (trimStart s.maxTxs (bundle.transactions ++ [rawTx])).toNat) }) }, none)
        else
          .error { s with bundles := (mapSet bundles bundleID
                  { bundle with transactions := bundle.transactions ++ [rawTx] }) }
      else
        .ok ({ s with bundles := (mapSet bundles bundleID
                { bundle with transactions := bundle.transactions ++ [rawTx] }) }, none) := by
  unfold addTxToBundle.store
  simp only [hnew, if_false]
  rfl

/-- On a record not yet listed `addTxToBundle` panics exactly when the trim is taken with its
start index out of range. -/
theorem addTxToBundle_error_iff (s : RpcEndPointServer) (now : Int) (bundleID rawTx : String)
    (hnew : rawTx ∉ records s bundleID) :
    (∃ s', addTxToBundle s now bundleID rawTx = .error s') ↔
      (trimTaken s.maxTxs (records s bundleID ++ [rawTx]) ∧
        ¬ sliceInRange (trimStart s.maxTxs (records s bundleID ++ [rawTx]))
          (records s bundleID ++ [rawTx])) := by
  rw [records_eq s now bundleID] at hnew ⊢
  unfold addTxToBundle bundleAt at *
  cases hget : mapGet s.bundles bundleID with
  | some b =>
    simp only [hget, Option.getD_some] at hnew ⊢
    rw [addTxToBundle.store_trim _ _ _ _ _ hnew]
    by_cases h1 : trimTaken s.maxTxs (b.transactions ++ [rawTx])
    · by_cases h2 : sliceInRange (trimStart s.maxTxs (b.transactions ++ [rawTx]))
          (b.transactions ++ [rawTx])
      · simp [h1, h2]
      · simp [h1, h2]
    · simp [h1]
  | none =>
    simp only [hget, Option.getD_none] at hnew ⊢
    rw [addTxToBundle.store_trim _ _ _ _ _ hnew]
    simp only [List.nil_append]
    by_cases h1 : trimTaken s.maxTxs [rawTx]
    · by_cases h2 : sliceInRange (trimStart s.maxTxs [rawTx]) [rawTx]
      · simp [h1, h2]
      · simp [h1, h2]
    · simp [h1]

theorem headerGet_headerDel (h : List (String × String)) (key key' : String) :
    headerGet (headerDel h key) key' = if key = key' then none else headerGet h key' := by
  induction h with
  | nil => simp [headerDel, headerGet]
  | cons e h ih =>
    obtain ⟨k, v⟩ := e
    unfold headerDel at ih ⊢
    by_cases hk : k = key
    · subst hk
      by_cases h' : k = key'
      · simpa [List.filter_cons, headerGet, h'] using ih
      · simpa [List.filter_cons, headerGet, h'] using ih
    · by_cases h' : k = key'
      · subst h'
        have : ¬ key = k := fun h => hk h.symm
        simp [List.filter_cons, headerGet, hk, this]
      · simpa [List.filter_cons, headerGet, hk, h'] using ih

theorem headerGet_headerSet (h : List (String × String)) (key value key' : String) :
    headerGet (headerSet h key value) key'
      = if key = key' then some value else headerGet h key' := by
  unfold headerSet
  by_cases hk : key = key'
  · simp [headerGet, hk]
  · simp [headerGet, hk, headerGet_headerDel]

theorem hasCors_headerSet {h : List (String × String)} (hc : hasCors h) (key value : String)
    (h1 : key ≠ "Access-Control-Allow-Origin") (h2 : key ≠ "Access-Control-Allow-Methods")
    (h3 : key ≠ "Access-Control-Allow-Headers") : hasCors (headerSet h key value) := by
  unfold hasCors at *
  simp only [headerGet_headerSet, h1, h2, h3, if_false]
  exact hc

theorem hasCors_headerDel {h : List (String × String)} (hc : hasCors h) (key : String)
    (h1 : key ≠ "Access-Control-Allow-Origin") (h2 : key ≠ "Access-Control-Allow-Methods")
    (h3 : key ≠ "Access-Control-Allow-Headers") : hasCors (headerDel h key) := by
  unfold hasCors at *
  simp only [headerGet_headerDel, h1, h2, h3, if_false]
  exact hc

theorem hasCors_setCorsHeaders (w : ResponseWriter) : hasCors (setCorsHeaders w).header := by
  unfold hasCors setCorsHeaders ResponseWriter.Set
  simp only [headerGet_headerSet]
  refine ⟨?_, ?_, ?_⟩ <;> simp

theorem setCorsHeaders_wroteHeader (w : ResponseWriter) :
    (setCorsHeaders w).wroteHeader = w.wroteHeader := rfl

/-- `WriteHeader` on a writer whose status line has not gone out: the code is the one given
and the headers sent are the ones in the map. -/
theorem WriteHeader_fresh {w : ResponseWriter} (hw : w.wroteHeader = false) (code : Nat) :
    (w.WriteHeader code).wroteHeader = true ∧ (w.WriteHeader code).Code = code ∧
    (w.WriteHeader code).sent = w.header ∧ (w.WriteHeader code).header = w.header := by
  simp [ResponseWriter.WriteHeader, hw]

theorem Write_fresh {w : ResponseWriter} (hw : w.wroteHeader = false) (data : String) :
    (w.Write data).wroteHeader = true ∧ (w.Write data).Code = 200 ∧
    (w.Write data).sent = w.header ∧ (w.Write data).header = w.header := by
  simp [ResponseWriter.Write, ResponseWriter.WriteHeader, hw]

theorem Write_wrote {w : ResponseWriter} (hw : w.wroteHeader = true) (data : String) :
    (w.Write data).wroteHeader = true ∧ (w.Write data).Code = w.Code ∧
    (w.Write data).sent = w.sent ∧ (w.Write data).header = w.header := by
  simp [ResponseWriter.Write, ResponseWriter.WriteHeader, hw]

/-- `http.Error` on a writer whose status line has not gone out: the code is the one given,
and cross-origin headers in the map are in the headers sent. -/
theorem httpError_fresh {w : ResponseWriter} (hw : w.wroteHeader = false) (msg : String)
    (code : Nat) :
    (httpError w msg code).wroteHeader = true ∧ (httpError w msg code).Code = code ∧
    (hasCors w.header → hasCors (httpError w msg code).sent ∧
      hasCors (httpError w msg code).header) := by
  have h1 : (({ w with header := headerDel w.header "Content-Length" }.Set
      "Content-Type" "text/plain; charset=utf-8").Set
      "X-Content-Type-Options" "nosniff").wroteHeader = false := hw
  obtain ⟨a1, a2, a3, a4⟩ := WriteHeader_fresh h1 code
  obtain ⟨b1, b2, b3, b4⟩ := Write_wrote a1 (msg ++ "\n")
  unfold httpError
  refine ⟨b1, by rw [b2, a2], ?_⟩
  intro hc
  have hset : hasCors (({ w with header := headerDel w.header "Content-Length" }.Set
      "Content-Type" "text/plain; charset=utf-8").Set
      "X-Content-Type-Options" "nosniff").header := by
    simp only [ResponseWriter.Set]
    exact hasCors_headerSet
      (hasCors_headerSet (hasCors_headerDel hc _ (by decide) (by decide) (by decide)) _ _
        (by decide) (by decide) (by decide)) _ _ (by decide) (by decide) (by decide)
  exact ⟨by rw [b3, a3]; exact hset, by rw [b4, a4]; exact hset⟩

/-- `handleGetBundle` on a writer whose status line has not gone out: it answers 200 or 500,
sends the cross-origin headers of the map, and returns the store it was given. -/
theorem handleGetBundle_fresh (encode : BundleResponse → Option String) (s : RpcEndPointServer)
    {w : ResponseWriter} (hw : w.wroteHeader = false) (hc : hasCors w.header)
    (bundleID : String) :
    (handleGetBundle encode s w bundleID).2 = s ∧
    (handleGetBundle encode s w bundleID).1.wroteHeader = true ∧
    hasCors (handleGetBundle encode s w bundleID).1.sent ∧
    hasCors (handleGetBundle encode s w bundleID).1.header := by
  unfold handleGetBundle
  rw [getBundleTxs_eq]
  simp only
  have hw1 : (w.Set "Content-Type" "application/json").wroteHeader = false := hw
  have hc1 : hasCors (w.Set "Content-Type" "application/json").header :=
    hasCors_headerSet hc _ _ (by decide) (by decide) (by decide)
  cases encode { BundleID := bundleID, RawTxs := records s bundleID } with
  | some bytes =>
    obtain ⟨a1, _, a3, a4⟩ := Write_fresh hw1 bytes
    exact ⟨rfl, a1, by rw [a3]; exact hc1, by rw [a4]; exact hc1⟩
  | none =>
    obtain ⟨a1, _, a3⟩ := httpError_fresh hw1 "failed to encode response" 500
    exact ⟨rfl, a1, (a3 hc1).1, (a3 hc1).2⟩

theorem handleDeleteBundle_eq (s : RpcEndPointServer) (w : ResponseWriter) (bundleID : String) :
    handleDeleteBundle s w bundleID = (w.WriteHeader 200, (deleteBundleTxs s bundleID).1) := rfl

/-- `handleAddTransaction` on a writer whose status line has not gone out: when it returns it
has answered and sent the cross-origin headers of the map; when it panics the writer is
untouched. -/
theorem handleAddTransaction_fresh (decode : String → Option TransactionRequest)
    (s : RpcEndPointServer) (now : Int) {w : ResponseWriter} (hw : w.wroteHeader = false)
    (hc : hasCors w.header) (r : Request) (bundleID : String) :
    (∀ w' s', handleAddTransaction decode s now w r bundleID = .ok (w', s') →
      w'.wroteHeader = true ∧ hasCors w'.sent ∧ hasCors w'.header) ∧
    (∀ w' s', handleAddTransaction decode s now w r bundleID = .error (w', s') → w' = w) := by
  unfold handleAddTransaction
  cases decode r.Body with
  | none =>
    obtain ⟨a1, _, a3⟩ := httpError_fresh hw "invalid request body" 400
    constructor
    · intro w' s' h
      simp only [Except.ok.injEq, Prod.mk.injEq] at h
      rw [← h.1]
      exact ⟨a1, (a3 hc).1, (a3 hc).2⟩
    · intro w' s' h
      exact absurd h (by simp)
  | some txReq =>
    simp only
    by_cases hraw : txReq.RawTx = ""
    · obtain ⟨a1, _, a3⟩ := httpError_fresh hw "rawTx is required" 400
      simp only [hraw, if_true]
      constructor
      · intro w' s' h
        simp only [Except.ok.injEq, Prod.mk.injEq] at h
        rw [← h.1]
        exact ⟨a1, (a3 hc).1, (a3 hc).2⟩
      · intro w' s' h
        exact absurd h (by simp)
    · simp only [hraw, if_false]
      cases hadd : addTxToBundle s now bundleID txReq.RawTx with
      | error s1 =>
        constructor
        · intro w' s' h
          exact absurd h (by simp)
        · intro w' s' h
          simp only [Except.error.injEq, Prod.mk.injEq] at h
          exact h.1.symm
      | ok res =>
        obtain ⟨s1, e⟩ := res
        cases e with
        | some msg =>
          obtain ⟨a1, _, a3⟩ := httpError_fresh hw "failed to add transaction to bundle" 500
          constructor
          · intro w' s' h
            simp only [Except.ok.injEq, Prod.mk.injEq] at h
            rw [← h.1]
            exact ⟨a1, (a3 hc).1, (a3 hc).2⟩
          · intro w' s' h
            exact absurd h (by simp)
        | none =>
          obtain ⟨a1, _, a3, a4⟩ := WriteHeader_fresh hw 200
          constructor
          · intro w' s' h
            simp only [Except.ok.injEq, Prod.mk.injEq] at h
            rw [← h.1]
            exact ⟨a1, by rw [a3]; exact hc, by rw [a4]; exact hc⟩
          · intro w' s' h
            exact absurd h (by simp)

theorem handleGetBundle_snd (encode : BundleResponse → Option String) (s : RpcEndPointServer)
    (w : ResponseWriter) (bundleID : String) : (handleGetBundle encode s w bundleID).2 = s := by
  unfold handleGetBundle
  rw [getBundleTxs_eq]
  simp only
  cases encode { BundleID := bundleID, RawTxs := records s bundleID } <;> rfl

/-! ## Lemmas on slices in memory -/

theorem take_drop_set_of_le (arr : List String) (off len i : Nat) (x : String)
    (h : off + len ≤ i) : ((arr.set i x).drop off).take len = (arr.drop off).take len := by
  apply List.ext_getElem?
  intro j
  rw [List.getElem?_take, List.getElem?_take]
  split
  · rw [List.getElem?_drop, List.getElem?_drop, List.getElem?_set_ne (by omega)]
  · rfl

theorem heapWrite_length (heap : List (List String)) (a i : Nat) (x : String) :
    (heapWrite heap a i x).length = heap.length := by
  simp [heapWrite]

/-- A write on another array, or behind the end of the slice, leaves the elements of the
slice as they are. -/
theorem read_heapWrite (heap : List (List String)) (v : Slice) (a i : Nat) (x : String)
    (h : a ≠ v.array ∨ v.stop ≤ i) : v.read (heapWrite heap a i x) = v.read heap := by
  unfold Slice.read heapWrite
  simp only [List.getD_eq_getElem?_getD]
  by_cases ha : a = v.array
  · have hi : v.off + v.len ≤ i := by
      rcases h with h | h
      · exact absurd ha h
      · exact h
    rw [ha, List.getElem?_set]
    by_cases hlt : v.array < heap.length
    · simp only [hlt, if_true, Option.getD_some]
      exact take_drop_set_of_le _ _ _ _ _ hi
    · simp only [hlt, if_false, if_true, Option.getD_none]
      rw [List.getElem?_eq_none (by omega)]
      rfl
  · rw [List.getElem?_set_ne ha]

/-- An allocation leaves the elements of a slice on an existing array as they are. -/
theorem read_alloc (heap : List (List String)) (v : Slice) (arr : List String)
    (h : v.array < heap.length) : v.read (heap ++ [arr]) = v.read heap := by
  unfold Slice.read
  simp only [List.getD_eq_getElem?_getD]
  rw [List.getElem?_append_left h]

theorem Mem.mem_mapSet_slices {m : List (String × Mem.bundleData)} {id : String} {b : Mem.bundleData}
    {e : String × Mem.bundleData} (h : e ∈ Mem.mapSet m id b) : e ∈ m ∨ e = (id, b) := by
  induction m with
  | nil =>
    simp [Mem.mapSet] at h
    exact Or.inr h
  | cons x m ih =>
    obtain ⟨k, v⟩ := x
    by_cases hk : k = id
    · simp only [Mem.mapSet, hk, if_true, List.mem_cons] at h
      rcases h with h | h
      · exact Or.inr h
      · exact Or.inl (List.mem_cons_of_mem _ h)
    · simp only [Mem.mapSet, hk, if_false, List.mem_cons] at h
      rcases h with h | h
      · exact Or.inl (h ▸ List.mem_cons_self _ _)
      · rcases ih h with h' | h'
        · exact Or.inl (List.mem_cons_of_mem _ h')
        · exact Or.inr h'

theorem Mem.mapGet_mem_slices {m : List (String × Mem.bundleData)} {id : String} {b : Mem.bundleData}
    (h : Mem.mapGet m id = some b) : (id, b) ∈ m := by
  induction m with
  | nil => simp [Mem.mapGet] at h
  | cons e m ih =>
    obtain ⟨k, v⟩ := e
    by_cases hk : k = id
    · subst hk
      simp [Mem.mapGet] at h
      simp [h]
    · simp [Mem.mapGet, hk] at h
      exact List.mem_cons_of_mem _ (ih h)

theorem Mem.cleanupStep_sublist_slices (maxAge now : Int) (m : List (String × Mem.bundleData))
    (id : String) : (Mem.cleanupStep maxAge now m id).Sublist m := by
  unfold Mem.cleanupStep
  cases Mem.mapGet m id with
  | none => exact List.Sublist.refl _
  | some b =>
    by_cases h : Sub now b.createdAt > maxAge
    · simp only [h, if_true]
      exact List.filter_sublist _
    · simp only [h, if_false]
      exact List.Sublist.refl _

theorem Mem.foldl_cleanupStep_sublist_slices (maxAge now : Int) (ks : List String) :
    ∀ m : List (String × Mem.bundleData),
      (ks.foldl (Mem.cleanupStep maxAge now) m).Sublist m := by
  induction ks with
  | nil => intro m; exact List.Sublist.refl _
  | cons k ks ih =>
    intro m
    simp only [List.foldl_cons]
    exact (ih _).trans (Mem.cleanupStep_sublist_slices maxAge now m k)

/-- `append` keeps a caller's slice out of the way: its elements stay, its array stays on the
heap, and the slice `append` returns ends behind it when on the same array. -/
theorem Slice.append_behind (grow : Nat → Nat) (heap : List (List String)) (sl v : Slice)
    (x : String) (hv : v.array < heap.length) (hsl : sl.array = v.array → v.stop ≤ sl.stop) :
    v.read (Slice.append grow heap sl x).1 = v.read heap ∧
    v.array < (Slice.append grow heap sl x).1.length ∧
    ((Slice.append grow heap sl x).2.array = v.array →
      v.stop ≤ (Slice.append grow heap sl x).2.stop) ∧
    (Slice.append grow heap sl x).2.len = sl.len + 1 := by
  unfold Slice.append
  by_cases hcap : sl.len < sl.cap
  · rw [if_pos hcap]
    refine ⟨?_, ?_, ?_, ?_⟩
    · apply read_heapWrite
      by_cases ha : sl.array = v.array
      · exact Or.inr (hsl ha)
      · exact Or.inl ha
    · show v.array < (heapWrite heap sl.array (sl.off + sl.len) x).length
      rw [heapWrite_length]
      exact hv
    · intro ha
      have := hsl ha
      simp only [Slice.stop] at *
      omega
    · rfl
  · rw [if_neg hcap]
    refine ⟨read_alloc _ _ _ hv, ?_, ?_, ?_⟩
    · show v.array < (heap ++ [_]).length
      rw [List.length_append]
      omega
    · intro ha
      have ha' : heap.length = v.array := ha
      omega
    · rfl

theorem Slice.reslice_stop (sl : Slice) (k : Nat) (h : k ≤ sl.len) :
    (sl.reslice k).array = sl.array ∧ (sl.reslice k).stop = sl.stop := by
  constructor
  · rfl
  · show sl.off + k + (sl.len - k) = sl.off + sl.len
    omega

/-- The tail of `addTxToBundle` in memory keeps a caller's slice `v` as it is and out of the
way, whether it returns or panics. -/
theorem Mem.store_behind (grow : Nat → Nat) (m : Mem.RpcEndPointServer)
    (heap : List (List String)) (bundles : List (String × Mem.bundleData))
    (bundle : Mem.bundleData) (bundleID rawTx : String) (v : Slice)
    (hv : Mem.behind heap bundles v)
    (hb : bundle.transactions.array = v.array → v.stop ≤ bundle.transactions.stop) :
    v.read (Mem.storeAfter
        (Mem.addTxToBundle.store grow m heap bundles bundle bundleID rawTx)).heap
      = v.read heap ∧
    Mem.behind
      (Mem.storeAfter (Mem.addTxToBundle.store grow m heap bundles bundle bundleID rawTx)).heap
      (Mem.storeAfter
        (Mem.addTxToBundle.store grow m heap bundles bundle bundleID rawTx)).bundles v := by
  obtain ⟨a1, a2, a3, a4⟩ := Slice.append_behind grow heap bundle.transactions v rawTx hv.1 hb
  have hset : ∀ sl : Slice, (sl.array = v.array → v.stop ≤ sl.stop) →
      ∀ e ∈ Mem.mapSet bundles bundleID { bundle with transactions := sl },
        e.2.transactions.array = v.array → v.stop ≤ e.2.transactions.stop := by
    intro sl hsl e he
    rcases Mem.mem_mapSet_slices he with he | he
    · exact hv.2 e he
    · rw [he]
      exact hsl
  unfold Mem.addTxToBundle.store
  by_cases hdup : rawTx ∈ bundle.transactions.read heap
  · rw [if_pos hdup]
    exact ⟨rfl, hv⟩
  · rw [if_neg hdup]
    simp only
    by_cases hgt : ((Slice.append grow heap bundle.transactions rawTx).2.len : Int) > m.maxTxs
    · rw [if_pos hgt]
      by_cases hin : 0 ≤ wrap64 (((Slice.append grow heap bundle.transactions rawTx).2.len : Int)
            - m.maxTxs) ∧
          wrap64 (((Slice.append grow heap bundle.transactions rawTx).2.len : Int) - m.maxTxs)
            ≤ ((Slice.append grow heap bundle.transactions rawTx).2.len : Int)
      · rw [if_pos hin]
        refine ⟨a1, a2, ?_⟩
        apply hset
        obtain ⟨r1, r2⟩ := Slice.reslice_stop (Slice.append grow heap bundle.transactions rawTx).2
          (wrap64 (((Slice.append grow heap bundle.transactions rawTx).2.len : Int)
            - m.maxTxs)).toNat (by omega)
        rw [r1, r2]
        exact a3
      · rw [if_neg hin]
        exact ⟨a1, a2, hset _ a3⟩
    · rw [if_neg hgt]
      exact ⟨a1, a2, hset _ a3⟩

/-- `addTxToBundle` in memory keeps a caller's slice as it is and out of the way. -/
theorem Mem.addTxToBundle_behind (grow : Nat → Nat) (m : Mem.RpcEndPointServer) (now : Int)
    (bundleID rawTx : String) (v : Slice) (hv : Mem.behind m.heap m.bundles v) :
    v.read (Mem.storeAfter (Mem.addTxToBundle grow m now bundleID rawTx)).heap
      = v.read m.heap ∧
    Mem.behind (Mem.storeAfter (Mem.addTxToBundle grow m now bundleID rawTx)).heap
      (Mem.storeAfter (Mem.addTxToBundle grow m now bundleID rawTx)).bundles v := by
  unfold Mem.addTxToBundle
  cases hget : Mem.mapGet m.bundles bundleID with
  | some bundle =>
    exact Mem.store_behind grow m m.heap m.bundles bundle bundleID rawTx v hv
      (hv.2 _ (Mem.mapGet_mem_slices hget))
  | none =>
    have hfresh : (Slice.empty m.heap).2.array ≠ v.array := by
      have := hv.1
      show m.heap.length ≠ v.array
      omega
    have hv' : Mem.behind (Slice.empty m.heap).1
        (Mem.mapSet m.bundles bundleID
          { transactions := (Slice.empty m.heap).2, createdAt := now }) v := by
      constructor
      · show v.array < (m.heap ++ [[]]).length
        rw [List.length_append]
        have := hv.1
        omega
      · intro e he
        rcases Mem.mem_mapSet_slices he with he | he
        · exact hv.2 e he
        · rw [he]
          intro h
          exact absurd h hfresh
    obtain ⟨h1, h2⟩ := Mem.store_behind grow m (Slice.empty m.heap).1 _
      { transactions := (Slice.empty m.heap).2, createdAt := now } bundleID rawTx v hv'
      (fun h => absurd h hfresh)
    refine ⟨?_, h2⟩
    rw [h1]
    exact read_alloc m.heap v [] hv.1

/-- Every call keeps a caller's slice as it is and out of the way. -/
theorem Mem.leaves_behind (grow : Nat → Nat) (m : Mem.RpcEndPointServer) (c : Call)
    (v : Slice) (hv : Mem.behind m.heap m.bundles v) :
    v.read (Mem.leaves grow m c).heap = v.read m.heap ∧
    Mem.behind (Mem.leaves grow m c).heap (Mem.leaves grow m c).bundles v := by
  cases c with
  | Append bundleID rawTx now =>
    have hleaves : Mem.leaves grow m (.Append bundleID rawTx now)
        = Mem.storeAfter (Mem.addTxToBundle grow m now bundleID rawTx) := by
      simp only [Mem.leaves]
      cases Mem.addTxToBundle grow m now bundleID rawTx with
      | ok r => rfl
      | error r => rfl
    rw [hleaves]
    exact Mem.addTxToBundle_behind grow m now bundleID rawTx v hv
  | Delete bundleID =>
    exact ⟨rfl, hv.1, fun e he => hv.2 e (List.mem_of_mem_filter he)⟩
  | Sweep now =>
    exact ⟨rfl, hv.1, fun e he =>
      hv.2 e ((Mem.foldl_cleanupStep_sublist_slices m.maxAge now _ m.bundles).subset he)⟩

theorem Mem.runThrough_behind (grow : Nat → Nat) (cs : List Call) :
    ∀ (m : Mem.RpcEndPointServer) (v : Slice), Mem.behind m.heap m.bundles v →
      v.read (Mem.runThrough grow m cs).heap = v.read m.heap ∧
      Mem.behind (Mem.runThrough grow m cs).heap (Mem.runThrough grow m cs).bundles v := by
  induction cs with
  | nil => intro m v hv; exact ⟨rfl, hv⟩
  | cons c cs ih =>
    intro m v hv
    obtain ⟨h1, h2⟩ := Mem.leaves_behind grow m c v hv
    obtain ⟨h3, h4⟩ := ih (Mem.leaves grow m c) v h2
    exact ⟨by rw [← h1, ← h3]; rfl, h4⟩

theorem getD_heapWrite_length (heap : List (List String)) (a i b : Nat) (x : String) :
    ((heapWrite heap a i x).getD b []).length = (heap.getD b []).length := by
  unfold heapWrite
  simp only [List.getD_eq_getElem?_getD]
  by_cases hab : a = b
  · rw [hab, List.getElem?_set]
    by_cases hlt : b < heap.length
    · simp [hlt]
    · simp only [hlt, if_false, if_true]
      rw [List.getElem?_eq_none (by omega)]
  · rw [List.getElem?_set_ne hab]

theorem Slice.valid_heapWrite {heap : List (List String)} {sl : Slice} (h : sl.valid heap)
    (a i : Nat) (x : String) : sl.valid (heapWrite heap a i x) := by
  unfold Slice.valid at *
  rw [heapWrite_length, getD_heapWrite_length]
  exact h

theorem Slice.valid_alloc {heap : List (List String)} {sl : Slice} (h : sl.valid heap)
    (arr : List String) : sl.valid (heap ++ [arr]) := by
  unfold Slice.valid at *
  obtain ⟨h1, h2, h3⟩ := h
  refine ⟨by rw [List.length_append]; omega, ?_, h3⟩
  simp only [List.getD_eq_getElem?_getD] at h2 ⊢
  rw [List.getElem?_append_left h1]
  exact h2

theorem Slice.read_length {heap : List (List String)} {sl : Slice} (h : sl.valid heap) :
    (sl.read heap).length = sl.len := by
  unfold Slice.valid at h
  unfold Slice.read
  rw [List.length_take, List.length_drop]
  omega

/-- `append` returns a slice that fits the new heap, on the old array or on a new one, and
every slice that fitted the heap still does. -/
theorem Slice.append_valid (grow : Nat → Nat) {heap : List (List String)} {sl : Slice}
    (h : sl.valid heap) (x : String) :
    (Slice.append grow heap sl x).2.valid (Slice.append grow heap sl x).1 ∧
    ((Slice.append grow heap sl x).2.array = sl.array ∨
      (Slice.append grow heap sl x).2.array = heap.length) ∧
    (∀ sl' : Slice, sl'.valid heap → sl'.valid (Slice.append grow heap sl x).1) := by
  unfold Slice.append
  by_cases hcap : sl.len < sl.cap
  · rw [if_pos hcap]
    refine ⟨?_, Or.inl rfl, fun sl' h' => Slice.valid_heapWrite h' _ _ _⟩
    have hv := Slice.valid_heapWrite h sl.array (sl.off + sl.len) x
    unfold Slice.valid at hv ⊢
    exact ⟨hv.1, hv.2.1, hcap⟩
  · rw [if_neg hcap]
    refine ⟨?_, Or.inr rfl, fun sl' h' => Slice.valid_alloc h' _⟩
    have hlen := Slice.read_length h
    unfold Slice.valid
    refine ⟨?_, ?_, ?_⟩
    · show heap.length < (heap ++ [_]).length
      rw [List.length_append]
      simp
    · show 0 + (sl.len + 1 + grow (sl.len + 1)) ≤ ((heap ++ [_]).getD heap.length []).length
      simp only [List.getD_eq_getElem?_getD, List.getElem?_concat_length, Option.getD_some,
        List.length_append, List.length_singleton, List.length_replicate, hlen]
      omega
    · show sl.len + 1 ≤ sl.len + 1 + grow (sl.len + 1)
      omega

theorem Slice.reslice_valid {heap : List (List String)} {sl : Slice} (h : sl.valid heap)
    (k : Nat) (hk : k ≤ sl.len) : (sl.reslice k).valid heap := by
  unfold Slice.valid at *
  obtain ⟨h1, h2, h3⟩ := h
  refine ⟨h1, ?_, ?_⟩
  · show sl.off + k + (sl.cap - k) ≤ (heap.getD sl.array []).length
    omega
  · show sl.len - k ≤ sl.cap - k
    omega

theorem Slice.empty_valid (heap : List (List String)) :
    (Slice.empty heap).2.valid (Slice.empty heap).1 := by
  unfold Slice.valid Slice.empty
  refine ⟨?_, ?_, ?_⟩
  · show heap.length < (heap ++ [[]]).length
    rw [List.length_append]
    simp
  · show 0 + 0 ≤ ((heap ++ [[]]).getD heap.length []).length
    omega
  · show 0 ≤ 0
    omega

theorem Mem.mapGet_mapSet_self_slices (m : List (String × Mem.bundleData)) (id : String)
    (b : Mem.bundleData) : Mem.mapGet (Mem.mapSet m id b) id = some b := by
  induction m with
  | nil => simp [Mem.mapSet, Mem.mapGet]
  | cons e m ih =>
    obtain ⟨k, v⟩ := e
    by_cases hk : k = id
    · simp [Mem.mapSet, Mem.mapGet, hk]
    · simp [Mem.mapSet, Mem.mapGet, hk, ih]

/-- Writing a bundle whose array is new, or is the array of the bundle it replaces, keeps the
backing arrays of the bundles distinct. -/
theorem Mem.nodup_mapSet (m : List (String × Mem.bundleData)) (id : String)
    (b : Mem.bundleData)
    (hnd : (m.map (fun e => e.2.transactions.array)).Nodup)
    (hnew : ∀ e ∈ m, e.2.transactions.array = b.transactions.array →
      Mem.mapGet m id = some e.2) :
    ((Mem.mapSet m id b).map (fun e => e.2.transactions.array)).Nodup := by
  induction m with
  | nil => simp [Mem.mapSet]
  | cons x m ih =>
    obtain ⟨k, v⟩ := x
    rw [List.map_cons, List.nodup_cons] at hnd
    obtain ⟨hhead, htail⟩ := hnd
    by_cases hk : k = id
    · simp only [Mem.mapSet, hk, if_true, List.map_cons, List.nodup_cons]
      refine ⟨?_, htail⟩
      intro hmem
      rw [List.mem_map] at hmem
      obtain ⟨e, he, harr⟩ := hmem
      have h1 := hnew e (List.mem_cons_of_mem _ he) harr
      simp only [Mem.mapGet, hk, if_true, Option.some.injEq] at h1
      apply hhead
      rw [List.mem_map]
      exact ⟨e, he, by rw [h1]⟩
    · simp only [Mem.mapSet, hk, if_false, List.map_cons, List.nodup_cons]
      constructor
      · intro hmem
        rw [List.mem_map] at hmem
        obtain ⟨e, he, harr⟩ := hmem
        rcases Mem.mem_mapSet_slices he with he | he
        · exact hhead (List.mem_map.mpr ⟨e, he, harr⟩)
        · rw [he] at harr
          have h1 := hnew (k, v) (List.mem_cons_self _ _) harr.symm
          simp only [Mem.mapGet, hk, if_false] at h1
          exact hhead (List.mem_map.mpr ⟨(id, v), Mem.mapGet_mem_slices h1, rfl⟩)
      · apply ih htail
        intro e he harr
        have h1 := hnew e (List.mem_cons_of_mem _ he) harr
        simpa only [Mem.mapGet, hk, if_false] using h1

/-- The tail of `addTxToBundle` in memory keeps every slice fitting the heap and the backing
arrays of the bundles distinct. -/
theorem Mem.store_storeOk (grow : Nat → Nat) (m : Mem.RpcEndPointServer)
    (heap : List (List String)) (bundles : List (String × Mem.bundleData))
    (bundle : Mem.bundleData) (bundleID rawTx : String)
    (hvalid : ∀ e ∈ bundles, e.2.transactions.valid heap)
    (hnd : (bundles.map (fun e => e.2.transactions.array)).Nodup)
    (hget : Mem.mapGet bundles bundleID = some bundle) :
    Mem.storeOk
      (Mem.storeAfter (Mem.addTxToBundle.store grow m heap bundles bundle bundleID rawTx)) := by
  have hb : bundle.transactions.valid heap := hvalid _ (Mem.mapGet_mem_slices hget)
  obtain ⟨a1, a2, a3⟩ := Slice.append_valid grow hb rawTx
  have hset : ∀ sl : Slice, sl.valid (Slice.append grow heap bundle.transactions rawTx).1 →
      sl.array = (Slice.append grow heap bundle.transactions rawTx).2.array →
      Mem.storeOk { m with
        heap := (Slice.append grow heap bundle.transactions rawTx).1,
        bundles := (Mem.mapSet bundles bundleID { bundle with transactions := sl }) } := by
    intro sl hsl harr
    constructor
    · intro e he
      rcases Mem.mem_mapSet_slices he with he | he
      · exact a3 _ (hvalid e he)
      · rw [he]
        exact hsl
    · apply Mem.nodup_mapSet _ _ _ hnd
      intro e he harr'
      simp only [harr] at harr'
      rcases a2 with h2 | h2
      · rw [h2] at harr'
        have := List.inj_on_of_nodup_map hnd he (Mem.mapGet_mem_slices hget) harr'
        rw [this]
        exact hget
      · rw [h2] at harr'
        have := (hvalid e he).1
        omega
  unfold Mem.addTxToBundle.store
  by_cases hdup : rawTx ∈ bundle.transactions.read heap
  · rw [if_pos hdup]
    exact ⟨hvalid, hnd⟩
  · rw [if_neg hdup]
    simp only
    by_cases hgt : ((Slice.append grow heap bundle.transactions rawTx).2.len : Int) > m.maxTxs
    · rw [if_pos hgt]
      by_cases hin : 0 ≤ wrap64 (((Slice.append grow heap bundle.transactions rawTx).2.len : Int)
            - m.maxTxs) ∧
          wrap64 (((Slice.append grow heap bundle.transactions rawTx).2.len : Int) - m.maxTxs)
            ≤ ((Slice.append grow heap bundle.transactions rawTx).2.len : Int)
      · rw [if_pos hin]
        exact hset _ (Slice.reslice_valid a1 _ (by omega)) rfl
      · rw [if_neg hin]
        exact hset _ a1 rfl
    · rw [if_neg hgt]
      exact hset _ a1 rfl

theorem Mem.addTxToBundle_storeOk (grow : Nat → Nat) (m : Mem.RpcEndPointServer) (now : Int)
    (bundleID rawTx : String) (h : Mem.storeOk m) :
    Mem.storeOk (Mem.storeAfter (Mem.addTxToBundle grow m now bundleID rawTx)) := by
  unfold Mem.addTxToBundle
  cases hget : Mem.mapGet m.bundles bundleID with
  | some bundle =>
    exact Mem.store_storeOk grow m m.heap m.bundles bundle bundleID rawTx h.1 h.2 hget
  | none =>
    apply Mem.store_storeOk grow m (Slice.empty m.heap).1 _ _ bundleID rawTx
    · intro e he
      rcases Mem.mem_mapSet_slices he with he | he
      · exact Slice.valid_alloc (h.1 e he) _
      · rw [he]
        exact Slice.empty_valid m.heap
    · apply Mem.nodup_mapSet _ _ _ h.2
      intro e he harr
      have h1 := (h.1 e he).1
      have h2 : e.2.transactions.array = m.heap.length := harr
      omega
    · exact Mem.mapGet_mapSet_self_slices _ _ _

theorem Mem.leaves_storeOk (grow : Nat → Nat) (m : Mem.RpcEndPointServer) (c : Call)
    (h : Mem.storeOk m) : Mem.storeOk (Mem.leaves grow m c) := by
  cases c with
  | Append bundleID rawTx now =>
    have hleaves : Mem.leaves grow m (.Append bundleID rawTx now)
        = Mem.storeAfter (Mem.addTxToBundle grow m now bundleID rawTx) := by
      simp only [Mem.leaves]
      cases Mem.addTxToBundle grow m now bundleID rawTx with
      | ok r => rfl
      | error r => rfl
    rw [hleaves]
    exact Mem.addTxToBundle_storeOk grow m now bundleID rawTx h
  | Delete bundleID =>
    have hsub : (Mem.mapDelete m.bundles bundleID).Sublist m.bundles := List.filter_sublist _
    exact ⟨fun e he => h.1 e (hsub.subset he), h.2.sublist (hsub.map _)⟩
  | Sweep now =>
    have hsub := Mem.foldl_cleanupStep_sublist_slices m.maxAge now (m.bundles.map Prod.fst) m.bundles
    exact ⟨fun e he => h.1 e (hsub.subset he), h.2.sublist (hsub.map _)⟩

theorem Mem.runThrough_storeOk (grow : Nat → Nat) (cs : List Call) :
    ∀ m : Mem.RpcEndPointServer, Mem.storeOk m → Mem.storeOk (Mem.runThrough grow m cs) := by
  induction cs with
  | nil => intro m h; exact h
  | cons c cs ih =>
    intro m h
    exact ih _ (Mem.leaves_storeOk grow m c h)

theorem Mem.reached_storeOk (grow : Nat → Nat) (maxAge maxTxs : Int) (calls : List Call) :
    Mem.storeOk (Mem.reached grow maxAge maxTxs calls) :=
  Mem.runThrough_storeOk grow calls _
    ⟨fun e he => by simp [Mem.emptyStore] at he, by simp [Mem.emptyStore]⟩

/-- In a store that keeps its arrays apart, the slice of a bundle is out of the store's way
in the sense of `Mem.behind`. -/
theorem Mem.behind_of_storeOk {m : Mem.RpcEndPointServer} (h : Mem.storeOk m)
    {bundleID : String} {b : Mem.bundleData} (hget : Mem.mapGet m.bundles bundleID = some b) :
    Mem.behind m.heap m.bundles b.transactions := by
  refine ⟨(h.1 _ (Mem.mapGet_mem_slices hget)).1, ?_⟩
  intro e he harr
  have := List.inj_on_of_nodup_map h.2 he (Mem.mapGet_mem_slices hget) harr
  rw [this]

/-- The assignment `sl[i] = x` through a slice that fits the heap is seen by every reader of
the slice. -/
theorem Slice.read_write {heap : List (List String)} {sl : Slice} (h : sl.valid heap)
    (i : Nat) (x : String) (hi : i < sl.len) :
    sl.read (sl.write heap i x) = (sl.read heap).set i x := by
  unfold Slice.valid at h
  unfold Slice.write
  rw [if_pos hi]
  unfold Slice.read heapWrite
  simp only [List.getD_eq_getElem?_getD]
  rw [List.getElem?_set]
  simp only [h.1, if_true, Option.getD_some]
  rw [List.drop_set, if_neg (by omega), List.set_take]
  congr 2
  omega

/-! ## The store in memory stands for the store of sequences -/

theorem mapGet_absBundles (heap : List (List String))
    (bundles : List (String × Mem.bundleData)) (id : String) :
    mapGet (Mem.absBundles heap bundles) id
      = (Mem.mapGet bundles id).map (Mem.absBundle heap) := by
  induction bundles with
  | nil => rfl
  | cons e m ih =>
    obtain ⟨k, v⟩ := e
    by_cases hk : k = id
    · simp [Mem.absBundles, mapGet, Mem.mapGet, hk]
    · simpa [Mem.absBundles, mapGet, Mem.mapGet, hk] using ih

theorem absBundles_congr (heap heap' : List (List String))
    (bundles : List (String × Mem.bundleData))
    (h : ∀ e ∈ bundles, Mem.absBundle heap' e.2 = Mem.absBundle heap e.2) :
    Mem.absBundles heap' bundles = Mem.absBundles heap bundles := by
  unfold Mem.absBundles
  apply List.map_congr_left
  intro e he
  rw [h e he]

/-- Writing a bundle in memory stands for writing the bundle it stands for, when the heap
changes under no bundle but the one replaced. -/
theorem absBundles_mapSet (heap heap' : List (List String))
    (bundles : List (String × Mem.bundleData)) (id : String) (b : Mem.bundleData)
    (hnd : (bundles.map (fun e => e.2.transactions.array)).Nodup)
    (hsame : ∀ e ∈ bundles, Mem.mapGet bundles id ≠ some e.2 →
      Mem.absBundle heap' e.2 = Mem.absBundle heap e.2) :
    Mem.absBundles heap' (Mem.mapSet bundles id b)
      = mapSet (Mem.absBundles heap bundles) id (Mem.absBundle heap' b) := by
  induction bundles with
  | nil => rfl
  | cons x m ih =>
    obtain ⟨k, v⟩ := x
    rw [List.map_cons, List.nodup_cons] at hnd
    obtain ⟨hhead, htail⟩ := hnd
    by_cases hk : k = id
    · have hrest : Mem.absBundles heap' m = Mem.absBundles heap m := by
        apply absBundles_congr
        intro e he
        apply hsame e (List.mem_cons_of_mem _ he)
        simp only [Mem.mapGet, hk, if_true, ne_eq, Option.some.injEq]
        intro hve
        apply hhead
        rw [List.mem_map]
        exact ⟨e, he, by rw [hve]⟩
      simp only [Mem.mapSet, hk, if_true, Mem.absBundles, List.map_cons, mapSet]
      exact congrArg _ hrest
    · have hv : Mem.absBundle heap' v = Mem.absBundle heap v := by
        apply hsame (k, v) (List.mem_cons_self _ _)
        simp only [Mem.mapGet, hk, if_false]
        intro hget
        apply hhead
        rw [List.mem_map]
        exact ⟨(id, v), Mem.mapGet_mem_slices hget, rfl⟩
      have ih' := ih htail (by
        intro e he hne
        apply hsame e (List.mem_cons_of_mem _ he)
        simpa only [Mem.mapGet, hk, if_false] using hne)
      simp only [Mem.mapSet, hk, if_false, Mem.absBundles, List.map_cons, mapSet, hv]
      exact congrArg _ ih'

theorem take_drop_set_append (arr : List String) (off len : Nat) (x : String)
    (h : off + len < arr.length) :
    ((arr.set (off + len) x).drop off).take (len + 1) = (arr.drop off).take len ++ [x] := by
  have hl : ((arr.drop off).take len).length = len := by
    rw [List.length_take, List.length_drop]
    omega
  apply List.ext_getElem?
  intro j
  rw [List.getElem?_take, List.getElem?_drop]
  by_cases hj : j < len
  · rw [if_pos (by omega), List.getElem?_set_ne (by omega),
      List.getElem?_append_left (by rw [hl]; exact hj),
      List.getElem?_take, if_pos hj, List.getElem?_drop]
  · by_cases hje : j = len
    · rw [hje, if_pos (by omega), List.getElem?_set_self (by omega),
        List.getElem?_append_right (by rw [hl]), hl, Nat.sub_self]
      rfl
    · rw [if_neg (by omega), List.getElem?_eq_none]
      rw [List.length_append, hl, List.length_singleton]
      omega

/-- `append` in memory appends: the slice it returns reads as the old elements followed by
`x`, and slices on other arrays read as before. -/
theorem Slice.append_read (grow : Nat → Nat) {heap : List (List String)} {sl : Slice}
    (h : sl.valid heap) (x : String) :
    (Slice.append grow heap sl x).2.read (Slice.append grow heap sl x).1 = sl.read heap ++ [x] ∧
    (∀ sl' : Slice, sl'.valid heap → sl'.array ≠ sl.array →
      sl'.read (Slice.append grow heap sl x).1 = sl'.read heap) := by
  have hlen := Slice.read_length h
  unfold Slice.valid at h
  unfold Slice.append
  by_cases hcap : sl.len < sl.cap
  · rw [if_pos hcap]
    constructor
    · show ({ sl with len := sl.len + 1 } : Slice).read
          (heapWrite heap sl.array (sl.off + sl.len) x) = sl.read heap ++ [x]
      unfold Slice.read heapWrite
      simp only [List.getD_eq_getElem?_getD]
      rw [List.getElem?_set]
      simp only [h.1, if_true, Option.getD_some]
      apply take_drop_set_append
      have := h.2.1
      simp only [List.getD_eq_getElem?_getD] at this
      omega
    · intro sl' _ hne
      exact read_heapWrite _ _ _ _ _ (Or.inl (fun h' => hne h'.symm))
  · rw [if_neg hcap]
    constructor
    · show ({ array := heap.length, off := 0, len := sl.len + 1,
              cap := sl.len + 1 + grow (sl.len + 1) } : Slice).read
          (heap ++ [sl.read heap ++ [x] ++ List.replicate (grow (sl.len + 1)) ""])
          = sl.read heap ++ [x]
      unfold Slice.read
      simp only [List.getD_eq_getElem?_getD, List.getElem?_concat_length, Option.getD_some,
        List.drop_zero]
      rw [List.take_append_of_le_length (by
        rw [List.length_append, List.length_singleton]
        unfold Slice.read at hlen
        simp only [List.getD_eq_getElem?_getD] at hlen
        omega)]
      apply List.take_of_length_le
      rw [List.length_append, List.length_singleton]
      unfold Slice.read at hlen
      simp only [List.getD_eq_getElem?_getD] at hlen
      omega
    · intro sl' h' _
      exact read_alloc _ _ _ h'.1

theorem Slice.reslice_read (heap : List (List String)) (sl : Slice) (k : Nat) :
    (sl.reslice k).read heap = (sl.read heap).drop k := by
  unfold Slice.read Slice.reslice
  simp only
  rw [List.drop_take, List.drop_drop]

theorem Slice.append_len (grow : Nat → Nat) (heap : List (List String)) (sl : Slice)
    (x : String) : (Slice.append grow heap sl x).2.len = sl.len + 1 := by
  unfold Slice.append
  by_cases hcap : sl.len < sl.cap
  · rw [if_pos hcap]
  · rw [if_neg hcap]

/-- The tail of `addTxToBundle` in memory stands for the tail of `addTxToBundle` on
sequences. -/
theorem store_refines (grow : Nat → Nat) (m : Mem.RpcEndPointServer)
    (heap : List (List String)) (bundles : List (String × Mem.bundleData))
    (bundle : Mem.bundleData) (bundleID rawTx : String)
    (hvalid : ∀ e ∈ bundles, e.2.transactions.valid heap)
    (hnd : (bundles.map (fun e => e.2.transactions.array)).Nodup)
    (hget : Mem.mapGet bundles bundleID = some bundle) :
    Mem.absResult (Mem.addTxToBundle.store grow m heap bundles bundle bundleID rawTx)
      = addTxToBundle.store (Mem.abs m) (Mem.absBundles heap bundles)
          (Mem.absBundle heap bundle) bundleID rawTx := by
  have hb := hvalid _ (Mem.mapGet_mem_slices hget)
  obtain ⟨a_read, a_other⟩ := Slice.append_read grow hb rawTx
  have hlen := Slice.append_len grow heap bundle.transactions rawTx
  have hvlen : ((Mem.absBundle heap bundle).transactions ++ [rawTx]).length
      = (Slice.append grow heap bundle.transactions rawTx).2.len := by
    rw [hlen, List.length_append, List.length_singleton]
    exact congrArg (· + 1) (Slice.read_length hb)
  have hset : ∀ sl : Slice,
      Mem.absBundles (Slice.append grow heap bundle.transactions rawTx).1
        (Mem.mapSet bundles bundleID { bundle with transactions := sl })
        = mapSet (Mem.absBundles heap bundles) bundleID
            { transactions := sl.read (Slice.append grow heap bundle.transactions rawTx).1,
              createdAt := bundle.createdAt } := by
    intro sl
    rw [absBundles_mapSet heap (Slice.append grow heap bundle.transactions rawTx).1 bundles
      bundleID _ hnd]
    · rfl
    · intro e he hne
      have harr : e.2.transactions.array ≠ bundle.transactions.array := by
        intro harr
        have := List.inj_on_of_nodup_map hnd he (Mem.mapGet_mem_slices hget) harr
        apply hne
        rw [hget, this]
      unfold Mem.absBundle
      rw [a_other _ (hvalid e he) harr]
  unfold Mem.addTxToBundle.store addTxToBundle.store
  by_cases hdup : rawTx ∈ bundle.transactions.read heap
  · rw [if_pos hdup, if_pos (show rawTx ∈ (Mem.absBundle heap bundle).transactions from hdup)]
    rfl
  · rw [if_neg hdup, if_neg (show rawTx ∉ (Mem.absBundle heap bundle).transactions from hdup)]
    simp only [hvlen]
    by_cases hgt : ((Slice.append grow heap bundle.transactions rawTx).2.len : Int) > m.maxTxs
    · rw [if_pos hgt, if_pos (show ((Slice.append grow heap bundle.transactions rawTx).2.len : Int)
        > (Mem.abs m).maxTxs from hgt)]
      by_cases hin : 0 ≤ wrap64 (((Slice.append grow heap bundle.transactions rawTx).2.len : Int)
            - m.maxTxs) ∧
          wrap64 (((Slice.append grow heap bundle.transactions rawTx).2.len : Int) - m.maxTxs)
            ≤ ((Slice.append grow heap bundle.transactions rawTx).2.len : Int)
      · rw [if_pos hin, if_pos (show 0 ≤ wrap64
            (((Slice.append grow heap bundle.transactions rawTx).2.len : Int)
              - (Mem.abs m).maxTxs) ∧
          wrap64 (((Slice.append grow heap bundle.transactions rawTx).2.len : Int)
              - (Mem.abs m).maxTxs)
            ≤ ((Slice.append grow heap bundle.transactions rawTx).2.len : Int) from hin)]
        simp only [Mem.absResult, Mem.abs, hset, Slice.reslice_read, a_read]
        rfl
      · rw [if_neg hin, if_neg (show ¬ (0 ≤ wrap64
            (((Slice.append grow heap bundle.transactions rawTx).2.len : Int)
              - (Mem.abs m).maxTxs) ∧
          wrap64 (((Slice.append grow heap bundle.transactions rawTx).2.len : Int)
              - (Mem.abs m).maxTxs)
            ≤ ((Slice.append grow heap bundle.transactions rawTx).2.len : Int)) from hin)]
        simp only [Mem.absResult, Mem.abs, hset, a_read]
        rfl
    · rw [if_neg hgt, if_neg (show ¬ ((Slice.append grow heap bundle.transactions rawTx).2.len
        : Int) > (Mem.abs m).maxTxs from hgt)]
      simp only [Mem.absResult, Mem.abs, hset, a_read]
      rfl

theorem Slice.read_empty (heap heap' : List (List String)) :
    (Slice.empty heap).2.read heap' = [] := by
  simp [Slice.read, Slice.empty]

/-- `addTxToBundle` in memory stands for `addTxToBundle` on sequences: same outcome (return or
panic), and the store left in memory stands for the store left. -/
theorem addTxToBundle_refines (grow : Nat → Nat) (m : Mem.RpcEndPointServer) (now : Int)
    (bundleID rawTx : String) (h : Mem.storeOk m) :
    Mem.absResult (Mem.addTxToBundle grow m now bundleID rawTx)
      = addTxToBundle (Mem.abs m) now bundleID rawTx := by
  unfold Mem.addTxToBundle addTxToBundle
  have hg : mapGet (Mem.abs m).bundles bundleID
      = (Mem.mapGet m.bundles bundleID).map (Mem.absBundle m.heap) :=
    mapGet_absBundles m.heap m.bundles bundleID
  cases hget : Mem.mapGet m.bundles bundleID with
  | some bundle =>
    rw [hget] at hg
    simp only [hg, Option.map_some']
    exact store_refines grow m m.heap m.bundles bundle bundleID rawTx h.1 h.2 hget
  | none =>
    rw [hget] at hg
    simp only [hg, Option.map_none']
    have hvalid : ∀ e ∈ Mem.mapSet m.bundles bundleID
        { transactions := (Slice.empty m.heap).2, createdAt := now },
        e.2.transactions.valid (Slice.empty m.heap).1 := by
      intro e he
      rcases Mem.mem_mapSet_slices he with he | he
      · exact Slice.valid_alloc (h.1 e he) _
      · rw [he]
        exact Slice.empty_valid m.heap
    have hnd : ((Mem.mapSet m.bundles bundleID
        { transactions := (Slice.empty m.heap).2, createdAt := now }).map
        (fun e => e.2.transactions.array)).Nodup := by
      apply Mem.nodup_mapSet _ _ _ h.2
      intro e he harr
      have h1 := (h.1 e he).1
      have h2 : e.2.transactions.array = m.heap.length := harr
      omega
    rw [store_refines grow m (Slice.empty m.heap).1 _
      { transactions := (Slice.empty m.heap).2, createdAt := now } bundleID rawTx hvalid hnd
      (Mem.mapGet_mapSet_self_slices _ _ _)]
    have hbundle : Mem.absBundle (Slice.empty m.heap).1
        { transactions := (Slice.empty m.heap).2, createdAt := now }
        = { transactions := [], createdAt := now } := by
      unfold Mem.absBundle
      rw [Slice.read_empty]
    have hbundles : Mem.absBundles (Slice.empty m.heap).1
        (Mem.mapSet m.bundles bundleID
          { transactions := (Slice.empty m.heap).2, createdAt := now })
        = mapSet (Mem.abs m).bundles bundleID { transactions := [], createdAt := now } := by
      rw [absBundles_mapSet m.heap (Slice.empty m.heap).1 m.bundles bundleID _ h.2, hbundle]
      · rfl
      · intro e he _
        unfold Mem.absBundle
        rw [show (Slice.empty m.heap).1 = m.heap ++ [[]] from rfl,
          read_alloc m.heap _ [] (h.1 e he).1]
    rw [hbundle, hbundles]

theorem absBundles_mapDelete (heap : List (List String))
    (bundles : List (String × Mem.bundleData)) (id : String) :
    Mem.absBundles heap (Mem.mapDelete bundles id)
      = mapDelete (Mem.absBundles heap bundles) id := by
  unfold Mem.absBundles Mem.mapDelete mapDelete
  rw [List.filter_map]
  rfl

theorem absBundles_cleanupStep (heap : List (List String)) (maxAge now : Int)
    (bundles : List (String × Mem.bundleData)) (id : String) :
    Mem.absBundles heap (Mem.cleanupStep maxAge now bundles id)
      = cleanupStep maxAge now (Mem.absBundles heap bundles) id := by
  unfold Mem.cleanupStep cleanupStep
  rw [mapGet_absBundles]
  cases Mem.mapGet bundles id with
  | none => rfl
  | some b =>
    simp only [Option.map_some']
    by_cases hexp : Sub now b.createdAt > maxAge
    · rw [if_pos hexp, if_pos (show Sub now (Mem.absBundle heap b).createdAt > maxAge from hexp)]
      exact absBundles_mapDelete heap bundles id
    · rw [if_neg hexp, if_neg (show ¬ Sub now (Mem.absBundle heap b).createdAt > maxAge
        from hexp)]

theorem absBundles_foldl_cleanupStep (heap : List (List String)) (maxAge now : Int)
    (ks : List String) : ∀ bundles : List (String × Mem.bundleData),
      Mem.absBundles heap (ks.foldl (Mem.cleanupStep maxAge now) bundles)
        = ks.foldl (cleanupStep maxAge now) (Mem.absBundles heap bundles) := by
  induction ks with
  | nil => intro bundles; rfl
  | cons k ks ih =>
    intro bundles
    simp only [List.foldl_cons]
    rw [ih, absBundles_cleanupStep]

/-- `cleanup` in memory stands for `cleanup` on sequences. -/
theorem cleanup_refines (m : Mem.RpcEndPointServer) (now : Int) :
    Mem.abs (Mem.cleanup m now) = cleanup (Mem.abs m) now := by
  unfold Mem.cleanup cleanup Mem.abs
  simp only [absBundles_foldl_cleanupStep]
  have hkeys : mapKeys (Mem.absBundles m.heap m.bundles) = m.bundles.map Prod.fst := by
    unfold mapKeys Mem.absBundles
    rw [List.map_map]
    rfl
  rw [hkeys]

theorem abs_storeAfter (x : Except Mem.RpcEndPointServer (Mem.RpcEndPointServer × error)) :
    Mem.abs (Mem.storeAfter x) = storeAfter (Mem.absResult x) := by
  cases x with
  | ok r => rfl
  | error r => rfl

/-- Every call in memory stands for the call on sequences. -/
theorem leaves_refines (grow : Nat → Nat) (m : Mem.RpcEndPointServer) (c : Call)
    (h : Mem.storeOk m) : Mem.abs (Mem.leaves grow m c) = Call.leaves (Mem.abs m) c := by
  cases c with
  | Append bundleID rawTx now =>
    have hleaves : Mem.leaves grow m (.Append bundleID rawTx now)
        = Mem.storeAfter (Mem.addTxToBundle grow m now bundleID rawTx) := by
      simp only [Mem.leaves]
      cases Mem.addTxToBundle grow m now bundleID rawTx with
      | ok r => rfl
      | error r => rfl
    have hleaves' : Call.leaves (Mem.abs m) (.Append bundleID rawTx now)
        = storeAfter (addTxToBundle (Mem.abs m) now bundleID rawTx) := by
      simp only [Call.leaves, Call.exec]
      cases addTxToBundle (Mem.abs m) now bundleID rawTx with
      | ok r => rfl
      | error r => rfl
    rw [hleaves, hleaves', abs_storeAfter, addTxToBundle_refines grow m now bundleID rawTx h]
  | Delete bundleID =>
    show Mem.abs (Mem.deleteBundleTxs m bundleID).1 = (deleteBundleTxs (Mem.abs m) bundleID).1
    unfold Mem.deleteBundleTxs deleteBundleTxs Mem.abs
    simp only [absBundles_mapDelete]
  | Sweep now =>
    exact cleanup_refines m now

theorem runThrough_refines (grow : Nat → Nat) (cs : List Call) :
    ∀ m : Mem.RpcEndPointServer, Mem.storeOk m →
      Mem.abs (Mem.runThrough grow m cs) = runThrough (Mem.abs m) cs := by
  induction cs with
  | nil => intro m _; rfl
  | cons c cs ih =>
    intro m h
    simp only [Mem.runThrough, runThrough, List.foldl_cons]
    rw [← leaves_refines grow m c h]
    exact ih _ (Mem.leaves_storeOk grow m c h)

/-- The slice `getBundleTxs` returns in memory reads as the sequence `getBundleTxs` returns. -/
theorem getBundleTxs_refines (m : Mem.RpcEndPointServer) (bundleID : String) :
    (Mem.getBundleTxs m bundleID).1.read m.heap = (getBundleTxs (Mem.abs m) bundleID).1 ∧
    (Mem.getBundleTxs m bundleID).2 = (getBundleTxs (Mem.abs m) bundleID).2 := by
  unfold Mem.getBundleTxs getBundleTxs
  rw [show (Mem.abs m).bundles = Mem.absBundles m.heap m.bundles from rfl, mapGet_absBundles]
  cases Mem.mapGet m.bundles bundleID with
  | none => exact ⟨Slice.read_empty _ _, rfl⟩
  | some b => exact ⟨rfl, rfl⟩

/-! ## Append -/

/-- C1. Append postcondition: with `maxTxs ≥ 0` (and room for one more element in the slice)
`addTxToBundle` returns `nil`; afterwards the bundle exists; a bundle that was absent gets
`createdAt = now` and counts as having had no records; a record already listed leaves the
records unchanged; otherwise the new records are `old ++ [rawTx]` with elements dropped from
the front, a suffix of length `min (len old + 1) maxTxs`. -/
theorem addTxToBundle_postcondition (s : RpcEndPointServer) (now : Int)
    (bundleID rawTx : String) (hmax : 0 ≤ s.maxTxs)
    (hlen : ((records s bundleID).length : Int) < maxInt64) :
    ∃ s' b', addTxToBundle s now bundleID rawTx = .ok (s', none) ∧
      mapGet s'.bundles bundleID = some b' ∧
      records s' bundleID = b'.transactions ∧
      (mapGet s.bundles bundleID = none → b'.createdAt = now ∧ records s bundleID = []) ∧
      (rawTx ∈ records s bundleID → b'.transactions = records s bundleID) ∧
      (rawTx ∉ records s bundleID →
        b'.transactions = (records s bundleID ++ [rawTx]).drop
          ((records s bundleID).length + 1 - s.maxTxs.toNat) ∧
        b'.transactions <:+ records s bundleID ++ [rawTx] ∧
        b'.transactions.length = min ((records s bundleID).length + 1) s.maxTxs.toNat) := by
  have hrec := records_eq s now bundleID
  refine ⟨_, nextBundle s now bundleID rawTx, addTxToBundle_ok s now bundleID rawTx hmax ?_,
    mapGet_mapSet_self _ _ _, ?_, ?_, ?_, ?_⟩
  · intro b hb
    have : records s bundleID = b.transactions := by
      simp [records, getBundleTxs, hb]
    rw [this] at hlen
    omega
  · simp [records, getBundleTxs, mapGet_mapSet_self]
  · intro hnone
    simp [nextBundle, bundleAt, records, getBundleTxs, hnone]
  · intro hmem
    rw [hrec] at hmem ⊢
    simp [nextBundle, hmem]
  · intro hmem
    rw [hrec] at hmem ⊢
    have hnext : (nextBundle s now bundleID rawTx).transactions
        = trim s.maxTxs ((bundleAt s now bundleID).transactions ++ [rawTx]) := by
      simp [nextBundle, hmem]
    rw [hnext]
    refine ⟨?_, trim_suffix _ _, ?_⟩
    · simp [trim]
    · rw [trim_length]
      simp

/-- Witness for C1: capacity 2, bundle `b` holding `0x1, 0x2`, append of `0x3`. -/
theorem addTxToBundle_postcondition_witness :
    ∃ s' b', addTxToBundle
        { bundles := [("b", { transactions := ["0x1", "0x2"], createdAt := 7 })],
          maxAge := 10 * Minute, maxTxs := 2 } 9 "b" "0x3" = .ok (s', none) ∧
      mapGet s'.bundles "b" = some b' ∧ b'.transactions = ["0x2", "0x3"] := by
  obtain ⟨s', b', h1, h2, _, _, _, h3⟩ := addTxToBundle_postcondition
    { bundles := [("b", { transactions := ["0x1", "0x2"], createdAt := 7 })],
      maxAge := 10 * Minute, maxTxs := 2 } 9 "b" "0x3" (by decide) (by decide)
  exact ⟨s', b', h1, h2, (h3 (by decide)).1⟩

/-- C2. Idempotent append: a second `addTxToBundle` of the same record, at any later time,
returns `nil` and leaves the store exactly as the first call left it, so `List` and the
bundle (records and `createdAt`) are those of a single append. -/
theorem addTxToBundle_idempotent (s : RpcEndPointServer) (t1 t2 : Int)
    (bundleID rawTx : String) (hmax : 0 ≤ s.maxTxs)
    (hlen : ((records s bundleID).length : Int) < maxInt64) :
    ∃ s1 s2, addTxToBundle s t1 bundleID rawTx = .ok (s1, none) ∧
      addTxToBundle s1 t2 bundleID rawTx = .ok (s2, none) ∧
      s2 = s1 ∧
      getBundleTxs s2 bundleID = getBundleTxs s1 bundleID ∧
      mapGet s2.bundles bundleID = mapGet s1.bundles bundleID := by
  have hrec := records_eq s t1 bundleID
  have h1 := addTxToBundle_ok s t1 bundleID rawTx hmax (by
    intro b hb
    have : records s bundleID = b.transactions := by
      simp [records, getBundleTxs, hb]
    rw [this] at hlen
    omega)
  refine ⟨_, _, h1, ?_, rfl, rfl, rfl⟩
  have hget : mapGet (mapSet s.bundles bundleID (nextBundle s t1 bundleID rawTx)) bundleID
      = some (nextBundle s t1 bundleID rawTx) := mapGet_mapSet_self _ _ _
  unfold addTxToBundle
  simp only [hget]
  by_cases hdup : rawTx ∈ (nextBundle s t1 bundleID rawTx).transactions
  · exact addTxToBundle.store_dup _ _ _ _ _ hdup
  · have hzero : s.maxTxs = 0 := by
      by_contra hne
      apply hdup
      by_cases hold : rawTx ∈ (bundleAt s t1 bundleID).transactions
      · simp [nextBundle, hold]
      · simp only [nextBundle, hold, if_false]
        exact mem_trim_append (by omega) _ _
    have hnil : (nextBundle s t1 bundleID rawTx).transactions = [] := by
      by_cases hold : rawTx ∈ (bundleAt s t1 bundleID).transactions
      · exact absurd (by simp [nextBundle, hold]) hdup
      · simp [nextBundle, hold, hzero, trim_zero]
    rw [addTxToBundle.store_ok
      { s with bundles := mapSet s.bundles bundleID (nextBundle s t1 bundleID rawTx) }
      _ _ bundleID rawTx hmax
      (by rw [hnil]; simp only [List.length_nil]; unfold maxInt64; omega) hget]
    simp only [hdup, if_false, hnil, hzero, trim_zero]
    have hb : ({ transactions := [], createdAt := (nextBundle s t1 bundleID rawTx).createdAt }
        : bundleData) = nextBundle s t1 bundleID rawTx := by
      cases hnb : nextBundle s t1 bundleID rawTx with
      | mk tx c =>
        rw [hnb] at hnil
        simp only at hnil
        simp [hnil]
    simp only [List.not_mem_nil, if_false, hb, mapSet_mapSet]

/-- Witness for C2: the example of the specification, `0x123` appended twice to `b1`. -/
theorem addTxToBundle_idempotent_witness :
    ∃ s1 s2, addTxToBundle NewRpcEndPointServer 3 "b1" "0x123" = .ok (s1, none) ∧
      addTxToBundle s1 8 "b1" "0x123" = .ok (s2, none) ∧
      s2 = s1 ∧
      getBundleTxs s2 "b1" = getBundleTxs s1 "b1" ∧
      mapGet s2.bundles "b1" = mapGet s1.bundles "b1" :=
  addTxToBundle_idempotent NewRpcEndPointServer 3 8 "b1" "0x123" (by decide) (by decide)

/-- C3. Capacity bound: with `maxTxs ≥ 0`, appending `N ≥ maxTxs` pairwise-distinct records in
order (each at any time) to a bundle that was absent runs without panic, and `List` then
returns exactly the last `maxTxs` of them, in the order they were appended. -/
theorem capacity_bound (s : RpcEndPointServer) (bundleID : String) (l : List (String × Int))
    (hmax : 0 ≤ s.maxTxs) (habsent : mapGet s.bundles bundleID = none)
    (hdistinct : (l.map Prod.fst).Nodup) (hN : s.maxTxs ≤ (l.length : Int)) :
    ∃ s', run s (appends bundleID l) = .ok s' ∧
      getBundleTxs s' bundleID = ((l.map Prod.fst).drop (l.length - s.maxTxs.toNat), none) ∧
      ((getBundleTxs s' bundleID).1.length : Int) = s.maxTxs := by
  have hnil : records s bundleID = [] := by
    simp [records, getBundleTxs, habsent]
  obtain ⟨s', h1, _, h3⟩ := run_appends bundleID l s hmax (by rw [hnil]; simpa using hmax)
    (by rw [hnil]; simpa using hdistinct)
  rw [hnil, List.nil_append] at h3
  have h4 : records s' bundleID = (l.map Prod.fst).drop (l.length - s.maxTxs.toNat) := by
    rw [h3]
    simp [trim]
  refine ⟨s', h1, ?_, ?_⟩
  · rw [getBundleTxs_eq, h4]
  · rw [getBundleTxs_eq, h4]
    simp only [List.length_drop, List.length_map]
    omega

/-- Witness for C3: the scenario of `TestMaxTransactions`, capacity 2 and appends of `0x1`,
`0x2`, `0x3`, after which `List` returns `0x2, 0x3`. -/
theorem capacity_bound_witness :
    ∃ s', run { NewRpcEndPointServer with maxTxs := 2 }
        (appends "test-max" [("0x1", 10), ("0x2", 20), ("0x3", 30)]) = .ok s' ∧
      getBundleTxs s' "test-max" = (["0x2", "0x3"], none) ∧
      ((getBundleTxs s' "test-max").1.length : Int) = 2 :=
  capacity_bound { NewRpcEndPointServer with maxTxs := 2 } "test-max"
    [("0x1", 10), ("0x2", 20), ("0x3", 30)] (by decide) (by decide) (by decide) (by decide)

/-! ## Order of the records -/

/-- C6, as stated, fails. Capacity 2 and Appends of `0x1`, `0x2`, `0x3`, `0x1`: the third call
evicts `0x1`, the fourth inserts it again at the end, so `List` returns `0x3, 0x1` although
the first Append of `0x1` (call 0) came before the first Append of `0x3` (call 2). -/
theorem first_insertion_order_counterexample :
    listAfter (10 * Minute) 2 "b" [("0x1", 1), ("0x2", 2), ("0x3", 3), ("0x1", 4)]
      = ["0x3", "0x1"] ∧
    firstAppend [("0x1", 1), ("0x2", 2), ("0x3", 3), ("0x1", 4)] "0x1" = 0 ∧
    firstAppend [("0x1", 1), ("0x2", 2), ("0x3", 3), ("0x1", 4)] "0x3" = 2 ∧
    ¬ (∀ x y, [x, y].Sublist
          (listAfter (10 * Minute) 2 "b" [("0x1", 1), ("0x2", 2), ("0x3", 3), ("0x1", 4)]) →
        firstAppend [("0x1", 1), ("0x2", 2), ("0x3", 3), ("0x1", 4)] x
          < firstAppend [("0x1", 1), ("0x2", 2), ("0x3", 3), ("0x1", 4)] y) := by
  refine ⟨by decide, by decide, by decide, ?_⟩
  intro h
  exact absurd (h "0x3" "0x1" (by decide)) (by decide)

/-- C6, amended. Order preservation: after any sequence of Appends to one bundle from the
empty store (`maxTxs ≥ 1`, duplicates allowed), whenever `x` precedes `y` in `List`, the last
Append that inserted `x` (was not a duplicate no-op) came before the last Append that
inserted `y`; and when the calls carry no more than `maxTxs` distinct records, so that nothing
is evicted, the first Append of `x` came before the first Append of `y`. -/
theorem insertion_order (maxAge maxTxs : Int) (bundleID : String) (l : List (String × Int))
    (x y : String) (hmax : 1 ≤ maxTxs)
    (hxy : [x, y].Sublist (listAfter maxAge maxTxs bundleID l)) :
    (∃ i j, lastInsertion maxAge maxTxs bundleID l x = some i ∧
      lastInsertion maxAge maxTxs bundleID l y = some j ∧ i < j) ∧
    ((distinctRecords l : Int) ≤ maxTxs → firstAppend l x < firstAppend l y) := by
  have hmax0 : 0 ≤ maxTxs := by omega
  have hp := ((listAfter_insertedBefore maxAge maxTxs bundleID hmax0 l).1).sublist hxy
  rw [List.pairwise_pair] at hp
  refine ⟨hp, ?_⟩
  intro hD
  obtain ⟨i, j, hi, hj, hij⟩ := hp
  rw [← lastInsertion_eq_firstAppend maxAge maxTxs bundleID hmax0 l hD hi,
    ← lastInsertion_eq_firstAppend maxAge maxTxs bundleID hmax0 l hD hj]
  exact hij

/-- Witness for C6: in the run of the counterexample `0x3` was last inserted by call 2 and
`0x1` by call 3. -/
theorem insertion_order_witness :
    ∃ i j, lastInsertion (10 * Minute) 2 "b"
        [("0x1", 1), ("0x2", 2), ("0x3", 3), ("0x1", 4)] "0x3" = some i ∧
      lastInsertion (10 * Minute) 2 "b"
        [("0x1", 1), ("0x2", 2), ("0x3", 3), ("0x1", 4)] "0x1" = some j ∧ i < j :=
  (insertion_order (10 * Minute) 2 "b" [("0x1", 1), ("0x2", 2), ("0x3", 3), ("0x1", 4)]
    "0x3" "0x1" (by decide) (by decide)).1

/-! ## Invariants of the reachable stores -/

/-- C4. Capacity invariant: from the empty store with capacity `maxTxs ≥ 0`, every sequence of
Append, Delete and Sweep calls runs without panic, leaves `maxTxs` as constructed, and ends in
a store all of whose bundles hold at most `maxTxs` records (so `List` never returns more). -/
theorem capacity_invariant (maxAge maxTxs : Int) (calls : List Call) (hmax : 0 ≤ maxTxs) :
    ∃ s', run (emptyStore maxAge maxTxs) calls = .ok s' ∧ s'.maxTxs = maxTxs ∧
      (∀ e ∈ s'.bundles, (e.2.transactions.length : Int) ≤ maxTxs) ∧
      (∀ bundleID, ((getBundleTxs s' bundleID).1.length : Int) ≤ maxTxs) := by
  obtain ⟨s', h1, h2, h3, _⟩ := run_storeOk calls _ (storeOk_emptyStore maxAge maxTxs hmax)
  have h3' : s'.maxTxs = maxTxs := h3
  refine ⟨s', h1, h3', ?_, ?_⟩
  · intro e he
    rw [← h3']
    exact (h2.2 e he).1
  · intro bundleID
    rw [← h3']
    exact records_length_le h2 bundleID

/-- Witness for C4: capacity 2, three appends to one bundle, a sweep and an append elsewhere. -/
theorem capacity_invariant_witness :
    ∃ s', run (emptyStore (10 * Minute) 2)
        [.Append "b" "0x1" 1, .Append "b" "0x2" 2, .Append "b" "0x3" 3, .Sweep 4,
         .Append "c" "0x1" 5] = .ok s' ∧ s'.maxTxs = 2 ∧
      (∀ e ∈ s'.bundles, (e.2.transactions.length : Int) ≤ 2) ∧
      (∀ bundleID, ((getBundleTxs s' bundleID).1.length : Int) ≤ 2) :=
  capacity_invariant (10 * Minute) 2 _ (by decide)

/-- C5. No-duplicates invariant: from the empty store, whatever the capacity, after every
sequence of Append, Delete and Sweep calls no bundle holds two equal records, so `List` never
returns a repeated record; this counts the stores that panicking Appends leave behind (negative
capacity), and with `maxTxs ≥ 0` no call panics. -/
theorem no_duplicates_invariant (maxAge maxTxs : Int) (calls : List Call) :
    (∀ e ∈ (runThrough (emptyStore maxAge maxTxs) calls).bundles, e.2.transactions.Nodup) ∧
    (∀ bundleID, (getBundleTxs (runThrough (emptyStore maxAge maxTxs) calls) bundleID).1.Nodup) ∧
    (0 ≤ maxTxs →
      run (emptyStore maxAge maxTxs) calls = .ok (runThrough (emptyStore maxAge maxTxs) calls)) := by
  have hnd := runThrough_nodup calls (emptyStore maxAge maxTxs)
    (fun e he => by simp [emptyStore, NewRpcEndPointServer] at he)
  refine ⟨hnd, ?_, ?_⟩
  · intro bundleID
    unfold getBundleTxs
    cases hget : mapGet (runThrough (emptyStore maxAge maxTxs) calls).bundles bundleID with
    | some b => exact hnd _ (mapGet_mem hget)
    | none => exact List.nodup_nil
  · intro hmax
    obtain ⟨s', h1, _, _, _⟩ := run_storeOk calls _ (storeOk_emptyStore maxAge maxTxs hmax)
    rw [h1, run_eq_runThrough calls _ s' h1]

/-- Witness for C5: the example of the specification followed by a repeated append. -/
theorem no_duplicates_invariant_witness :
    (getBundleTxs (runThrough (emptyStore (10 * Minute) 15)
        [.Append "b1" "0x123" 1, .Append "b1" "0x123" 2, .Append "b1" "0x456" 3,
         .Append "b1" "0x123" 4]) "b1").1.Nodup ∧
    run (emptyStore (10 * Minute) 15)
        [.Append "b1" "0x123" 1, .Append "b1" "0x123" 2, .Append "b1" "0x456" 3,
         .Append "b1" "0x123" 4]
      = .ok (runThrough (emptyStore (10 * Minute) 15)
        [.Append "b1" "0x123" 1, .Append "b1" "0x123" 2, .Append "b1" "0x456" 3,
         .Append "b1" "0x123" 4]) :=
  ⟨(no_duplicates_invariant (10 * Minute) 15 _).2.1 "b1",
   (no_duplicates_invariant (10 * Minute) 15 _).2.2 (by decide)⟩

/-! ## Sweep -/

/-- C8. Sweep characterisation: `cleanup` leaves the tunables alone and adds no entry; the bundle
at each id afterwards is the bundle before when `now.Sub(createdAt) > maxAge` fails, and is
gone when it holds, so survivors keep records and `createdAt`. For clock readings
`now.Sub(createdAt)` is the difference `now - createdAt`: a bundle is removed exactly when
`now - createdAt > maxAge`, and one whose age is exactly `maxAge` is kept. -/
theorem cleanup_characterisation (s : RpcEndPointServer) (now : Int) :
    (cleanup s now).maxAge = s.maxAge ∧ (cleanup s now).maxTxs = s.maxTxs ∧
    (cleanup s now).bundles.Sublist s.bundles ∧
    (∀ id, mapGet (cleanup s now).bundles id =
      match mapGet s.bundles id with
      | some b => if Sub now b.createdAt > s.maxAge then none else some b
      | none => none) ∧
    (∀ id b, mapGet s.bundles id = some b → isTime now → isTime b.createdAt →
      (mapGet (cleanup s now).bundles id = none ↔ now - b.createdAt > s.maxAge) ∧
      (¬ (now - b.createdAt > s.maxAge) → mapGet (cleanup s now).bundles id = some b) ∧
      (now - b.createdAt = s.maxAge → mapGet (cleanup s now).bundles id = some b)) := by
  refine ⟨rfl, rfl, foldl_cleanupStep_sublist s.maxAge now _ s.bundles, ?_, ?_⟩
  · intro id
    rw [mapGet_cleanup]
    cases mapGet s.bundles id <;> rfl
  · intro id b hb hnow hcreated
    rw [mapGet_cleanup, hb]
    have hsub := Sub_eq_sub hnow hcreated
    simp only [sweepEntry, hsub]
    refine ⟨?_, ?_, ?_⟩
    · by_cases h : now - b.createdAt > s.maxAge <;> simp [h]
    · intro h
      simp [h]
    · intro h
      have h' : ¬ (now - b.createdAt > s.maxAge) := by omega
      simp [h']

/-- Witness for C8: with `maxAge` of ten minutes, a sweep at minute 11 removes the bundle
created at minute 0 and keeps, unchanged, the one created at minute 1 (age exactly ten
minutes). -/
theorem cleanup_characterisation_witness :
    mapGet (cleanup { bundles := [("old", { transactions := ["0x1"], createdAt := 0 }),
                                  ("new", { transactions := ["0x2"], createdAt := Minute })],
                      maxAge := 10 * Minute, maxTxs := 15 } (11 * Minute)).bundles "old" = none ∧
    mapGet (cleanup { bundles := [("old", { transactions := ["0x1"], createdAt := 0 }),
                                  ("new", { transactions := ["0x2"], createdAt := Minute })],
                      maxAge := 10 * Minute, maxTxs := 15 } (11 * Minute)).bundles "new"
      = some { transactions := ["0x2"], createdAt := Minute } :=
  have h := (cleanup_characterisation
    { bundles := [("old", { transactions := ["0x1"], createdAt := 0 }),
                  ("new", { transactions := ["0x2"], createdAt := Minute })],
      maxAge := 10 * Minute, maxTxs := 15 } (11 * Minute)).2.2.2.2
  ⟨((h "old" _ rfl (by decide) (by decide)).1).2 (by decide),
   (h "new" _ rfl (by decide) (by decide)).2.2 (by decide)⟩

/-- C7. Expiry: let a bundle be created by its first `addTxToBundle` at clock reading `T`, and
let `eps > 0`. A `cleanup` at `T + maxAge - eps` leaves the bundle as it is (`List` returns
the same records); after a `cleanup` at `T + maxAge + eps` the bundle is absent and `List`
returns the empty sequence. Sweep times are clock readings. -/
theorem sweep_expiry (s : RpcEndPointServer) (T eps : Int) (bundleID rawTx : String)
    (habsent : mapGet s.bundles bundleID = none) (heps : 0 < eps) (hT : isTime T) :
    ∃ b, mapGet (storeAfter (addTxToBundle s T bundleID rawTx)).bundles bundleID = some b ∧
      b.createdAt = T ∧
      (isTime (T + s.maxAge - eps) →
        mapGet (cleanup (storeAfter (addTxToBundle s T bundleID rawTx))
          (T + s.maxAge - eps)).bundles bundleID = some b ∧
        getBundleTxs (cleanup (storeAfter (addTxToBundle s T bundleID rawTx))
          (T + s.maxAge - eps)) bundleID
          = getBundleTxs (storeAfter (addTxToBundle s T bundleID rawTx)) bundleID) ∧
      (isTime (T + s.maxAge + eps) →
        mapGet (cleanup (storeAfter (addTxToBundle s T bundleID rawTx))
          (T + s.maxAge + eps)).bundles bundleID = none ∧
        getBundleTxs (cleanup (storeAfter (addTxToBundle s T bundleID rawTx))
          (T + s.maxAge + eps)) bundleID = ([], none)) := by
  obtain ⟨txs, hs1, _, _⟩ := storeAfter_addTxToBundle s T bundleID rawTx
  have hcreated : (bundleAt s T bundleID).createdAt = T := by
    simp [bundleAt, habsent]
  rw [hs1, hcreated]
  have hget : mapGet (mapSet s.bundles bundleID { transactions := txs, createdAt := T })
      bundleID = some { transactions := txs, createdAt := T } := mapGet_mapSet_self _ _ _
  refine ⟨{ transactions := txs, createdAt := T }, hget, rfl, ?_, ?_⟩
  · intro hnow
    have hage : ¬ (T + s.maxAge - eps - T > s.maxAge) := by omega
    refine ⟨?_, ?_⟩
    · rw [mapGet_cleanup]
      simp only [hget, sweepEntry, Sub_eq_sub hnow hT, hage, if_false]
    · simp only [getBundleTxs, mapGet_cleanup, hget, sweepEntry, Sub_eq_sub hnow hT, hage,
        if_false]
  · intro hnow
    have hage : T + s.maxAge + eps - T > s.maxAge := by omega
    refine ⟨?_, ?_⟩
    · rw [mapGet_cleanup]
      simp only [hget, sweepEntry, Sub_eq_sub hnow hT, hage, if_true]
    · simp only [getBundleTxs, mapGet_cleanup, hget, sweepEntry, Sub_eq_sub hnow hT, hage,
        if_true]

/-- Witness for C7: the scenario of `TestBundleExpiry`, `maxAge` of 100 ms, a bundle created at
1 s, and sweeps 1 ms before and 100 ms after the bundle reaches `maxAge`. -/
theorem sweep_expiry_witness :
    getBundleTxs (cleanup (storeAfter (addTxToBundle
        { NewRpcEndPointServer with maxAge := 100000000 } 1000000000 "test-expiry" "0x123"))
        (1000000000 + 100000000 - 1000000)) "test-expiry" = (["0x123"], none) ∧
    getBundleTxs (cleanup (storeAfter (addTxToBundle
        { NewRpcEndPointServer with maxAge := 100000000 } 1000000000 "test-expiry" "0x123"))
        (1000000000 + 100000000 + 100000000)) "test-expiry" = ([], none) := by
  obtain ⟨b, _, _, h1, _⟩ := sweep_expiry { NewRpcEndPointServer with maxAge := 100000000 }
    1000000000 1000000 "test-expiry" "0x123" rfl (by decide) (by decide)
  obtain ⟨b', _, _, _, h2⟩ := sweep_expiry { NewRpcEndPointServer with maxAge := 100000000 }
    1000000000 100000000 "test-expiry" "0x123" rfl (by decide) (by decide)
  exact ⟨(h1 (by decide)).2, (h2 (by decide)).2⟩

/-! ## Creation time and Delete -/

/-- C9. `createdAt` is set once: when bundle `bundleID` exists, the store that
`addTxToBundle` leaves behind (duplicate, plain append, trim, even a panicking trim) still has
the bundle, with the `createdAt` it had; `now` becomes the `createdAt` only of a bundle the
call creates. -/
theorem createdAt_set_once (s : RpcEndPointServer) (now : Int) (bundleID rawTx : String)
    (b : bundleData) (hexists : mapGet s.bundles bundleID = some b) :
    ∃ b', mapGet (storeAfter (addTxToBundle s now bundleID rawTx)).bundles bundleID = some b' ∧
      b'.createdAt = b.createdAt ∧
      ∀ s0 : RpcEndPointServer, mapGet s0.bundles bundleID = none →
        ∃ b0, mapGet (storeAfter (addTxToBundle s0 now bundleID rawTx)).bundles bundleID
          = some b0 ∧ b0.createdAt = now := by
  obtain ⟨txs, hs1, _, _⟩ := storeAfter_addTxToBundle s now bundleID rawTx
  refine ⟨_, by rw [hs1]; exact mapGet_mapSet_self _ _ _, by simp [bundleAt, hexists], ?_⟩
  intro s0 h0
  obtain ⟨txs0, hs0, _, _⟩ := storeAfter_addTxToBundle s0 now bundleID rawTx
  exact ⟨_, by rw [hs0]; exact mapGet_mapSet_self _ _ _, by simp [bundleAt, h0]⟩

/-- Witness for C9: a full bundle (capacity 2) created at 7 takes a third record at 99. -/
theorem createdAt_set_once_witness :
    ∃ b', mapGet (storeAfter (addTxToBundle
        { bundles := [("b", { transactions := ["0x1", "0x2"], createdAt := 7 })],
          maxAge := 10 * Minute, maxTxs := 2 } 99 "b" "0x3")).bundles "b" = some b' ∧
      b'.createdAt = 7 := by
  obtain ⟨b', h1, h2, _⟩ := createdAt_set_once
    { bundles := [("b", { transactions := ["0x1", "0x2"], createdAt := 7 })],
      maxAge := 10 * Minute, maxTxs := 2 } 99 "b" "0x3" _ rfl
  exact ⟨b', h1, h2⟩

/-- C10. Delete is terminal but not sticky: `deleteBundleTxs` returns `nil` and leaves the
bundle absent, so `List` returns the empty sequence; with `maxTxs ≥ 1` an `addTxToBundle` of
`rawTx` at time `t` right after returns `nil` and leaves a bundle with `createdAt = t` whose
`List` is exactly `[rawTx]`, whatever the bundle held before. -/
theorem delete_then_append (s : RpcEndPointServer) (bundleID rawTx : String) (t : Int) :
    (deleteBundleTxs s bundleID).2 = none ∧
    mapGet (deleteBundleTxs s bundleID).1.bundles bundleID = none ∧
    getBundleTxs (deleteBundleTxs s bundleID).1 bundleID = ([], none) ∧
    (1 ≤ s.maxTxs →
      ∃ s', addTxToBundle (deleteBundleTxs s bundleID).1 t bundleID rawTx = .ok (s', none) ∧
        mapGet s'.bundles bundleID = some { transactions := [rawTx], createdAt := t } ∧
        getBundleTxs s' bundleID = ([rawTx], none)) := by
  have hgone : mapGet (deleteBundleTxs s bundleID).1.bundles bundleID = none := by
    simp [deleteBundleTxs, mapGet_mapDelete]
  refine ⟨rfl, hgone, by simp only [getBundleTxs, hgone], ?_⟩
  intro hmax
  have hmax' : 0 ≤ (deleteBundleTxs s bundleID).1.maxTxs := by
    simp only [deleteBundleTxs]
    omega
  have hok := addTxToBundle_ok (deleteBundleTxs s bundleID).1 t bundleID rawTx hmax'
    (by intro b hb; rw [hgone] at hb; exact absurd hb (by simp))
  have hnext : nextBundle (deleteBundleTxs s bundleID).1 t bundleID rawTx
      = { transactions := [rawTx], createdAt := t } := by
    have h1 : ((([] : List String) ++ [rawTx]).length : Int) ≤ s.maxTxs := by
      simpa using hmax
    simp only [nextBundle, bundleAt, hgone, Option.getD_none, List.not_mem_nil, if_false]
    rw [show (deleteBundleTxs s bundleID).1.maxTxs = s.maxTxs from rfl, trim_eq_self h1]
    rfl
  rw [hnext] at hok
  refine ⟨_, hok, mapGet_mapSet_self _ _ _, ?_⟩
  simp only [getBundleTxs, mapGet_mapSet_self]

/-- Witness for C10: the delete scenario of `TestHandleBundleRequest`, then a new append. -/
theorem delete_then_append_witness :
    ∃ s', addTxToBundle (deleteBundleTxs
        { bundles := [("test-bundle-1", { transactions := ["0x123"], createdAt := 5 })],
          maxAge := 10 * Minute, maxTxs := 15 } "test-bundle-1").1 40 "test-bundle-1" "0x456"
        = .ok (s', none) ∧
      mapGet s'.bundles "test-bundle-1" = some { transactions := ["0x456"], createdAt := 40 } ∧
      getBundleTxs s' "test-bundle-1" = (["0x456"], none) :=
  (delete_then_append
    { bundles := [("test-bundle-1", { transactions := ["0x123"], createdAt := 5 })],
      maxAge := 10 * Minute, maxTxs := 15 } "test-bundle-1" "0x456" 40).2.2.2 (by decide)

/-! ## Unknown ids, Delete, frame -/

/-- C11. Unknown-id safety: for an id that is not a key of the store, `getBundleTxs` returns the
empty sequence and `nil`, and `deleteBundleTxs` returns `nil` and the store it was given. -/
theorem unknown_id_safety (s : RpcEndPointServer) (bundleID : String)
    (hunknown : bundleID ∉ mapKeys s.bundles) :
    getBundleTxs s bundleID = ([], none) ∧ deleteBundleTxs s bundleID = (s, none) := by
  constructor
  · simp only [getBundleTxs, mapGet_eq_none_of_not_mem_mapKeys hunknown]
  · simp only [deleteBundleTxs, mapDelete_eq_self hunknown]

/-- Witness for C11: the first case of `TestHandleBundleRequest`, a read of `test-bundle-1`
on the new store, and a delete of an id next to an existing bundle. -/
theorem unknown_id_safety_witness :
    (getBundleTxs NewRpcEndPointServer "test-bundle-1" = ([], none) ∧
      deleteBundleTxs NewRpcEndPointServer "test-bundle-1" = (NewRpcEndPointServer, none)) ∧
    (getBundleTxs
        { bundles := [("b", { transactions := ["0x1"], createdAt := 7 })],
          maxAge := 10 * Minute, maxTxs := 15 } "c" = ([], none) ∧
      deleteBundleTxs
        { bundles := [("b", { transactions := ["0x1"], createdAt := 7 })],
          maxAge := 10 * Minute, maxTxs := 15 } "c"
        = ({ bundles := [("b", { transactions := ["0x1"], createdAt := 7 })],
             maxAge := 10 * Minute, maxTxs := 15 }, none)) :=
  ⟨unknown_id_safety NewRpcEndPointServer "test-bundle-1" (by decide),
   unknown_id_safety
     { bundles := [("b", { transactions := ["0x1"], createdAt := 7 })],
       maxAge := 10 * Minute, maxTxs := 15 } "c" (by decide)⟩

/-- C12. Delete is idempotent and always succeeds: `deleteBundleTxs` returns `nil`, the id is
no key of the store afterwards (`List` finds no bundle), and a second `deleteBundleTxs` of the
same id returns `nil` and the store the first one returned. -/
theorem deleteBundleTxs_idempotent (s : RpcEndPointServer) (bundleID : String) :
    (deleteBundleTxs s bundleID).2 = none ∧
    bundleID ∉ mapKeys (deleteBundleTxs s bundleID).1.bundles ∧
    mapGet (deleteBundleTxs s bundleID).1.bundles bundleID = none ∧
    deleteBundleTxs (deleteBundleTxs s bundleID).1 bundleID = deleteBundleTxs s bundleID := by
  have hkey : bundleID ∉ mapKeys (deleteBundleTxs s bundleID).1.bundles :=
    not_mem_mapKeys_mapDelete s.bundles bundleID
  refine ⟨rfl, hkey, mapGet_eq_none_of_not_mem_mapKeys hkey, ?_⟩
  have h := mapDelete_eq_self hkey
  simp only [deleteBundleTxs] at h ⊢
  rw [h]

/-- C18. Append and Delete touch only the named bundle: for `id' ≠ id` the bundle at `id'`
(presence, records, `createdAt`) is the same before and after `addTxToBundle` on `id`,
whether that call returns or panics, and before and after `deleteBundleTxs` on `id`; the
tunables stay too. -/
theorem append_delete_frame (s : RpcEndPointServer) (now : Int) (bundleID other rawTx : String)
    (hne : other ≠ bundleID) :
    mapGet (storeAfter (addTxToBundle s now bundleID rawTx)).bundles other
      = mapGet s.bundles other ∧
    getBundleTxs (storeAfter (addTxToBundle s now bundleID rawTx)) other
      = getBundleTxs s other ∧
    (∀ s' e, addTxToBundle s now bundleID rawTx = .ok (s', e) →
      mapGet s'.bundles other = mapGet s.bundles other) ∧
    (storeAfter (addTxToBundle s now bundleID rawTx)).maxTxs = s.maxTxs ∧
    (storeAfter (addTxToBundle s now bundleID rawTx)).maxAge = s.maxAge ∧
    mapGet (deleteBundleTxs s bundleID).1.bundles other = mapGet s.bundles other ∧
    getBundleTxs (deleteBundleTxs s bundleID).1 other = getBundleTxs s other := by
  obtain ⟨txs, hs1, _, _⟩ := storeAfter_addTxToBundle s now bundleID rawTx
  have hne' : ¬ bundleID = other := fun h => hne h.symm
  have hadd : mapGet (storeAfter (addTxToBundle s now bundleID rawTx)).bundles other
      = mapGet s.bundles other := by
    rw [hs1]
    simp only [mapGet_mapSet, hne', if_false]
  have hdel : mapGet (deleteBundleTxs s bundleID).1.bundles other = mapGet s.bundles other := by
    simp only [deleteBundleTxs, mapGet_mapDelete, hne', if_false]
  refine ⟨hadd, by simp only [getBundleTxs, hadd], ?_, by rw [hs1], by rw [hs1], hdel,
    by simp only [getBundleTxs, hdel]⟩
  intro s' e hok
  rw [hok] at hadd
  exact hadd

/-- Witness for C18: appending to, or deleting, `a` leaves bundle `b` as it was. -/
theorem append_delete_frame_witness :
    mapGet (storeAfter (addTxToBundle
        { bundles := [("a", { transactions := ["0x1"], createdAt := 1 }),
                      ("b", { transactions := ["0x2"], createdAt := 2 })],
          maxAge := 10 * Minute, maxTxs := 15 } 9 "a" "0x3")).bundles "b"
      = some { transactions := ["0x2"], createdAt := 2 } ∧
    mapGet (deleteBundleTxs
        { bundles := [("a", { transactions := ["0x1"], createdAt := 1 }),
                      ("b", { transactions := ["0x2"], createdAt := 2 })],
          maxAge := 10 * Minute, maxTxs := 15 } "a").1.bundles "b"
      = some { transactions := ["0x2"], createdAt := 2 } :=
  have h := append_delete_frame
    { bundles := [("a", { transactions := ["0x1"], createdAt := 1 }),
                  ("b", { transactions := ["0x2"], createdAt := 2 })],
      maxAge := 10 * Minute, maxTxs := 15 } 9 "a" "b" "0x3" (by decide)
  ⟨h.1, h.2.2.2.2.2.1⟩

/-- C20. No empty bundles: with `maxTxs ≥ 1`, every sequence of Append, Delete and Sweep calls
from the empty store runs without panic and ends in a store in which every bundle has at
least one record; so `List` returns the empty sequence exactly for the absent ids, and any
`addTxToBundle` made next returns `nil` and leaves its record in `List`. -/
theorem no_empty_bundles (maxAge maxTxs : Int) (calls : List Call) (hmax : 1 ≤ maxTxs) :
    ∃ s', run (emptyStore maxAge maxTxs) calls = .ok s' ∧
      (∀ e ∈ s'.bundles, e.2.transactions ≠ []) ∧
      (∀ bundleID, (getBundleTxs s' bundleID).1 = [] ↔ mapGet s'.bundles bundleID = none) ∧
      (∀ bundleID rawTx now, ∃ s'', addTxToBundle s' now bundleID rawTx = .ok (s'', none) ∧
        rawTx ∈ (getBundleTxs s'' bundleID).1) := by
  obtain ⟨s', h1, hok, hmax', hne⟩ := run_invariant
    (fun t => storeOk t ∧ 1 ≤ t.maxTxs ∧ ∀ e ∈ t.bundles, e.2.transactions ≠ [])
    exec_nonempty calls (emptyStore maxAge maxTxs)
    ⟨storeOk_emptyStore maxAge maxTxs (by omega), hmax,
      fun e he => by simp [emptyStore, NewRpcEndPointServer] at he⟩
  refine ⟨s', h1, hne, ?_, ?_⟩
  · intro bundleID
    unfold getBundleTxs
    cases hget : mapGet s'.bundles bundleID with
    | some b =>
      have := hne _ (mapGet_mem hget)
      simpa using this
    | none => simp
  · intro bundleID rawTx now
    have hadd := addTxToBundle_ok s' now bundleID rawTx hok.1 (by
      intro b hb
      have := (hok.2 _ (mapGet_mem hb)).1
      have : (1 : Int) ≤ maxInt64 := by decide
      simp only at *
      omega)
    refine ⟨_, hadd, ?_⟩
    simp only [getBundleTxs, mapGet_mapSet_self]
    exact mem_nextBundle s' now bundleID rawTx hmax'

/-- Witness for C20: capacity 1, where every new record evicts the one before. -/
theorem no_empty_bundles_witness :
    ∃ s', run (emptyStore (10 * Minute) 1)
        [.Append "b" "0x1" 1, .Append "b" "0x2" 2, .Append "c" "0x1" 3, .Delete "c"] = .ok s' ∧
      (∀ e ∈ s'.bundles, e.2.transactions ≠ []) ∧
      (∀ bundleID, (getBundleTxs s' bundleID).1 = [] ↔ mapGet s'.bundles bundleID = none) ∧
      (∀ bundleID rawTx now, ∃ s'', addTxToBundle s' now bundleID rawTx = .ok (s'', none) ∧
        rawTx ∈ (getBundleTxs s'' bundleID).1) :=
  no_empty_bundles (10 * Minute) 1 _ (by decide)

/-! ## Bounds of the trim -/

/-- C19, as stated, fails for negative capacities. With `maxTxs` the smallest `int` the
subtraction `len - maxTxs` overflows: for the one-element slice the start index is
`minInt64 + 1`, negative, not greater than the length (the Append panics all the same). And an
Append of a record already listed returns `nil` before the trim, whatever the capacity. -/
theorem trim_start_counterexample :
    trimTaken minInt64 ["0x1"] ∧
    trimStart minInt64 ["0x1"] = minInt64 + 1 ∧
    ¬ (trimStart minInt64 ["0x1"] > ((["0x1"] : List String).length : Int)) ∧
    addTxToBundle { NewRpcEndPointServer with maxTxs := minInt64 } 5 "b" "0x1"
      = .error { bundles := [("b", { transactions := ["0x1"], createdAt := 5 })],
                 maxAge := 10 * Minute, maxTxs := minInt64 } ∧
    addTxToBundle { bundles := [("b", { transactions := ["0x1"], createdAt := 5 })],
                    maxAge := 10 * Minute, maxTxs := -1 } 6 "b" "0x1"
      = .ok ({ bundles := [("b", { transactions := ["0x1"], createdAt := 5 })],
               maxAge := 10 * Minute, maxTxs := -1 }, none) := by
  refine ⟨by decide, by decide, by decide, by decide, by decide⟩

/-- C19, amended. Trim bounds, for `maxTxs` an `int` and a slice that can take one more
element. With `maxTxs ≥ 0` the start index `len - maxTxs` lies in `[0, len]` whenever the trim
is taken, and `addTxToBundle` returns `nil`. With `maxTxs < 0` every Append of a record not
yet listed takes the trim with a start index out of range and panics: the index is greater
than `len` when `len - maxTxs` fits an `int`, and negative when it overflows. An Append of a
listed record returns `nil` before the trim, whatever the capacity. -/
theorem trim_in_bounds (s : RpcEndPointServer) (now : Int) (bundleID rawTx : String)
    (hint : minInt64 ≤ s.maxTxs) (hlen : ((records s bundleID).length : Int) < maxInt64) :
    (0 ≤ s.maxTxs →
      (trimTaken s.maxTxs (records s bundleID ++ [rawTx]) →
        sliceInRange (trimStart s.maxTxs (records s bundleID ++ [rawTx]))
          (records s bundleID ++ [rawTx])) ∧
      ∃ s', addTxToBundle s now bundleID rawTx = .ok (s', none)) ∧
    (s.maxTxs < 0 → rawTx ∉ records s bundleID →
      trimTaken s.maxTxs (records s bundleID ++ [rawTx]) ∧
      ¬ sliceInRange (trimStart s.maxTxs (records s bundleID ++ [rawTx]))
        (records s bundleID ++ [rawTx]) ∧
      (∃ s', addTxToBundle s now bundleID rawTx = .error s') ∧
      (((records s bundleID ++ [rawTx]).length : Int) - s.maxTxs ≤ maxInt64 →
        trimStart s.maxTxs (records s bundleID ++ [rawTx])
          > ((records s bundleID ++ [rawTx]).length : Int)) ∧
      (((records s bundleID ++ [rawTx]).length : Int) - s.maxTxs > maxInt64 →
        trimStart s.maxTxs (records s bundleID ++ [rawTx]) < 0)) ∧
    (rawTx ∈ records s bundleID → addTxToBundle s now bundleID rawTx = .ok (s, none)) := by
  have hlen' : ((records s bundleID ++ [rawTx]).length : Int)
      = ((records s bundleID).length : Int) + 1 := by
    simp
  refine ⟨?_, ?_, ?_⟩
  · intro hmax
    constructor
    · intro htaken
      unfold trimTaken at htaken
      unfold sliceInRange trimStart
      rw [wrap64_eq_self (by unfold minInt64; omega) (by omega)]
      omega
    · refine ⟨_, addTxToBundle_ok s now bundleID rawTx hmax ?_⟩
      intro b hb
      have : records s bundleID = b.transactions := by
        simp [records, getBundleTxs, hb]
      rw [this] at hlen
      omega
  · intro hneg hnew
    have htaken : trimTaken s.maxTxs (records s bundleID ++ [rawTx]) := by
      unfold trimTaken
      omega
    have hfits : ((records s bundleID ++ [rawTx]).length : Int) - s.maxTxs ≤ maxInt64 →
        trimStart s.maxTxs (records s bundleID ++ [rawTx])
          > ((records s bundleID ++ [rawTx]).length : Int) := by
      intro h
      unfold trimStart
      rw [wrap64_eq_self (by unfold minInt64; omega) h]
      omega
    have hover : ((records s bundleID ++ [rawTx]).length : Int) - s.maxTxs > maxInt64 →
        trimStart s.maxTxs (records s bundleID ++ [rawTx]) < 0 := by
      intro h
      unfold trimStart wrap64
      unfold maxInt64 at h hlen
      unfold minInt64 at hint
      omega
    have hout : ¬ sliceInRange (trimStart s.maxTxs (records s bundleID ++ [rawTx]))
        (records s bundleID ++ [rawTx]) := by
      unfold sliceInRange
      by_cases h : ((records s bundleID ++ [rawTx]).length : Int) - s.maxTxs ≤ maxInt64
      · have := hfits h
        omega
      · have := hover (by omega)
        omega
    exact ⟨htaken, hout, (addTxToBundle_error_iff s now bundleID rawTx hnew).mpr ⟨htaken, hout⟩,
      hfits, hover⟩
  · intro hdup
    rw [records_eq s now bundleID] at hdup
    unfold addTxToBundle bundleAt at *
    cases hget : mapGet s.bundles bundleID with
    | some b =>
      simp only [hget, Option.getD_some] at hdup ⊢
      exact addTxToBundle.store_dup s s.bundles b bundleID rawTx hdup
    | none =>
      simp only [hget, Option.getD_none] at hdup
      exact absurd hdup (List.not_mem_nil _)

/-- Witness for C19: capacity 2 on a full bundle (start index 1 of 3), and capacity -1 on an
empty store (start index 2 of 1). -/
theorem trim_in_bounds_witness :
    (sliceInRange (trimStart 2 (["0x1", "0x2"] ++ ["0x3"])) (["0x1", "0x2"] ++ ["0x3"]) ∧
      ∃ s', addTxToBundle
        { bundles := [("b", { transactions := ["0x1", "0x2"], createdAt := 7 })],
          maxAge := 10 * Minute, maxTxs := 2 } 9 "b" "0x3" = .ok (s', none)) ∧
    (∃ s', addTxToBundle { NewRpcEndPointServer with maxTxs := -1 } 9 "b" "0x3" = .error s') := by
  have h1 := (trim_in_bounds
    { bundles := [("b", { transactions := ["0x1", "0x2"], createdAt := 7 })],
      maxAge := 10 * Minute, maxTxs := 2 } 9 "b" "0x3" (by decide) (by decide)).1 (by decide)
  have h2 := (trim_in_bounds { NewRpcEndPointServer with maxTxs := -1 } 9 "b" "0x3"
    (by decide) (by decide)).2.1 (by decide) (by decide)
  exact ⟨⟨h1.1 (by decide), h1.2⟩, h2.2.2.1⟩

/-! ## List and the transport adapter -/

/-- C13. List is a pure read: `getBundleTxs` returns the records of the bundle, as stored,
when the bundle is present and the empty sequence when it is absent, with `nil` in both cases;
it yields no new store (the source has no write in it), and a GET request served by
`HandleBundleRequest` returns with the store it was given. -/
theorem getBundleTxs_pure_read (s : RpcEndPointServer) (bundleID : String) :
    (∀ b, mapGet s.bundles bundleID = some b →
      getBundleTxs s bundleID = (b.transactions, none)) ∧
    (mapGet s.bundles bundleID = none → getBundleTxs s bundleID = ([], none)) ∧
    (getBundleTxs s bundleID).2 = none ∧
    (∀ decode encode now w r, r.Method = "GET" →
      ∃ w', HandleBundleRequest decode encode s now w r = .ok (w', s)) := by
  refine ⟨?_, ?_, ?_, ?_⟩
  · intro b hb
    simp only [getBundleTxs, hb]
  · intro hb
    simp only [getBundleTxs, hb]
  · rw [getBundleTxs_eq]
  · intro decode encode now w r hget
    unfold HandleBundleRequest
    simp only [hget, show ¬ ("GET" = "OPTIONS") by decide, if_false, if_true]
    by_cases hid : queryGet r.Query "id" = ""
    · simp only [hid, if_true]
      exact ⟨_, rfl⟩
    · simp only [hid, if_false]
      refine ⟨(handleGetBundle encode s (setCorsHeaders w) (queryGet r.Query "id")).1, ?_⟩
      exact congrArg Except.ok
        (Prod.ext rfl (handleGetBundle_snd encode s (setCorsHeaders w) (queryGet r.Query "id")))

/-- C15. Validation errors cause no mutation: on a writer whose status line has not gone out,
a GET, POST or DELETE request whose `id` parameter is missing or empty, and a POST request
whose body does not decode or decodes to an empty `rawTx`, are answered with status 400 and
the handler returns the store it was given. -/
theorem validation_no_mutation (decode : String → Option TransactionRequest)
    (encode : BundleResponse → Option String) (s : RpcEndPointServer) (now : Int)
    (w : ResponseWriter) (r : Request) (hw : w.wroteHeader = false) :
    ((r.Method = "GET" ∨ r.Method = "POST" ∨ r.Method = "DELETE") →
      queryGet r.Query "id" = "" →
      ∃ w', HandleBundleRequest decode encode s now w r = .ok (w', s) ∧
        w'.wroteHeader = true ∧ w'.Code = 400) ∧
    (r.Method = "POST" →
      (decode r.Body = none ∨ ∃ t, decode r.Body = some t ∧ t.RawTx = "") →
      ∃ w', HandleBundleRequest decode encode s now w r = .ok (w', s) ∧
        w'.wroteHeader = true ∧ w'.Code = 400) := by
  have hw0 : (setCorsHeaders w).wroteHeader = false := hw
  have hnoid : ∀ (hm : ¬ r.Method = "OPTIONS") (hid : queryGet r.Query "id" = ""),
      ∃ w', HandleBundleRequest decode encode s now w r = .ok (w', s) ∧
        w'.wroteHeader = true ∧ w'.Code = 400 := by
    intro hm hid
    obtain ⟨a1, a2, _⟩ := httpError_fresh hw0 "no bundle id" 400
    refine ⟨httpError (setCorsHeaders w) "no bundle id" 400, ?_, a1, a2⟩
    unfold HandleBundleRequest
    simp only [hm, hid, if_false, if_true]
  constructor
  · intro hmethod hid
    apply hnoid _ hid
    rcases hmethod with h | h | h <;> rw [h] <;> decide
  · intro hpost hbody
    have hm : ¬ r.Method = "OPTIONS" := by rw [hpost]; decide
    by_cases hid : queryGet r.Query "id" = ""
    · exact hnoid hm hid
    · have hunf : HandleBundleRequest decode encode s now w r
          = handleAddTransaction decode s now (setCorsHeaders w) r (queryGet r.Query "id") := by
        unfold HandleBundleRequest
        simp only [hpost, hid, show ¬ ("POST" = "OPTIONS") by decide,
          show ¬ ("POST" = "GET") by decide, if_false, if_true]
      rw [hunf]
      unfold handleAddTransaction
      rcases hbody with hnone | ⟨t, hsome, hraw⟩
      · obtain ⟨a1, a2, _⟩ := httpError_fresh hw0 "invalid request body" 400
        exact ⟨_, by simp only [hnone], a1, a2⟩
      · obtain ⟨a1, a2, _⟩ := httpError_fresh hw0 "rawTx is required" 400
        exact ⟨_, by simp only [hsome, hraw, if_true], a1, a2⟩

/-- Witness for C15: the last case of `TestHandleBundleRequest`, a GET without bundle id on a
store holding a bundle. -/
theorem validation_no_mutation_witness :
    ∃ w', HandleBundleRequest (fun body => if body = "" then none else some { RawTx := body })
        (fun resp => some (String.join resp.RawTxs))
        { bundles := [("test-bundle-1", { transactions := ["0x123"], createdAt := 5 })],
          maxAge := 10 * Minute, maxTxs := 15 } 9 NewRecorder
        { Method := "GET", Query := [("id", "")], Body := "" }
        = .ok (w', { bundles := [("test-bundle-1",
                        { transactions := ["0x123"], createdAt := 5 })],
                     maxAge := 10 * Minute, maxTxs := 15 }) ∧
      w'.wroteHeader = true ∧ w'.Code = 400 :=
  (validation_no_mutation (fun body => if body = "" then none else some { RawTx := body })
    (fun resp => some (String.join resp.RawTxs))
    { bundles := [("test-bundle-1", { transactions := ["0x123"], createdAt := 5 })],
      maxAge := 10 * Minute, maxTxs := 15 } 9 NewRecorder
    { Method := "GET", Query := [("id", "")], Body := "" } rfl).1 (Or.inl rfl) (by decide)

/-- C16. CORS headers on every response: on a writer whose status line has not gone out,
whenever `HandleBundleRequest` returns (any method, with or without id, status 200, 400, 405 or
500) the status line has gone out with the three cross-origin headers among the headers sent;
it returns whenever `maxTxs ≥ 0` and the slices can take one more element; should the Append
panic, nothing has been sent and the headers are in the header map. -/
theorem cors_on_every_response (decode : String → Option TransactionRequest)
    (encode : BundleResponse → Option String) (s : RpcEndPointServer) (now : Int)
    (w : ResponseWriter) (r : Request) (hw : w.wroteHeader = false) :
    (∀ w' s', HandleBundleRequest decode encode s now w r = .ok (w', s') →
      w'.wroteHeader = true ∧ hasCors w'.sent) ∧
    (∀ w' s', HandleBundleRequest decode encode s now w r = .error (w', s') →
      w'.wroteHeader = false ∧ hasCors w'.header) ∧
    (0 ≤ s.maxTxs → (∀ bundleID, ((records s bundleID).length : Int) < maxInt64) →
      ∃ w' s', HandleBundleRequest decode encode s now w r = .ok (w', s')) := by
  have hw0 : (setCorsHeaders w).wroteHeader = false := hw
  have hc0 := hasCors_setCorsHeaders w
  unfold HandleBundleRequest
  simp only
  by_cases hopt : r.Method = "OPTIONS"
  · simp only [hopt, if_true]
    obtain ⟨a1, _, a3, _⟩ := WriteHeader_fresh hw0 200
    refine ⟨?_, ?_, fun _ _ => ⟨_, _, rfl⟩⟩
    · intro w' s' h
      simp only [Except.ok.injEq, Prod.mk.injEq] at h
      rw [← h.1]
      exact ⟨a1, by rw [a3]; exact hc0⟩
    · intro w' s' h
      exact absurd h (by simp)
  · simp only [hopt, if_false]
    by_cases hid : queryGet r.Query "id" = ""
    · simp only [hid, if_true]
      obtain ⟨a1, _, a3⟩ := httpError_fresh hw0 "no bundle id" 400
      refine ⟨?_, ?_, fun _ _ => ⟨_, _, rfl⟩⟩
      · intro w' s' h
        simp only [Except.ok.injEq, Prod.mk.injEq] at h
        rw [← h.1]
        exact ⟨a1, (a3 hc0).1⟩
      · intro w' s' h
        exact absurd h (by simp)
    · simp only [hid, if_false]
      by_cases hget : r.Method = "GET"
      · simp only [hget, if_true]
        obtain ⟨_, a1, a2, _⟩ :=
          handleGetBundle_fresh encode s hw0 hc0 (queryGet r.Query "id")
        refine ⟨?_, ?_, fun _ _ => ⟨_, _, rfl⟩⟩
        · intro w' s' h
          simp only [Except.ok.injEq] at h
          rw [h] at a1 a2
          exact ⟨a1, a2⟩
        · intro w' s' h
          exact absurd h (by simp)
      · simp only [hget, if_false]
        by_cases hpost : r.Method = "POST"
        · simp only [hpost, if_true]
          obtain ⟨b1, b2⟩ := handleAddTransaction_fresh decode s now hw0 hc0 r
            (queryGet r.Query "id")
          refine ⟨?_, ?_, ?_⟩
          · intro w' s' h
            exact ⟨(b1 w' s' h).1, (b1 w' s' h).2.1⟩
          · intro w' s' h
            rw [b2 w' s' h]
            exact ⟨hw0, hc0⟩
          · intro hmax hlen
            unfold handleAddTransaction
            cases decode r.Body with
            | none => exact ⟨_, _, rfl⟩
            | some txReq =>
              simp only
              by_cases hraw : txReq.RawTx = ""
              · simp only [hraw, if_true]
                exact ⟨_, _, rfl⟩
              · simp only [hraw, if_false]
                rw [addTxToBundle_ok s now (queryGet r.Query "id") txReq.RawTx hmax (by
                  intro b hb
                  have h1 := hlen (queryGet r.Query "id")
                  have : records s (queryGet r.Query "id") = b.transactions := by
                    simp [records, getBundleTxs, hb]
                  rw [this] at h1
                  omega)]
                exact ⟨_, _, rfl⟩
        · simp only [hpost, if_false]
          by_cases hdel : r.Method = "DELETE"
          · simp only [hdel, if_true]
            obtain ⟨a1, _, a3, _⟩ := WriteHeader_fresh hw0 200
            refine ⟨?_, ?_, fun _ _ => ⟨_, _, rfl⟩⟩
            · intro w' s' h
              simp only [handleDeleteBundle_eq, Except.ok.injEq, Prod.mk.injEq] at h
              rw [← h.1]
              exact ⟨a1, by rw [a3]; exact hc0⟩
            · intro w' s' h
              exact absurd h (by simp)
          · simp only [hdel, if_false]
            obtain ⟨a1, _, a3, _⟩ := WriteHeader_fresh hw0 405
            refine ⟨?_, ?_, fun _ _ => ⟨_, _, rfl⟩⟩
            · intro w' s' h
              simp only [Except.ok.injEq, Prod.mk.injEq] at h
              rw [← h.1]
              exact ⟨a1, by rw [a3]; exact hc0⟩
            · intro w' s' h
              exact absurd h (by simp)

/-- Witness for C16: a PUT request, which the handler answers with 405, on the new store. -/
theorem cors_on_every_response_witness :
    ∃ w' s', HandleBundleRequest (fun body => if body = "" then none else some { RawTx := body })
        (fun resp => some (String.join resp.RawTxs)) NewRpcEndPointServer 9 NewRecorder
        { Method := "PUT", Query := [("id", "test-bundle-1")], Body := "" } = .ok (w', s') ∧
      w'.wroteHeader = true ∧ hasCors w'.sent := by
  have h := cors_on_every_response (fun body => if body = "" then none else some { RawTx := body })
    (fun resp => some (String.join resp.RawTxs)) NewRpcEndPointServer 9 NewRecorder
    { Method := "PUT", Query := [("id", "test-bundle-1")], Body := "" } rfl
  obtain ⟨w', s', hok⟩ := h.2.2 (by decide) (fun bundleID => by
    simp only [records, getBundleTxs, NewRpcEndPointServer, mapGet, List.length_nil]
    decide)
  exact ⟨w', s', hok, h.1 w' s' hok⟩

/-- Witness for C13: the third case of `TestHandleBundleRequest`, a GET of a bundle holding
`0x123`. -/
theorem getBundleTxs_pure_read_witness :
    getBundleTxs { bundles := [("test-bundle-1", { transactions := ["0x123"], createdAt := 5 })],
                   maxAge := 10 * Minute, maxTxs := 15 } "test-bundle-1" = (["0x123"], none) ∧
    ∃ w', HandleBundleRequest (fun body => if body = "" then none else some { RawTx := body })
        (fun resp => some (String.join resp.RawTxs))
        { bundles := [("test-bundle-1", { transactions := ["0x123"], createdAt := 5 })],
          maxAge := 10 * Minute, maxTxs := 15 } 9 NewRecorder
        { Method := "GET", Query := [("id", "test-bundle-1")], Body := "" }
        = .ok (w', { bundles := [("test-bundle-1",
                        { transactions := ["0x123"], createdAt := 5 })],
                     maxAge := 10 * Minute, maxTxs := 15 }) :=
  have h := getBundleTxs_pure_read
    { bundles := [("test-bundle-1", { transactions := ["0x123"], createdAt := 5 })],
      maxAge := 10 * Minute, maxTxs := 15 } "test-bundle-1"
  ⟨h.1 _ rfl, h.2.2.2 _ _ 9 NewRecorder
    { Method := "GET", Query := [("id", "test-bundle-1")], Body := "" } rfl⟩

/-! ## The slice that List returns -/

/-- C14, as stated, fails. After one Append of `0x1` to bundle `b`, `getBundleTxs` returns the
slice header stored in the bundle, on the store's own backing array; when the caller assigns
`0xbad` to element 0 of what it got, the store's records for `b` read `0xbad`. -/
theorem returned_slice_counterexample :
    Mem.mapGet (Mem.reached (fun n => n) (10 * Minute) 15 [.Append "b" "0x1" 1]).bundles "b"
      = some { transactions := { array := 1, off := 0, len := 1, cap := 2 }, createdAt := 1 } ∧
    (Mem.getBundleTxs (Mem.reached (fun n => n) (10 * Minute) 15 [.Append "b" "0x1" 1]) "b").1
      = { array := 1, off := 0, len := 1, cap := 2 } ∧
    (Mem.getBundleTxs (Mem.reached (fun n => n) (10 * Minute) 15 [.Append "b" "0x1" 1]) "b").1.read
      (Mem.reached (fun n => n) (10 * Minute) 15 [.Append "b" "0x1" 1]).heap = ["0x1"] ∧
    (Mem.getBundleTxs
      { Mem.reached (fun n => n) (10 * Minute) 15 [.Append "b" "0x1" 1] with
        heap := (Slice.write
          (Mem.reached (fun n => n) (10 * Minute) 15 [.Append "b" "0x1" 1]).heap
          { array := 1, off := 0, len := 1, cap := 2 } 0 "0xbad") } "b").1.read
      (Slice.write (Mem.reached (fun n => n) (10 * Minute) 15 [.Append "b" "0x1" 1]).heap
        { array := 1, off := 0, len := 1, cap := 2 } 0 "0xbad") = ["0xbad"] := by
  refine ⟨by decide, by decide, by decide, by decide⟩

/-- C14, amended. `getBundleTxs` returns the bundle's own slice header, not a copy. In a store
`m` in memory reached from the empty store, the slice reads as the sequence `List` returns on
the store of sequences reached by the same calls; no later Append, Delete or Sweep changes the
elements of the sequence it returned (the store writes behind its end or on a new array); but
the sequence shares the store's backing array, so a caller assigning to element `i` of it
changes the store's records for the bundle. -/
theorem getBundleTxs_shares_storage (grow : Nat → Nat) (maxAge maxTxs : Int)
    (before later : List Call) (m : Mem.RpcEndPointServer) (bundleID : String)
    (hm : m = Mem.reached grow maxAge maxTxs before) :
    (Mem.getBundleTxs m bundleID).1.read m.heap
      = (getBundleTxs (runThrough (emptyStore maxAge maxTxs) before) bundleID).1 ∧
    (∀ b, Mem.mapGet m.bundles bundleID = some b →
      (Mem.getBundleTxs m bundleID).1 = b.transactions) ∧
    (Mem.getBundleTxs m bundleID).1.read (Mem.runThrough grow m later).heap
      = (Mem.getBundleTxs m bundleID).1.read m.heap ∧
    (∀ i x, i < (Mem.getBundleTxs m bundleID).1.len →
      (Mem.getBundleTxs
        { m with heap := ((Mem.getBundleTxs m bundleID).1.write m.heap i x) } bundleID).1.read
        ((Mem.getBundleTxs m bundleID).1.write m.heap i x)
        = ((Mem.getBundleTxs m bundleID).1.read m.heap).set i x) := by
  have hok : Mem.storeOk m := by
    rw [hm]
    exact Mem.reached_storeOk grow maxAge maxTxs before
  have habs : Mem.abs m = runThrough (emptyStore maxAge maxTxs) before := by
    rw [hm]
    exact runThrough_refines grow before (Mem.emptyStore maxAge maxTxs)
      ⟨fun e he => by simp [Mem.emptyStore] at he, by simp [Mem.emptyStore]⟩
  refine ⟨by rw [(getBundleTxs_refines m bundleID).1, habs], ?_⟩
  unfold Mem.getBundleTxs
  cases hget : Mem.mapGet m.bundles bundleID with
  | some b =>
    simp only [hget]
    refine ⟨fun b' hb' => by rw [Option.some.injEq] at hb'; rw [hb'], ?_, ?_⟩
    · exact (Mem.runThrough_behind grow later m b.transactions
        (Mem.behind_of_storeOk hok hget)).1
    · intro i x hi
      exact Slice.read_write (hok.1 _ (Mem.mapGet_mem_slices hget)) i x hi
  | none =>
    simp only [hget]
    refine ⟨fun b' hb' => absurd hb' (by simp), ?_, ?_⟩
    · simp [Slice.read, Slice.empty]
    · intro i x hi
      exact absurd hi (by simp [Slice.empty])

/-- Witness for C14: with capacity 2 the slice returned for `b` after two Appends still reads
`0x1, 0x2` after two more Appends, a Delete and a further Append. -/
theorem getBundleTxs_shares_storage_witness :
    (Mem.getBundleTxs (Mem.reached (fun n => n) (10 * Minute) 2
        [.Append "b" "0x1" 1, .Append "b" "0x2" 2]) "b").1.read
      (Mem.runThrough (fun n => n)
        (Mem.reached (fun n => n) (10 * Minute) 2 [.Append "b" "0x1" 1, .Append "b" "0x2" 2])
        [.Append "b" "0x3" 3, .Append "b" "0x4" 4, .Delete "b", .Append "b" "0x5" 5]).heap
      = ["0x1", "0x2"] :=
  (getBundleTxs_shares_storage (fun n => n) (10 * Minute) 2
    [.Append "b" "0x1" 1, .Append "b" "0x2" 2]
    [.Append "b" "0x3" 3, .Append "b" "0x4" 4, .Delete "b", .Append "b" "0x5" 5] _ "b"
    rfl).2.2.1

end BundleServer
